import Mathlib

/-!
# Regular expression to DFA: Thompson construction, subset construction, matcher

A shallow embedding of `flqn2.cpp` (the builder and converter are the same in
`flqn1.cpp`, which lacks `DFA::validate`).

Modelling conventions
* `std::set<T>` is a strictly ascending list, `std::map<K,V>` a list of pairs
  with strictly ascending keys; `setInsert`, `mapInsert` keep that order, so
  that iteration order and comparison by value are the ones of the C++ code.
* `std::vector`, `std::stack` (top first) and `std::queue` (front first) are lists.
* `char` is `Char`, `std::string` is `List Char`, `int` state identities are `Nat`
  (they are only ever produced from `size()`).
* `while` loops whose termination is not structural carry a step budget and
  answer `none` when it runs out.
-/

namespace TOC

/-! ## Ordered containers -/

/-- Insertion into a `std::set`: ascending order, no duplicate. -/
def setInsert {α : Type} [LT α] [DecidableRel (α := α) (· < ·)] [DecidableEq α]
    (a : α) : List α → List α
  | [] => [a]
  | b :: s => if a = b then b :: s else if a < b then a :: b :: s else b :: setInsert a s

/-- Lookup in a `std::map` (`find` / `count` / `at`). -/
def mapFind {κ ν : Type} [DecidableEq κ] (k : κ) : List (κ × ν) → Option ν
  | [] => none
  | (k', v) :: m => if k = k' then some v else mapFind k m

/-- Insert-or-assign in a `std::map`, keys ascending. -/
def mapInsert {κ ν : Type} [LT κ] [DecidableRel (α := κ) (· < ·)] [DecidableEq κ]
    (k : κ) (v : ν) : List (κ × ν) → List (κ × ν)
  | [] => [(k, v)]
  | (k', v') :: m =>
    if k = k' then (k, v) :: m
    else if k < k' then (k, v) :: (k', v') :: m
    else (k', v') :: mapInsert k v m

/-- The non-const `operator[]` of `std::map`: the value stored under `k`, and the map
itself, in which a missing key has been given the value-initialised `dflt`. -/
def mapIndex {κ ν : Type} [LT κ] [DecidableRel (α := κ) (· < ·)] [DecidableEq κ]
    (dflt : ν) (k : κ) (m : List (κ × ν)) : ν × List (κ × ν) :=
  match mapFind k m with
  | some v => (v, m)
  | none => (dflt, mapInsert k dflt m)

/-- In-place update of `v[i]`. An index outside the vector is undefined behaviour in
C++; the model leaves the vector unchanged there. -/
def modifyAt {α : Type} (f : α → α) : Nat → List α → List α
  | _, [] => []
  | 0, a :: l => f a :: l
  | n + 1, a :: l => a :: modifyAt f n l

/-! ## Automaton model -/

/-- `struct NFAState`. -/
structure NFAState where
  id : Nat
  transitions : List (Char × List Nat)
  epsilonTransitions : List Nat
  isAccepting : Bool
deriving DecidableEq

/-- `NFAState(int id)`. -/
def NFAState.new (id : Nat) : NFAState := ⟨id, [], [], false⟩

/-- `class NFA`. -/
structure NFA where
  states : List NFAState
  startState : Nat
  acceptStates : List Nat
  alphabet : List Char
deriving DecidableEq

/-- `NFA()`. -/
def NFA.new : NFA := ⟨[], 0, [], []⟩

/-- Read of `nfa.states[i]`. An index outside the vector is undefined behaviour in C++;
the model reads a state without edges there. -/
def NFA.stateAt (nfa : NFA) (i : Nat) : NFAState :=
  nfa.states.getD i (NFAState.new i)

/-- `NFA::addState`: the new identity and the extended automaton. -/
def NFA.addState (nfa : NFA) : Nat × NFA :=
  (nfa.states.length, { nfa with states := nfa.states ++ [NFAState.new nfa.states.length] })

/-- `NFA::addTransition`. -/
def NFA.addTransition (nfa : NFA) (src : Nat) (symbol : Char) (dst : Nat) : NFA :=
  { nfa with
    states := modifyAt (fun st => { st with
      transitions :=
        mapInsert symbol (setInsert dst (mapIndex [] symbol st.transitions).1) st.transitions })
      src nfa.states
    alphabet := if symbol ≠ Char.ofNat 0 then setInsert symbol nfa.alphabet else nfa.alphabet }

/-- `NFA::addEpsilonTransition`. -/
def NFA.addEpsilonTransition (nfa : NFA) (src dst : Nat) : NFA :=
  { nfa with
    states := modifyAt (fun st => { st with
      epsilonTransitions := setInsert dst st.epsilonTransitions }) src nfa.states }

/-- `NFA::setAccepting`. -/
def NFA.setAccepting (nfa : NFA) (state : Nat) : NFA :=
  { nfa with
    states := modifyAt (fun st => { st with isAccepting := true }) state nfa.states
    acceptStates := setInsert state nfa.acceptStates }

/-- `class DFA`. -/
structure DFA where
  stateMap : List (List Nat × Nat)
  dfaStates : List (List Nat)
  transitions : List (Nat × List (Char × Nat))
  startState : Nat
  acceptStates : List Nat
  alphabet : List Char
deriving DecidableEq

/-- A default-constructed `DFA`. The C++ member `startState` is uninitialised until
`convert` assigns it; the model starts it at 0. -/
def DFA.new : DFA := ⟨[], [], [], 0, [], []⟩

/-- The loop of `DFA::validate`, from the state `currentState`; the second component is
the DFA object after the call (`transitions[currentState]` is the non-const
`operator[]`, which adds an empty row for a state that has none). -/
def DFA.validateLoop : List Char → DFA → Nat → Bool × DFA
  | [], d, currentState => (decide (currentState ∈ d.acceptStates), d)
  | c :: rest, d, currentState =>
    if c ∈ d.alphabet then
      let row := mapIndex [] currentState d.transitions
      let d1 := { d with transitions := row.2 }
      match mapFind c row.1 with
      | some next => DFA.validateLoop rest d1 next
      | none => (false, d1)
    else (false, d)

/-- `DFA::validate`: the verdict and the DFA object after the call. -/
def DFA.validate (d : DFA) (str : List Char) : Bool × DFA :=
  DFA.validateLoop str d d.startState

/-! ## Converter helpers -/

/-- The inner `for` of `epsilonClosure`: the epsilon successors of one state. -/
def epsilonStep (eps : List Nat) (closure q : List Nat) : List Nat × List Nat :=
  eps.foldl (fun (cq : List Nat × List Nat) e =>
    if e ∈ cq.1 then cq else (setInsert e cq.1, cq.2 ++ [e])) (closure, q)

/-- The `while (!q.empty())` loop of `epsilonClosure`, with a step budget. -/
def epsilonClosureLoop (nfa : NFA) : Nat → List Nat → List Nat → Option (List Nat)
  | _, closure, [] => some closure
  | 0, _, _ :: _ => none
  | fuel + 1, closure, state :: q =>
    let cq := epsilonStep (nfa.stateAt state).epsilonTransitions closure q
    epsilonClosureLoop nfa fuel cq.1 cq.2

/-- `RegexToDFA::epsilonClosure`. The budget covers one step per seed and one per state
of the automaton. -/
def epsilonClosure (states : List Nat) (nfa : NFA) : Option (List Nat) :=
  epsilonClosureLoop nfa (states.length + nfa.states.length) states states

/-- The body of the loop of `move`: the targets of the edges labeled `symbol` that leave
the state `s` are inserted into `result`. -/
def moveStep (nfa : NFA) (symbol : Char) (result : List Nat) (s : Nat) : List Nat :=
  match mapFind symbol (nfa.stateAt s).transitions with
  | some dsts => dsts.foldl (fun r next => setInsert next r) result
  | none => result

/-- `RegexToDFA::move`. -/
def move (states : List Nat) (symbol : Char) (nfa : NFA) : List Nat :=
  states.foldl (moveStep nfa symbol) []

/-! ## Thompson builder -/

/-- `RegexToDFA::charNFA`. -/
def charNFA (c : Char) : NFA :=
  let r0 := NFA.new.addState
  let r1 := r0.2.addState
  let nfa := r1.2.addTransition r0.1 c r1.1
  ({ nfa with startState := r0.1 }).setAccepting r1.1

/-- The loop `for (const auto& state : src) result.addState();`. -/
def addStates (src : List NFAState) (result : NFA) : NFA :=
  src.foldl (fun r _ => r.addState.2) result

/-- The loops `for (const auto& trans : ...transitions) for (int to : trans.second)` of the
copy: the labeled edges of one state are added to the state `src` of `result`. -/
def copyTransitions (src offset : Nat) (transitions : List (Char × List Nat)) (result : NFA) :
    NFA :=
  transitions.foldl (fun r trans =>
    trans.2.foldl (fun r dst => r.addTransition src trans.1 (dst + offset)) r) result

/-- The loop `for (int eps : ...epsilonTransitions)` of the copy. -/
def copyEpsilons (src offset : Nat) (epsilons : List Nat) (result : NFA) : NFA :=
  epsilons.foldl (fun r eps => r.addEpsilonTransition src (eps + offset)) result

/-- The loop copying the labeled and epsilon edges of the states `src` (numbered from
`i`) into `result`, shifted by `offset`. -/
def copyEdges (offset : Nat) : Nat → List NFAState → NFA → NFA
  | _, [], result => result
  | i, st :: rest, result =>
    let r1 := copyTransitions (i + offset) offset st.transitions result
    let r2 := copyEpsilons (i + offset) offset st.epsilonTransitions r1
    copyEdges offset (i + 1) rest r2

/-- The assignment `result.states[acc].isAccepting = false` of `concatenate`. -/
def NFA.clearFlag (nfa : NFA) (acc : Nat) : NFA :=
  { nfa with states := modifyAt (fun st => { st with isAccepting := false }) acc nfa.states }

/-- The loop `for (int acc : nfa1.acceptStates)` of `concatenate`: each accept state of
the first operand loses its flag and gets an epsilon edge to `target`. -/
def linkAccepting (accs : List Nat) (target : Nat) (result : NFA) : NFA :=
  accs.foldl (fun r acc => (r.clearFlag acc).addEpsilonTransition acc target) result

/-- The loop `for (int acc : nfa2.acceptStates) result.setAccepting(acc + offset);`. -/
def markAccepts (accs : List Nat) (offset : Nat) (result : NFA) : NFA :=
  accs.foldl (fun r acc => r.setAccepting (acc + offset)) result

/-- `RegexToDFA::concatenate`. -/
def concatenate (nfa1 nfa2 : NFA) : NFA :=
  let result := nfa1
  let offset := result.states.length
  let result := addStates nfa2.states result
  let result := copyEdges offset 0 nfa2.states result
  let result := linkAccepting nfa1.acceptStates (nfa2.startState + offset) result
  let result := { result with acceptStates := [] }
  markAccepts nfa2.acceptStates offset result

/-- The loop `for (int acc : ...acceptStates) result.addEpsilonTransition(acc + offset, end);`
of `alternate`. -/
def linkEnd (accs : List Nat) (offset stop : Nat) (result : NFA) : NFA :=
  accs.foldl (fun r acc => r.addEpsilonTransition (acc + offset) stop) result

/-- The loop `for (int acc : nfa.acceptStates)` of `star`: each accept state of the operand
gets an epsilon edge to `end` and one back to the start of the operand. -/
def linkLoop (accs : List Nat) (offset stop back : Nat) (result : NFA) : NFA :=
  accs.foldl (fun r acc =>
    (r.addEpsilonTransition (acc + offset) stop).addEpsilonTransition (acc + offset) back) result

/-- `RegexToDFA::alternate`. -/
def alternate (nfa1 nfa2 : NFA) : NFA :=
  let r0 := NFA.new.addState
  let start := r0.1
  let result := { r0.2 with startState := start }
  let offset1 := result.states.length
  let result := addStates nfa1.states result
  let result := copyEdges offset1 0 nfa1.states result
  let offset2 := result.states.length
  let result := addStates nfa2.states result
  let result := copyEdges offset2 0 nfa2.states result
  let r1 := result.addState
  let stop := r1.1
  let result := r1.2
  let result := result.addEpsilonTransition start (nfa1.startState + offset1)
  let result := result.addEpsilonTransition start (nfa2.startState + offset2)
  let result := linkEnd nfa1.acceptStates offset1 stop result
  let result := linkEnd nfa2.acceptStates offset2 stop result
  result.setAccepting stop

/-- `RegexToDFA::star`. -/
def star (nfa : NFA) : NFA :=
  let r0 := NFA.new.addState
  let start := r0.1
  let result := { r0.2 with startState := start }
  let offset := result.states.length
  let result := addStates nfa.states result
  let result := copyEdges offset 0 nfa.states result
  let r1 := result.addState
  let stop := r1.1
  let result := r1.2
  let result := result.addEpsilonTransition start (nfa.startState + offset)
  let result := result.addEpsilonTransition start stop
  let result := linkLoop nfa.acceptStates offset stop (nfa.startState + offset) result
  result.setAccepting stop

/-- `RegexToDFA::processOperator`, on the operand stack (top first). -/
def processOperator (op : Char) (nfaStack : List NFA) : List NFA :=
  match nfaStack with
  | nfa2 :: nfa1 :: rest => if op = '|' then alternate nfa1 nfa2 :: rest else nfaStack
  | _ => nfaStack

/-- The loop `while (!opStack.empty() && opStack.top() != '(')` of `parseRegex`. -/
def reduceOps : List Char → List NFA → List Char × List NFA
  | [], nfaStack => ([], nfaStack)
  | op :: ops, nfaStack =>
    if op ≠ '(' then reduceOps ops (processOperator op nfaStack) else (op :: ops, nfaStack)

/-- One turn of the scanning loop of `parseRegex` on the character `c`; the state is the
operand stack and the operator stack. -/
def scanChar (st : List NFA × List Char) (c : Char) : List NFA × List Char :=
  if c.isAlphanum then (charNFA c :: st.1, st.2)
  else if c = '(' then (st.1, c :: st.2)
  else if c = ')' then
    let r := reduceOps st.2 st.1
    (r.2, r.1.tail)
  else if c = '|' then
    let r := reduceOps st.2 st.1
    (r.2, c :: r.1)
  else if c = '*' then
    match st.1 with
    | nfa :: rest => (star nfa :: rest, st.2)
    | [] => st
  else st

/-- The loop `while (nfaStack.size() > 1)` of `parseRegex`, on the top and the rest of
the operand stack. -/
def concatAll : NFA → List NFA → NFA
  | top, [] => top
  | nfa2, nfa1 :: rest => concatAll (concatenate nfa1 nfa2) rest

/-- `RegexToDFA::parseRegex`. The final `nfaStack.top()` on an empty stack is undefined
behaviour in C++ (no check, no exception); the model answers `none` there. -/
def parseRegex (regex : List Char) : Option NFA :=
  let st := regex.foldl scanChar ([], [])
  let nfaStack := st.2.foldl (fun ns op => processOperator op ns) st.1
  match nfaStack with
  | [] => none
  | top :: rest => some (concatAll top rest)

/-! ## Subset construction -/

/-- The accepting test `for (int s : subset) if (nfa.acceptStates.count(s)) ...`. -/
def markAccepting (nfa : NFA) (subset : List Nat) (id : Nat) (dfa : DFA) : DFA :=
  if subset.any (fun s => decide (s ∈ nfa.acceptStates)) then
    { dfa with acceptStates := setInsert id dfa.acceptStates }
  else dfa

/-- The body of the `for (char symbol : nfa.alphabet)` loop of `convert`, once
`nextClosure` is known. -/
def recordSymbol (nfa : NFA) (currentDFAState : Nat) (symbol : Char) (nextClosure : List Nat)
    (st : DFA × List (List Nat)) : DFA × List (List Nat) :=
  if nextClosure ≠ [] then
    let st1 :=
      if mapFind nextClosure st.1.stateMap = none then
        let newStateId := st.1.dfaStates.length
        let dfa := { st.1 with
          stateMap := mapInsert nextClosure newStateId st.1.stateMap
          dfaStates := st.1.dfaStates ++ [nextClosure] }
        (markAccepting nfa nextClosure newStateId dfa, st.2 ++ [nextClosure])
      else st
    let target := mapIndex 0 nextClosure st1.1.stateMap
    let row := mapIndex [] currentDFAState st1.1.transitions
    ({ st1.1 with
        stateMap := target.2
        transitions := mapInsert currentDFAState (mapInsert symbol target.1 row.1) row.2 },
      st1.2)
  else st

/-- The `for (char symbol : nfa.alphabet)` loop of `convert`. -/
def symbolLoop (nfa : NFA) (current : List Nat) (currentDFAState : Nat) :
    List Char → DFA × List (List Nat) → Option (DFA × List (List Nat))
  | [], st => some st
  | symbol :: rest, st =>
    match epsilonClosure (move current symbol nfa) nfa with
    | none => none
    | some nextClosure =>
      symbolLoop nfa current currentDFAState rest
        (recordSymbol nfa currentDFAState symbol nextClosure st)

/-- The `while (!unmarked.empty())` loop of `convert`, with a step budget. -/
def worklist (nfa : NFA) : Nat → DFA → List (List Nat) → Option DFA
  | _, dfa, [] => some dfa
  | 0, _, _ :: _ => none
  | fuel + 1, dfa, current :: unmarked =>
    let cur := mapIndex 0 current dfa.stateMap
    match symbolLoop nfa current cur.1 nfa.alphabet ({ dfa with stateMap := cur.2 }, unmarked) with
    | none => none
    | some st => worklist nfa fuel st.1 st.2

/-- The DFA of `convert` when the worklist loop is entered: the start closure is the
state 0, marked accepting if it holds an accept state of the automaton. -/
def startDFA (nfa : NFA) (startClosure : List Nat) : DFA :=
  markAccepting nfa startClosure 0 { DFA.new with
    alphabet := nfa.alphabet
    stateMap := mapInsert startClosure 0 []
    dfaStates := [startClosure]
    startState := 0 }

/-- The subset-construction part of `RegexToDFA::convert`. The budget of the worklist
loop is one step per subset of the states of the automaton. -/
def subsetConstruction (nfa : NFA) : Option DFA :=
  match epsilonClosure [nfa.startState] nfa with
  | none => none
  | some startClosure =>
    worklist nfa (2 ^ nfa.states.length) (startDFA nfa startClosure) [startClosure]

/-- `RegexToDFA::convert`. -/
def convert (regex : List Char) : Option DFA :=
  match parseRegex regex with
  | none => none
  | some nfa => subsetConstruction nfa

/-- The pipeline of `main`: compile `regex`, then validate `str` on the fresh DFA. The
answer is `none` when `convert` has no defined result. -/
def matchRegex (regex str : List Char) : Option Bool :=
  (convert regex).map (fun d => (d.validate str).1)

/-! ## Reading a DFA as a transition system -/

/-- The entry `transitions[q][c]` of the table, when there is one. -/
def DFA.delta (d : DFA) (q : Nat) (c : Char) : Option Nat :=
  match mapFind q d.transitions with
  | some row => mapFind c row
  | none => none

/-- The state reached from `q` on `w`: every symbol must be in the alphabet and have an
entry in the table. -/
def DFA.run (d : DFA) : Nat → List Char → Option Nat
  | q, [] => some q
  | q, c :: w =>
    if c ∈ d.alphabet then
      match d.delta q c with
      | some q' => DFA.run d q' w
      | none => none
    else none

/-- Acceptance from the state `q`, read off `run`. -/
def DFA.acceptsFrom (d : DFA) (q : Nat) (w : List Char) : Bool :=
  match d.run q w with
  | some q' => decide (q' ∈ d.acceptStates)
  | none => false

/-- Acceptance from the start state. -/
def DFA.accepts (d : DFA) (w : List Char) : Bool :=
  d.acceptsFrom d.startState w

/-- The characters the scanner of `parseRegex` reacts to. -/
def inGrammar (c : Char) : Bool :=
  c.isAlphanum || c = '(' || c = ')' || c = '|' || c = '*'

/-! ## The demo automaton of `flqn2.cpp` -/

/-- The DFA that `convert` builds for `(0|1)*1(0|1)(0|1)`. -/
def thirdFromEndDFA : DFA where
  stateMap := [([0, 1, 2, 4, 7, 8], 0),
               ([1, 2, 3, 4, 6, 7, 8], 1),
               ([1, 2, 3, 4, 6, 7, 8, 12, 15, 16, 17, 18, 19, 21], 7),
               ([1, 2, 3, 4, 6, 7, 8, 12, 15, 16, 17, 19], 3),
               ([1, 2, 3, 4, 6, 7, 8, 18, 21], 5),
               ([1, 2, 4, 5, 6, 7, 8, 9, 10, 11, 13], 2),
               ([1, 2, 4, 5, 6, 7, 8, 9, 10, 11, 13, 14, 15, 16, 17, 19], 4),
               ([1, 2, 4, 5, 6, 7, 8, 9, 10, 11, 13, 14, 15, 16, 17, 19, 20, 21], 8),
               ([1, 2, 4, 5, 6, 7, 8, 9, 10, 11, 13, 20, 21], 6)]
  dfaStates := [[0, 1, 2, 4, 7, 8],
                [1, 2, 3, 4, 6, 7, 8],
                [1, 2, 4, 5, 6, 7, 8, 9, 10, 11, 13],
                [1, 2, 3, 4, 6, 7, 8, 12, 15, 16, 17, 19],
                [1, 2, 4, 5, 6, 7, 8, 9, 10, 11, 13, 14, 15, 16, 17, 19],
                [1, 2, 3, 4, 6, 7, 8, 18, 21],
                [1, 2, 4, 5, 6, 7, 8, 9, 10, 11, 13, 20, 21],
                [1, 2, 3, 4, 6, 7, 8, 12, 15, 16, 17, 18, 19, 21],
                [1, 2, 4, 5, 6, 7, 8, 9, 10, 11, 13, 14, 15, 16, 17, 19, 20, 21]]
  transitions := [(0, [('0', 1), ('1', 2)]),
                  (1, [('0', 1), ('1', 2)]),
                  (2, [('0', 3), ('1', 4)]),
                  (3, [('0', 5), ('1', 6)]),
                  (4, [('0', 7), ('1', 8)]),
                  (5, [('0', 1), ('1', 2)]),
                  (6, [('0', 3), ('1', 4)]),
                  (7, [('0', 5), ('1', 6)]),
                  (8, [('0', 7), ('1', 8)])]
  startState := 0
  acceptStates := [5, 6, 7, 8]
  alphabet := ['0', '1']

/-- The last three symbols remembered by a state of `thirdFromEndDFA`, as a number
below 8 (most recent symbol in the lowest bit). -/
def thirdCode (q : Nat) : Nat := if q = 0 then 0 else q - 1

/-- The value of a binary digit. -/
def bitOf (c : Char) : Nat := if c = '1' then 1 else 0

/-! ## The language of an NFA -/

/-- There is an epsilon edge from `p` to `q`. -/
def NFA.epsStep (nfa : NFA) (p q : Nat) : Prop :=
  q ∈ (nfa.stateAt p).epsilonTransitions

/-- There is an edge labeled `c` from `p` to `q`. -/
def NFA.symStep (nfa : NFA) (c : Char) (p q : Nat) : Prop :=
  ∃ dsts, mapFind c (nfa.stateAt p).transitions = some dsts ∧ q ∈ dsts

/-- A path from `p` to `r` spelling `w`: labeled edges interleaved with any number of
epsilon edges. -/
inductive NFA.Path (nfa : NFA) : Nat → List Char → Nat → Prop
  | nil (p : Nat) : NFA.Path nfa p [] p
  | eps {p q r : Nat} {w : List Char} :
      nfa.epsStep p q → NFA.Path nfa q w r → NFA.Path nfa p w r
  | sym {p q r : Nat} {c : Char} {w : List Char} :
      nfa.symStep c p q → NFA.Path nfa q w r → NFA.Path nfa p (c :: w) r

/-- The automaton accepts `w`: some path from the start state that spells `w` ends in an
accept state. -/
def NFA.accepts (nfa : NFA) (w : List Char) : Prop :=
  ∃ q ∈ nfa.acceptStates, nfa.Path nfa.startState w q

/-- The identity stored in the state at index `p`. -/
def NFA.idAt (nfa : NFA) (p : Nat) : Nat := (nfa.stateAt p).id

/-- The accepting flag of the state at index `p`. -/
def NFA.flagAt (nfa : NFA) (p : Nat) : Bool := (nfa.stateAt p).isAccepting

/-- Every identity the automaton mentions is an index into `states`. -/
structure NFA.Closed (nfa : NFA) : Prop where
  start : nfa.startState < nfa.states.length
  accept : ∀ q ∈ nfa.acceptStates, q < nfa.states.length
  sym : ∀ c p q, nfa.symStep c p q → q < nfa.states.length
  eps : ∀ p q, nfa.epsStep p q → q < nfa.states.length

/-- Well-formedness of an automaton: the identity of a state is its index, every target
of a labeled or epsilon edge, the start state and every accept state is an index into
`states`, and the flag of a state is set exactly when the state is in `acceptStates`. -/
structure NFA.WellFormed (nfa : NFA) : Prop where
  ids : ∀ (i : Nat) (st : NFAState), nfa.states[i]? = some st → st.id = i
  transTargets : ∀ st ∈ nfa.states, ∀ tr ∈ st.transitions, ∀ q ∈ tr.2,
    q < nfa.states.length
  epsTargets : ∀ st ∈ nfa.states, ∀ q ∈ st.epsilonTransitions, q < nfa.states.length
  start : nfa.startState < nfa.states.length
  accept : ∀ q ∈ nfa.acceptStates, q < nfa.states.length
  flag : ∀ (i : Nat) (st : NFAState), nfa.states[i]? = some st →
    (st.isAccepting = true ↔ i ∈ nfa.acceptStates)

/-- The invariant of `std::map` on the transition maps of the states: keys ascending. -/
def NFA.KeysSorted (nfa : NFA) : Prop :=
  ∀ st ∈ nfa.states, (st.transitions.map Prod.fst).Sorted (· < ·)

/-- The alphabet holds the label of every edge, and not the character `\0`. -/
structure NFA.AlphabetCovers (nfa : NFA) : Prop where
  labels : ∀ c p q, nfa.symStep c p q → c ∈ nfa.alphabet
  nonzero : Char.ofNat 0 ∉ nfa.alphabet

/-- A set in the representation of `std::set<int>`: strictly ascending. -/
def IsSet (s : List Nat) : Prop := s.Sorted (· < ·)

/-- The number of states below `n` outside `closure` (the measure of the loop of
`epsilonClosure`). -/
def missing (n : Nat) (closure : List Nat) : Nat :=
  ((Finset.range n).filter (fun x => x ∉ closure)).card

/-- The subsets reached from `epsilonClosure({nfa.startState})` by applying
`epsilonClosure(move(., c))` for symbols `c` of the alphabet any number of times. -/
inductive SubsetReachable (nfa : NFA) : List Nat → Prop
  | start {S : List Nat} :
      epsilonClosure [nfa.startState] nfa = some S → SubsetReachable nfa S
  | step {S U : List Nat} {c : Char} :
      SubsetReachable nfa S → c ∈ nfa.alphabet →
      epsilonClosure (move S c nfa) nfa = some U → SubsetReachable nfa U

/-- The invariant of the worklist loop of `convert`. `k` subsets have been taken from
the queue, and `E i c` says that the pair of the DFA state `i` and the symbol `c` has
been through the body of the inner loop. -/
structure SubsetInv (nfa : NFA) (dfa : DFA) (unmarked : List (List Nat)) (k : Nat)
    (E : Nat → Char → Prop) : Prop where
  alphabet : dfa.alphabet = nfa.alphabet
  start : dfa.startState = 0
  first : dfa.dfaStates[0]? = epsilonClosure [nfa.startState] nfa
  nodup : dfa.dfaStates.Nodup
  isSet : ∀ S ∈ dfa.dfaStates, IsSet S
  nonempty : ∀ S ∈ dfa.dfaStates, S ≠ []
  bounded : ∀ S ∈ dfa.dfaStates, ∀ x ∈ S, x < nfa.states.length
  closed : ∀ S ∈ dfa.dfaStates, ∀ x ∈ S, ∀ y, nfa.epsStep x y → y ∈ S
  stateMap : ∀ S i, mapFind S dfa.stateMap = some i ↔ dfa.dfaStates[i]? = some S
  queue : unmarked = dfa.dfaStates.drop k
  popped : k ≤ dfa.dfaStates.length
  acceptBound : ∀ i ∈ dfa.acceptStates, i < dfa.dfaStates.length
  accept : ∀ i S, dfa.dfaStates[i]? = some S →
    (i ∈ dfa.acceptStates ↔ ∃ s ∈ S, s ∈ nfa.acceptStates)
  trans : ∀ i c, E i c → ∀ S, dfa.dfaStates[i]? = some S →
    ∀ U, epsilonClosure (move S c nfa) nfa = some U →
      (U = [] → dfa.delta i c = none) ∧
      (U ≠ [] → ∃ j, dfa.delta i c = some j ∧ dfa.dfaStates[j]? = some U)
  fresh : ∀ i c, ¬ E i c → dfa.delta i c = none
  expanded : ∀ i c, E i c → i < dfa.dfaStates.length
  reach : ∀ S ∈ dfa.dfaStates, SubsetReachable nfa S

/-! ## Facts about the containers -/

section maps
variable {κ ν : Type} [LT κ] [DecidableRel (α := κ) (· < ·)] [DecidableEq κ]

theorem mapFind_mapInsert_self (k : κ) (v : ν) (m : List (κ × ν)) :
    mapFind k (mapInsert k v m) = some v := by
  induction m with
  | nil => simp [mapInsert, mapFind]
  | cons p m ih =>
    obtain ⟨k', v'⟩ := p
    unfold mapInsert
    split_ifs with h1 h2
    · simp [mapFind]
    · simp [mapFind]
    · simp [mapFind, h1, ih]

theorem mapFind_mapInsert_ne (k k' : κ) (v : ν) (m : List (κ × ν)) (h : k' ≠ k) :
    mapFind k' (mapInsert k v m) = mapFind k' m := by
  induction m with
  | nil => simp [mapInsert, mapFind, h]
  | cons p m ih =>
    obtain ⟨k1, v1⟩ := p
    unfold mapInsert
    split_ifs with h1 h2
    · subst h1
      simp [mapFind, h]
    · simp [mapFind, h]
    · by_cases h3 : k' = k1
      · simp [mapFind, h3]
      · simp [mapFind, h3, ih]

theorem mapIndex_fst (dflt : ν) (k : κ) (m : List (κ × ν)) :
    (mapIndex dflt k m).1 = (mapFind k m).getD dflt := by
  unfold mapIndex
  cases mapFind k m <;> rfl

theorem mapFind_mapIndex_self (dflt : ν) (k : κ) (m : List (κ × ν)) :
    mapFind k (mapIndex dflt k m).2 = some ((mapFind k m).getD dflt) := by
  unfold mapIndex
  cases h : mapFind k m with
  | none => simp [mapFind_mapInsert_self]
  | some v => simp [h]

theorem mapFind_mapIndex_ne (dflt : ν) (k k' : κ) (m : List (κ × ν)) (h : k' ≠ k) :
    mapFind k' (mapIndex dflt k m).2 = mapFind k' m := by
  unfold mapIndex
  cases mapFind k m with
  | none => simp [mapFind_mapInsert_ne _ _ _ _ h]
  | some v => rfl

end maps

/-! ## The matcher -/

/-- The empty row that `validate` adds for a state without one does not change any
table entry. -/
theorem delta_touch (d : DFA) (q q' : Nat) (c : Char) :
    DFA.delta { d with transitions := (mapIndex [] q d.transitions).2 } q' c = d.delta q' c := by
  unfold DFA.delta
  by_cases h : q' = q
  · subst h
    simp only [mapFind_mapIndex_self]
    cases mapFind q' d.transitions <;> simp [mapFind]
  · simp only [mapFind_mapIndex_ne _ _ _ _ h]

theorem run_congr (d d' : DFA) (hA : d'.alphabet = d.alphabet)
    (hD : ∀ q c, d'.delta q c = d.delta q c) (q : Nat) (w : List Char) :
    d'.run q w = d.run q w := by
  induction w generalizing q with
  | nil => rfl
  | cons c w ih =>
    simp only [DFA.run, hA, hD]
    split_ifs
    · cases d.delta q c with
      | none => rfl
      | some q' => exact ih q'
    · rfl

/-- The verdict of the loop of `validate` is the one read off `run`. -/
theorem validateLoop_fst (w : List Char) (d : DFA) (q : Nat) :
    (DFA.validateLoop w d q).1 = d.acceptsFrom q w := by
  unfold DFA.acceptsFrom
  induction w generalizing d q with
  | nil => simp [DFA.validateLoop, DFA.run]
  | cons c w ih =>
    unfold DFA.validateLoop
    simp only [DFA.run]
    by_cases hc : c ∈ d.alphabet
    · simp only [hc, if_true]
      have hrow : mapFind c (mapIndex [] q d.transitions).1 = d.delta q c := by
        rw [mapIndex_fst]
        unfold DFA.delta
        cases mapFind q d.transitions <;> simp [mapFind]
      rw [hrow]
      cases hq : d.delta q c with
      | none => rfl
      | some q' =>
        simp only
        rw [ih]
        rw [run_congr d { d with transitions := (mapIndex [] q d.transitions).2 } rfl
          (fun a b => delta_touch d q a b)]
    · simp [hc]

theorem validate_fst (d : DFA) (w : List Char) : (d.validate w).1 = d.accepts w := by
  simp only [DFA.validate, DFA.accepts, validateLoop_fst]

theorem validateLoop_outside (str : List Char) (d : DFA) (q : Nat)
    (h : ∃ c ∈ str, c ∉ d.alphabet) : (DFA.validateLoop str d q).1 = false := by
  rw [validateLoop_fst]
  unfold DFA.acceptsFrom
  induction str generalizing q with
  | nil => simp at h
  | cons c rest ih =>
    simp only [DFA.run]
    by_cases hc : c ∈ d.alphabet
    · have hrest : ∃ x ∈ rest, x ∉ d.alphabet := by
        obtain ⟨x, hx, hxA⟩ := h
        rcases List.mem_cons.1 hx with rfl | hx
        · exact absurd hc hxA
        · exact ⟨x, hx, hxA⟩
      simp only [hc, if_true]
      cases d.delta q c with
      | none => rfl
      | some q' => exact ih q' hrest
    · simp [hc]

/-! ## The scanner -/

theorem scanChar_ignored (st : List NFA × List Char) (c : Char) (h : inGrammar c = false) :
    scanChar st c = st := by
  simp [inGrammar] at h
  simp [scanChar, h]

theorem foldl_scanChar_filter (r : List Char) (st : List NFA × List Char) :
    (r.filter inGrammar).foldl scanChar st = r.foldl scanChar st := by
  induction r generalizing st with
  | nil => rfl
  | cons c r ih =>
    by_cases h : inGrammar c = true
    · simp [List.filter_cons, h, ih]
    · simp only [Bool.not_eq_true] at h
      simp [List.filter_cons, h, ih, scanChar_ignored st c h]

theorem reduceOps_nil (ops : List Char) : (reduceOps ops []).2 = [] := by
  induction ops with
  | nil => rfl
  | cons op ops ih =>
    unfold reduceOps
    by_cases h : op = '('
    · simp [h]
    · simpa [h, processOperator] using ih

theorem scanChar_nil (ops : List Char) (c : Char) (h : c.isAlphanum = false) :
    (scanChar ([], ops) c).1 = [] := by
  unfold scanChar
  simp only [h, Bool.false_eq_true, if_false]
  split_ifs <;> simp [reduceOps_nil]

theorem scan_no_operand (regex : List Char) (h : ∀ c ∈ regex, c.isAlphanum = false)
    (st : List NFA × List Char) (hst : st.1 = []) : (regex.foldl scanChar st).1 = [] := by
  induction regex generalizing st with
  | nil => simpa using hst
  | cons c rest ih =>
    simp only [List.foldl_cons]
    apply ih (fun x hx => h x (List.mem_cons_of_mem _ hx))
    obtain ⟨ns, ops⟩ := st
    simp only at hst
    subst hst
    exact scanChar_nil ops c (h c (List.mem_cons_self _ _))

theorem processOperator_all_nil (ops : List Char) :
    ops.foldl (fun ns op => processOperator op ns) [] = [] := by
  induction ops with
  | nil => rfl
  | cons op ops ih => simpa [processOperator] using ih

/-! ## Sets and maps as ascending lists -/

section sets
variable {α : Type} [LT α] [DecidableRel (α := α) (· < ·)] [DecidableEq α]

theorem mem_setInsert (a x : α) (s : List α) : x ∈ setInsert a s ↔ x = a ∨ x ∈ s := by
  induction s with
  | nil => simp [setInsert]
  | cons b s ih =>
    unfold setInsert
    split_ifs with h1 h2
    · subst h1; simp
    · simp
    · simp only [List.mem_cons, ih]
      tauto

theorem setInsert_sorted (htrans : ∀ x y z : α, x < y → y < z → x < z)
    (htri : ∀ x y : α, ¬ x < y → x ≠ y → y < x)
    (a : α) (s : List α) (hs : s.Sorted (· < ·)) :
    (setInsert a s).Sorted (· < ·) := by
  induction s with
  | nil => simp [setInsert]
  | cons b s ih =>
    unfold setInsert
    split_ifs with h1 h2
    · exact hs
    · refine List.sorted_cons.2 ⟨?_, hs⟩
      intro y hy
      rcases List.mem_cons.1 hy with rfl | hy
      · exact h2
      · exact htrans _ _ _ h2 (List.rel_of_sorted_cons hs y hy)
    · refine List.sorted_cons.2 ⟨?_, ih (List.sorted_cons.1 hs).2⟩
      intro y hy
      rcases (mem_setInsert a y s).1 hy with rfl | hy
      · exact htri _ _ h2 h1
      · exact List.rel_of_sorted_cons hs y hy

end sets

theorem setInsert_isSet (a : Nat) (s : List Nat) (hs : IsSet s) : IsSet (setInsert a s) :=
  setInsert_sorted (fun _ _ _ => Nat.lt_trans) (fun x y h1 h2 => by omega) a s hs

theorem isSet_ext {s t : List Nat} (hs : IsSet s) (ht : IsSet t)
    (h : ∀ x, x ∈ s ↔ x ∈ t) : s = t :=
  List.eq_of_perm_of_sorted ((List.perm_ext_iff_of_nodup hs.nodup ht.nodup).2 h) hs ht

section maps
variable {κ ν : Type} [LT κ] [DecidableRel (α := κ) (· < ·)] [DecidableEq κ]

theorem mapInsert_keys (k : κ) (v : ν) (m : List (κ × ν)) (x : κ) :
    x ∈ (mapInsert k v m).map Prod.fst ↔ x = k ∨ x ∈ m.map Prod.fst := by
  induction m with
  | nil => simp [mapInsert]
  | cons p m ih =>
    obtain ⟨k1, v1⟩ := p
    unfold mapInsert
    split_ifs with h1 h2
    · subst h1; simp
    · simp
    · simp only [List.map_cons, List.mem_cons, ih]
      tauto

theorem mapInsert_sorted (htrans : ∀ x y z : κ, x < y → y < z → x < z)
    (htri : ∀ x y : κ, ¬ x < y → x ≠ y → y < x) (k : κ) (v : ν) (m : List (κ × ν))
    (hm : (m.map Prod.fst).Sorted (· < ·)) :
    ((mapInsert k v m).map Prod.fst).Sorted (· < ·) := by
  induction m with
  | nil => simp [mapInsert]
  | cons p m ih =>
    obtain ⟨k1, v1⟩ := p
    unfold mapInsert
    split_ifs with h1 h2
    · subst h1; exact hm
    · simp only [List.map_cons] at hm ⊢
      refine List.sorted_cons.2 ⟨?_, hm⟩
      intro y hy
      rcases List.mem_cons.1 hy with rfl | hy
      · exact h2
      · exact htrans _ _ _ h2 (List.rel_of_sorted_cons hm y hy)
    · simp only [List.map_cons] at hm ⊢
      refine List.sorted_cons.2 ⟨?_, ih (List.sorted_cons.1 hm).2⟩
      intro y hy
      rcases (mapInsert_keys k v m y).1 hy with rfl | hy
      · exact htri _ _ h2 h1
      · exact List.rel_of_sorted_cons hm y hy

end maps

section finds
variable {κ ν : Type} [DecidableEq κ]

theorem mapFind_eq_none_iff (k : κ) (m : List (κ × ν)) :
    mapFind k m = none ↔ k ∉ m.map Prod.fst := by
  induction m with
  | nil => simp [mapFind]
  | cons p m ih =>
    obtain ⟨k1, v1⟩ := p
    unfold mapFind
    split_ifs with h
    · simp [h]
    · simp [ih, h]

theorem mapFind_of_mem {k : κ} {v : ν} {m : List (κ × ν)}
    (hm : (m.map Prod.fst).Nodup) (h : (k, v) ∈ m) : mapFind k m = some v := by
  induction m with
  | nil => simp at h
  | cons p m ih =>
    obtain ⟨k1, v1⟩ := p
    simp only [List.map_cons, List.nodup_cons] at hm
    unfold mapFind
    rcases List.mem_cons.1 h with h1 | h2
    · cases h1; simp
    · have hne : k ≠ k1 := fun hk => hm.1 (List.mem_map.2 ⟨(k, v), h2, hk⟩)
      simp [hne, ih hm.2 h2]

theorem mem_of_mapFind {k : κ} {v : ν} {m : List (κ × ν)} (h : mapFind k m = some v) :
    (k, v) ∈ m := by
  induction m with
  | nil => simp [mapFind] at h
  | cons p m ih =>
    obtain ⟨k1, v1⟩ := p
    unfold mapFind at h
    split_ifs at h with h1
    · obtain rfl := Option.some.inj h
      subst h1
      exact List.mem_cons_self _ _
    · exact List.mem_cons_of_mem _ (ih h)

end finds

theorem mapInsert_sorted_char (k : Char) (v : List Nat) (m : List (Char × List Nat))
    (hm : (m.map Prod.fst).Sorted (· < ·)) :
    ((mapInsert k v m).map Prod.fst).Sorted (· < ·) :=
  mapInsert_sorted (fun _ _ _ => Char.lt_trans) (fun x y h1 h2 => by
    rcases lt_trichotomy x y with h | h | h
    · exact absurd h h1
    · exact absurd h h2
    · exact h) k v m hm

/-! ## epsilonClosure -/

theorem epsilonStep_mem (eps closure q : List Nat) (x : Nat) :
    x ∈ (epsilonStep eps closure q).1 ↔ x ∈ closure ∨ x ∈ eps := by
  unfold epsilonStep
  induction eps generalizing closure q with
  | nil => simp
  | cons e eps ih =>
    simp only [List.foldl_cons]
    split_ifs with h
    · rw [ih]
      simp only [List.mem_cons]
      constructor
      · rintro (h1 | h1)
        · exact Or.inl h1
        · exact Or.inr (Or.inr h1)
      · rintro (h1 | rfl | h1)
        · exact Or.inl h1
        · exact Or.inl h
        · exact Or.inr h1
    · rw [ih]
      simp only [List.mem_cons, mem_setInsert]
      tauto

theorem epsilonStep_queue (eps closure q : List Nat) (x : Nat) :
    x ∈ (epsilonStep eps closure q).2 ↔ x ∈ q ∨ (x ∈ eps ∧ x ∉ closure) := by
  unfold epsilonStep
  induction eps generalizing closure q with
  | nil => simp
  | cons e eps ih =>
    simp only [List.foldl_cons]
    split_ifs with h
    · rw [ih]
      simp only [List.mem_cons]
      constructor
      · rintro (h1 | ⟨h1, h2⟩)
        · exact Or.inl h1
        · exact Or.inr ⟨Or.inr h1, h2⟩
      · rintro (h1 | ⟨rfl | h1, h2⟩)
        · exact Or.inl h1
        · exact absurd h h2
        · exact Or.inr ⟨h1, h2⟩
    · rw [ih]
      simp only [List.mem_cons, List.mem_append, mem_setInsert, List.not_mem_nil, or_false]
      constructor
      · rintro ((h1 | rfl) | ⟨h1, h2⟩)
        · exact Or.inl h1
        · exact Or.inr ⟨Or.inl rfl, h⟩
        · exact Or.inr ⟨Or.inr h1, fun h3 => h2 (Or.inr h3)⟩
      · rintro (h1 | ⟨rfl | h1, h2⟩)
        · exact Or.inl (Or.inl h1)
        · exact Or.inl (Or.inr rfl)
        · by_cases hx : x = e
          · exact Or.inl (Or.inr hx)
          · exact Or.inr ⟨h1, fun h3 => h3.elim hx h2⟩

theorem epsilonStep_isSet (eps closure q : List Nat) (h : IsSet closure) :
    IsSet (epsilonStep eps closure q).1 := by
  unfold epsilonStep
  induction eps generalizing closure q with
  | nil => simpa using h
  | cons e eps ih =>
    simp only [List.foldl_cons]
    split_ifs with h1
    · exact ih _ _ h
    · exact ih _ _ (setInsert_isSet e closure h)

theorem missing_le (n : Nat) (closure : List Nat) : missing n closure ≤ n := by
  unfold missing
  calc ((Finset.range n).filter (fun x => x ∉ closure)).card
      ≤ (Finset.range n).card := Finset.card_filter_le _ _
    _ = n := Finset.card_range n

theorem missing_setInsert (n e : Nat) (closure : List Nat) (he : e < n) (h : e ∉ closure) :
    missing n (setInsert e closure) + 1 ≤ missing n closure := by
  unfold missing
  apply Nat.succ_le_of_lt
  apply Finset.card_lt_card
  constructor
  · intro x hx
    simp only [Finset.mem_filter, Finset.mem_range, mem_setInsert] at hx ⊢
    exact ⟨hx.1, fun h1 => hx.2 (Or.inr h1)⟩
  · intro hsub
    have : e ∈ (Finset.range n).filter (fun x => x ∉ setInsert e closure) :=
      hsub (by simp [he, h])
    simp [mem_setInsert] at this

theorem epsilonStep_measure (n : Nat) (eps closure q : List Nat) (h : ∀ e ∈ eps, e < n) :
    (epsilonStep eps closure q).2.length + missing n (epsilonStep eps closure q).1 ≤
      q.length + missing n closure := by
  unfold epsilonStep
  induction eps generalizing closure q with
  | nil => simp
  | cons e eps ih =>
    simp only [List.foldl_cons]
    have hrest : ∀ x ∈ eps, x < n := fun x hx => h x (List.mem_cons_of_mem _ hx)
    split_ifs with h1
    · exact ih _ _ hrest
    · refine le_trans (ih _ _ hrest) ?_
      have := missing_setInsert n e closure (h e (List.mem_cons_self _ _)) h1
      simp only [List.length_append, List.length_singleton]
      omega

theorem epsilonClosureLoop_spec (nfa : NFA)
    (hE : ∀ p q, nfa.epsStep p q → q < nfa.states.length) (S : List Nat) :
    ∀ (fuel : Nat) (closure q : List Nat),
      (∀ x ∈ S, x ∈ closure) →
      (∀ x ∈ closure, ∃ s ∈ S, Relation.ReflTransGen nfa.epsStep s x) →
      (∀ x ∈ q, x ∈ closure) →
      (∀ x ∈ closure, x ∉ q → ∀ y, nfa.epsStep x y → y ∈ closure) →
      q.length + missing nfa.states.length closure ≤ fuel →
      ∃ r, epsilonClosureLoop nfa fuel closure q = some r ∧
        (∀ x, x ∈ r ↔ ∃ s ∈ S, Relation.ReflTransGen nfa.epsStep s x) ∧
        (IsSet closure → IsSet r) := by
  intro fuel
  induction fuel with
  | zero =>
    intro closure q h1 h2 h3 h4 hf
    have hq : q = [] := List.length_eq_zero.1 (by omega)
    subst hq
    refine ⟨closure, rfl, ?_, id⟩
    intro x
    constructor
    · exact h2 x
    · rintro ⟨s, hs, hr⟩
      induction hr with
      | refl => exact h1 s hs
      | tail _ hstep ih => exact h4 _ ih (by simp) _ hstep
  | succ fuel ihf =>
    intro closure q h1 h2 h3 h4 hf
    cases q with
    | nil =>
      refine ⟨closure, rfl, ?_, id⟩
      intro x
      constructor
      · exact h2 x
      · rintro ⟨s, hs, hr⟩
        induction hr with
        | refl => exact h1 s hs
        | tail _ hstep ih => exact h4 _ ih (by simp) _ hstep
    | cons state rest =>
      simp only [epsilonClosureLoop]
      have hstate : state ∈ closure := h3 state (List.mem_cons_self _ _)
      have heps : ∀ e ∈ (nfa.stateAt state).epsilonTransitions, e < nfa.states.length :=
        fun e he => hE state e he
      obtain ⟨r, hr, hmem, hset⟩ := ihf
        (epsilonStep (nfa.stateAt state).epsilonTransitions closure rest).1
        (epsilonStep (nfa.stateAt state).epsilonTransitions closure rest).2
        (fun x hx => (epsilonStep_mem _ _ _ _).2 (Or.inl (h1 x hx)))
        (by
          intro x hx
          rcases (epsilonStep_mem _ _ _ _).1 hx with hx | hx
          · exact h2 x hx
          · obtain ⟨s, hs, hreach⟩ := h2 state hstate
            exact ⟨s, hs, hreach.tail hx⟩)
        (by
          intro x hx
          rcases (epsilonStep_queue _ _ _ _).1 hx with hx | hx
          · exact (epsilonStep_mem _ _ _ _).2 (Or.inl (h3 x (List.mem_cons_of_mem _ hx)))
          · exact (epsilonStep_mem _ _ _ _).2 (Or.inr hx.1))
        (by
          intro x hx hxq y hy
          have hxq' : ¬ (x ∈ rest ∨ (x ∈ (nfa.stateAt state).epsilonTransitions ∧ x ∉ closure)) :=
            fun h => hxq ((epsilonStep_queue _ _ _ _).2 h)
          push_neg at hxq'
          by_cases hxc : x ∈ closure
          · by_cases hxs : x = state
            · subst hxs
              exact (epsilonStep_mem _ _ _ _).2 (Or.inr hy)
            · have : x ∉ state :: rest := by
                simp only [List.mem_cons, not_or]
                exact ⟨hxs, hxq'.1⟩
              exact (epsilonStep_mem _ _ _ _).2 (Or.inl (h4 x hxc this y hy))
          · rcases (epsilonStep_mem _ _ _ _).1 hx with hx | hx
            · exact absurd hx hxc
            · exact absurd (hxq'.2 hx) hxc)
        (by
          have := epsilonStep_measure nfa.states.length
            (nfa.stateAt state).epsilonTransitions closure rest heps
          simp only [List.length_cons] at hf
          omega)
      exact ⟨r, hr, hmem, fun hc => hset (epsilonStep_isSet _ _ _ hc)⟩

/-- `epsilonClosure` returns, and its result holds exactly the states reachable from a
seed along epsilon edges. -/
theorem epsilonClosure_spec (nfa : NFA)
    (hE : ∀ p q, nfa.epsStep p q → q < nfa.states.length) (S : List Nat) :
    ∃ r, epsilonClosure S nfa = some r ∧
      (∀ x, x ∈ r ↔ ∃ s ∈ S, Relation.ReflTransGen nfa.epsStep s x) ∧
      (IsSet S → IsSet r) := by
  unfold epsilonClosure
  apply epsilonClosureLoop_spec nfa hE S
  · exact fun x hx => hx
  · exact fun x hx => ⟨x, hx, Relation.ReflTransGen.refl⟩
  · exact fun x hx => hx
  · exact fun x hx hxq => absurd hx hxq
  · have := missing_le nfa.states.length S
    omega

/-! ## move -/

theorem foldl_setInsert_mem (dsts result : List Nat) (x : Nat) :
    x ∈ dsts.foldl (fun r next => setInsert next r) result ↔ x ∈ result ∨ x ∈ dsts := by
  induction dsts generalizing result with
  | nil => simp
  | cons d dsts ih =>
    simp only [List.foldl_cons, ih, mem_setInsert, List.mem_cons]
    tauto

theorem foldl_setInsert_isSet (dsts result : List Nat) (h : IsSet result) :
    IsSet (dsts.foldl (fun r next => setInsert next r) result) := by
  induction dsts generalizing result with
  | nil => exact h
  | cons d dsts ih => exact ih _ (setInsert_isSet d result h)

theorem move_foldl_mem (nfa : NFA) (symbol : Char) (S result : List Nat) (x : Nat) :
    x ∈ S.foldl (moveStep nfa symbol) result ↔
      x ∈ result ∨ ∃ s ∈ S, nfa.symStep symbol s x := by
  induction S generalizing result with
  | nil => simp
  | cons s S ih =>
    simp only [List.foldl_cons, ih, List.mem_cons, exists_eq_or_imp]
    unfold NFA.symStep moveStep
    cases h : mapFind symbol (nfa.stateAt s).transitions with
    | none => simp
    | some dsts =>
      simp only [foldl_setInsert_mem, Option.some.injEq, exists_eq_left']
      tauto

theorem move_foldl_isSet (nfa : NFA) (symbol : Char) (S result : List Nat) (h : IsSet result) :
    IsSet (S.foldl (moveStep nfa symbol) result) := by
  induction S generalizing result with
  | nil => exact h
  | cons s S ih =>
    simp only [List.foldl_cons]
    apply ih
    unfold moveStep
    cases mapFind symbol (nfa.stateAt s).transitions with
    | none => exact h
    | some dsts => exact foldl_setInsert_isSet dsts result h

/-- `move` collects the targets of the edges labeled `symbol` that leave `S`. -/
theorem mem_move (nfa : NFA) (symbol : Char) (S : List Nat) (x : Nat) :
    x ∈ move S symbol nfa ↔ ∃ s ∈ S, nfa.symStep symbol s x := by
  unfold move
  rw [move_foldl_mem]
  simp

theorem move_isSet (nfa : NFA) (symbol : Char) (S : List Nat) : IsSet (move S symbol nfa) :=
  move_foldl_isSet nfa symbol S [] List.sorted_nil

/-! ## Subset construction -/

theorem delta_record (d d' : DFA) (cur : Nat) (symbol : Char) (t : Nat)
    (h : d'.transitions = mapInsert cur
      (mapInsert symbol t (mapIndex [] cur d.transitions).1) (mapIndex [] cur d.transitions).2)
    (i : Nat) (c : Char) :
    d'.delta i c = if i = cur ∧ c = symbol then some t else d.delta i c := by
  unfold DFA.delta
  rw [h]
  by_cases hi : i = cur
  · subst hi
    rw [mapFind_mapInsert_self]
    by_cases hc : c = symbol
    · subst hc
      simp [mapFind_mapInsert_self]
    · simp only [hc, and_false, if_false, mapFind_mapInsert_ne _ _ _ _ hc, mapIndex_fst]
      cases mapFind i d.transitions <;> simp [mapFind]
  · simp only [hi, false_and, if_false, mapFind_mapInsert_ne _ _ _ _ hi,
      mapFind_mapIndex_ne _ _ _ _ hi]

theorem mapIndex_of_find {κ ν : Type} [LT κ] [DecidableRel (α := κ) (· < ·)] [DecidableEq κ]
    (dflt : ν) {k : κ} {m : List (κ × ν)} {v : ν} (h : mapFind k m = some v) :
    mapIndex dflt k m = (v, m) := by
  simp [mapIndex, h]

theorem recordSymbol_empty (nfa : NFA) (cur : Nat) (symbol : Char) (st : DFA × List (List Nat)) :
    recordSymbol nfa cur symbol [] st = st := by
  simp [recordSymbol]

theorem recordSymbol_known (nfa : NFA) (cur : Nat) (symbol : Char) (U : List Nat)
    (st : DFA × List (List Nat)) (hU : U ≠ []) (j : Nat)
    (hj : mapFind U st.1.stateMap = some j) :
    recordSymbol nfa cur symbol U st =
      ({ st.1 with
          transitions := mapInsert cur
            (mapInsert symbol j (mapIndex [] cur st.1.transitions).1)
            (mapIndex [] cur st.1.transitions).2 }, st.2) := by
  simp [recordSymbol, hU, hj, mapIndex_of_find]

theorem recordSymbol_new (nfa : NFA) (cur : Nat) (symbol : Char) (U : List Nat)
    (st : DFA × List (List Nat)) (hU : U ≠ [])
    (hj : mapFind U st.1.stateMap = none) :
    recordSymbol nfa cur symbol U st =
      ({ st.1 with
          stateMap := mapInsert U st.1.dfaStates.length st.1.stateMap
          dfaStates := st.1.dfaStates ++ [U]
          acceptStates :=
            if U.any (fun s => decide (s ∈ nfa.acceptStates)) then
              setInsert st.1.dfaStates.length st.1.acceptStates
            else st.1.acceptStates
          transitions := mapInsert cur
            (mapInsert symbol st.1.dfaStates.length (mapIndex [] cur st.1.transitions).1)
            (mapIndex [] cur st.1.transitions).2 }, st.2 ++ [U]) := by
  have h1 : ∀ a : List Nat, mapFind U (mapInsert U st.1.dfaStates.length st.1.stateMap) =
      some st.1.dfaStates.length := fun _ => mapFind_mapInsert_self _ _ _
  unfold recordSymbol markAccepting
  simp only [hU, hj, ne_eq, not_false_eq_true, if_true]
  split_ifs with h2
  · simp [mapIndex_of_find 0 (mapFind_mapInsert_self U st.1.dfaStates.length st.1.stateMap)]
  · simp [mapIndex_of_find 0 (mapFind_mapInsert_self U st.1.dfaStates.length st.1.stateMap)]

theorem getElem?_snoc {α : Type} (l : List α) (a b : α) (i : Nat) :
    (l ++ [a])[i]? = some b ↔ l[i]? = some b ∨ (i = l.length ∧ a = b) := by
  by_cases h : i < l.length
  · rw [List.getElem?_append_left h]
    constructor
    · exact Or.inl
    · rintro (h1 | ⟨h1, _⟩)
      · exact h1
      · omega
  · rw [List.getElem?_append_right (by omega), List.getElem?_eq_none (l := l) (by omega)]
    by_cases h2 : i = l.length
    · subst h2
      simp
    · have : i - l.length ≠ 0 := by omega
      obtain ⟨n, hn⟩ := Nat.exists_eq_succ_of_ne_zero this
      simp [hn, h2]

theorem lt_of_getElem? {α : Type} {l : List α} {i : Nat} {a : α} (h : l[i]? = some a) :
    i < l.length := by
  obtain ⟨h1, _⟩ := List.getElem?_eq_some.1 h
  exact h1

theorem mem_of_getElem? {α : Type} {l : List α} {i : Nat} {a : α} (h : l[i]? = some a) :
    a ∈ l :=
  List.mem_iff_getElem?.2 ⟨i, h⟩

theorem epsReach_bounded (nfa : NFA) (hC : nfa.Closed) {s x : Nat}
    (h : Relation.ReflTransGen nfa.epsStep s x) (hs : s < nfa.states.length) :
    x < nfa.states.length := by
  induction h with
  | refl => exact hs
  | tail _ hstep _ => exact hC.eps _ _ hstep

/-- What `epsilonClosure` returns on a set of valid identities. -/
theorem closure_facts (nfa : NFA) (hC : nfa.Closed) (S U : List Nat)
    (hS : ∀ x ∈ S, x < nfa.states.length) (hset : IsSet S)
    (hU : epsilonClosure S nfa = some U) :
    IsSet U ∧ (∀ x ∈ U, x < nfa.states.length) ∧
      (∀ x ∈ U, ∀ y, nfa.epsStep x y → y ∈ U) ∧
      (∀ x, x ∈ U ↔ ∃ s ∈ S, Relation.ReflTransGen nfa.epsStep s x) := by
  obtain ⟨r, hr, hmem, hs⟩ := epsilonClosure_spec nfa hC.eps S
  rw [hU] at hr
  obtain rfl := Option.some.inj hr
  refine ⟨hs hset, ?_, ?_, hmem⟩
  · intro x hx
    obtain ⟨s, hs1, hreach⟩ := (hmem x).1 hx
    exact epsReach_bounded nfa hC hreach (hS s hs1)
  · intro x hx y hy
    obtain ⟨s, hs1, hreach⟩ := (hmem x).1 hx
    exact (hmem y).2 ⟨s, hs1, hreach.tail hy⟩

theorem move_bounded (nfa : NFA) (hC : nfa.Closed) (S : List Nat) (c : Char) :
    ∀ x ∈ move S c nfa, x < nfa.states.length := by
  intro x hx
  obtain ⟨s, _, hstep⟩ := (mem_move nfa c S x).1 hx
  exact hC.sym c s x hstep

theorem SubsetInv.congr {nfa : NFA} {dfa : DFA} {unmarked : List (List Nat)} {k : Nat}
    {E E' : Nat → Char → Prop} (h : SubsetInv nfa dfa unmarked k E)
    (hE : ∀ i c, E' i c ↔ E i c) : SubsetInv nfa dfa unmarked k E' :=
  { h with
    trans := fun i c hi => h.trans i c ((hE i c).1 hi)
    fresh := fun i c hi => h.fresh i c (fun h1 => hi ((hE i c).2 h1))
    expanded := fun i c hi => h.expanded i c ((hE i c).1 hi) }

theorem recordSymbol_inv (nfa : NFA) (hC : nfa.Closed) (dfa : DFA) (unmarked : List (List Nat))
    (k : Nat) (E : Nat → Char → Prop) (cur : Nat) (current : List Nat) (symbol : Char)
    (U : List Nat) (hinv : SubsetInv nfa dfa unmarked k E)
    (hcur : dfa.dfaStates[cur]? = some current) (hsym : symbol ∈ nfa.alphabet)
    (hU : epsilonClosure (move current symbol nfa) nfa = some U) :
    SubsetInv nfa (recordSymbol nfa cur symbol U (dfa, unmarked)).1
      (recordSymbol nfa cur symbol U (dfa, unmarked)).2 k
      (fun i c => E i c ∨ (i = cur ∧ c = symbol)) := by
  obtain ⟨hUset, hUb, hUcl, -⟩ := closure_facts nfa hC _ U
    (move_bounded nfa hC current symbol) (move_isSet nfa symbol current) hU
  have hcurlt : cur < dfa.dfaStates.length := lt_of_getElem? hcur
  by_cases hne : U = []
  · subst hne
    rw [recordSymbol_empty]
    exact { hinv with
      trans := by
        intro i c hE S hS U' hU'
        rcases hE with hE | ⟨rfl, rfl⟩
        · exact hinv.trans i c hE S hS U' hU'
        · rw [hcur] at hS
          obtain rfl := Option.some.inj hS
          rw [hU] at hU'
          obtain rfl := Option.some.inj hU'
          refine ⟨fun _ => ?_, fun h => absurd rfl h⟩
          by_cases hE : E i c
          · exact (hinv.trans i c hE _ hcur [] hU).1 rfl
          · exact hinv.fresh i c hE
      fresh := fun i c hi => hinv.fresh i c (fun h => hi (Or.inl h))
      expanded := by
        intro i c hE
        rcases hE with hE | ⟨rfl, rfl⟩
        · exact hinv.expanded i c hE
        · exact hcurlt }
  · cases hfind : mapFind U dfa.stateMap with
    | some j =>
      rw [recordSymbol_known nfa cur symbol U (dfa, unmarked) hne j hfind]
      have hdelta := delta_record dfa { dfa with
          transitions := mapInsert cur
            (mapInsert symbol j (mapIndex [] cur dfa.transitions).1)
            (mapIndex [] cur dfa.transitions).2 } cur symbol j rfl
      exact {
        alphabet := hinv.alphabet
        start := hinv.start
        first := hinv.first
        nodup := hinv.nodup
        isSet := hinv.isSet
        nonempty := hinv.nonempty
        bounded := hinv.bounded
        closed := hinv.closed
        stateMap := hinv.stateMap
        queue := hinv.queue
        popped := hinv.popped
        acceptBound := hinv.acceptBound
        accept := hinv.accept
        reach := hinv.reach
        trans := by
          intro i c hE S hS U' hU'
          rw [hdelta i c]
          by_cases hic : i = cur ∧ c = symbol
          · obtain ⟨rfl, rfl⟩ := hic
            have hS' : dfa.dfaStates[i]? = some S := hS
            rw [hcur] at hS'
            obtain rfl := Option.some.inj hS'
            rw [hU] at hU'
            obtain rfl := Option.some.inj hU'
            simp only [and_self, if_true]
            exact ⟨fun h => absurd h hne, fun _ => ⟨j, rfl, (hinv.stateMap U j).1 hfind⟩⟩
          · simp only [hic, if_false]
            rcases hE with hE | hE
            · exact hinv.trans i c hE S hS U' hU'
            · exact absurd hE hic
        fresh := by
          intro i c hE
          rw [hdelta i c]
          have hic : ¬ (i = cur ∧ c = symbol) := fun h => hE (Or.inr h)
          simp only [hic, if_false]
          exact hinv.fresh i c (fun h => hE (Or.inl h))
        expanded := by
          intro i c hE
          rcases hE with hE | ⟨rfl, rfl⟩
          · exact hinv.expanded i c hE
          · exact hcurlt }
    | none =>
      rw [recordSymbol_new nfa cur symbol U (dfa, unmarked) hne hfind]
      have hUnew : U ∉ dfa.dfaStates := by
        intro hmem
        obtain ⟨i, hi⟩ := List.mem_iff_getElem?.1 hmem
        have := (hinv.stateMap U i).2 hi
        rw [hfind] at this
        exact Option.noConfusion this
      have hdelta := delta_record dfa { dfa with
          stateMap := mapInsert U dfa.dfaStates.length dfa.stateMap
          dfaStates := dfa.dfaStates ++ [U]
          acceptStates :=
            if U.any (fun s => decide (s ∈ nfa.acceptStates)) then
              setInsert dfa.dfaStates.length dfa.acceptStates
            else dfa.acceptStates
          transitions := mapInsert cur
            (mapInsert symbol dfa.dfaStates.length (mapIndex [] cur dfa.transitions).1)
            (mapIndex [] cur dfa.transitions).2 } cur symbol dfa.dfaStates.length rfl
      have hold : ∀ i S, i < dfa.dfaStates.length →
          ((dfa.dfaStates ++ [U])[i]? = some S ↔ dfa.dfaStates[i]? = some S) := by
        intro i S hi
        rw [List.getElem?_append_left hi]
      have hmemU : ∀ S, S ∈ dfa.dfaStates ++ [U] → S ∈ dfa.dfaStates ∨ S = U := by
        intro S hS
        simpa using hS
      exact {
        alphabet := hinv.alphabet
        start := hinv.start
        first := by
          have h0 : 0 < dfa.dfaStates.length := by
            have := hinv.first
            by_contra hlen
            have hnil : dfa.dfaStates.length ≤ 0 := by omega
            rw [List.getElem?_eq_none hnil] at this
            obtain ⟨r, hr, _⟩ := epsilonClosure_spec nfa hC.eps [nfa.startState]
            rw [hr] at this
            exact Option.noConfusion this
          show (dfa.dfaStates ++ [U])[0]? = _
          rw [List.getElem?_append_left h0]
          exact hinv.first
        nodup := by
          show (dfa.dfaStates ++ [U]).Nodup
          rw [List.nodup_append]
          refine ⟨hinv.nodup, List.nodup_singleton U, ?_⟩
          intro S hS hS'
          rw [List.mem_singleton] at hS'
          subst hS'
          exact hUnew hS
        isSet := by
          intro S hS
          rcases hmemU S hS with h | rfl
          · exact hinv.isSet S h
          · exact hUset
        nonempty := by
          intro S hS
          rcases hmemU S hS with h | rfl
          · exact hinv.nonempty S h
          · exact hne
        bounded := by
          intro S hS
          rcases hmemU S hS with h | rfl
          · exact hinv.bounded S h
          · exact hUb
        closed := by
          intro S hS
          rcases hmemU S hS with h | rfl
          · exact hinv.closed S h
          · exact hUcl
        reach := by
          intro S hS
          rcases hmemU S hS with h | rfl
          · exact hinv.reach S h
          · exact SubsetReachable.step (hinv.reach current (mem_of_getElem? hcur)) hsym hU
        stateMap := by
          intro S i
          show mapFind S (mapInsert U dfa.dfaStates.length dfa.stateMap) = some i ↔
            (dfa.dfaStates ++ [U])[i]? = some S
          rw [getElem?_snoc]
          by_cases hSU : S = U
          · subst hSU
            rw [mapFind_mapInsert_self]
            constructor
            · intro h
              exact Or.inr ⟨(Option.some.inj h).symm, rfl⟩
            · rintro (h | ⟨h, _⟩)
              · exact absurd (mem_of_getElem? h) hUnew
              · rw [h]
          · rw [mapFind_mapInsert_ne _ _ _ _ hSU, hinv.stateMap S i]
            constructor
            · exact Or.inl
            · rintro (h | ⟨_, h⟩)
              · exact h
              · exact absurd h.symm hSU
        queue := by
          show unmarked ++ [U] = (dfa.dfaStates ++ [U]).drop k
          rw [List.drop_append_of_le_length hinv.popped, hinv.queue]
        popped := by
          show k ≤ (dfa.dfaStates ++ [U]).length
          have := hinv.popped
          simp only [List.length_append, List.length_singleton]
          omega
        acceptBound := by
          intro i hi
          show i < (dfa.dfaStates ++ [U]).length
          simp only [List.length_append, List.length_singleton]
          have hi' : i ∈ (if U.any (fun s => decide (s ∈ nfa.acceptStates)) then
              setInsert dfa.dfaStates.length dfa.acceptStates else dfa.acceptStates) := hi
          split_ifs at hi' with h
          · rcases (mem_setInsert _ _ _).1 hi' with h1 | h1
            · omega
            · have := hinv.acceptBound i h1
              omega
          · have := hinv.acceptBound i hi'
            omega
        accept := by
          intro i S hS
          have hS' : (dfa.dfaStates ++ [U])[i]? = some S := hS
          show i ∈ (if U.any (fun s => decide (s ∈ nfa.acceptStates)) then
              setInsert dfa.dfaStates.length dfa.acceptStates else dfa.acceptStates) ↔ _
          rcases (getElem?_snoc _ _ _ _).1 hS' with h | ⟨h1, h2⟩
          · have hlt := lt_of_getElem? h
            rw [← hinv.accept i S h]
            split_ifs with hacc
            · rw [mem_setInsert]
              constructor
              · rintro (h1 | h1)
                · omega
                · exact h1
              · exact Or.inr
            · rfl
          · subst h1 h2
            have hnot : dfa.dfaStates.length ∉ dfa.acceptStates := by
              intro h
              have := hinv.acceptBound _ h
              omega
            split_ifs with hacc
            · rw [mem_setInsert]
              simp only [true_or, true_iff]
              simpa using hacc
            · constructor
              · intro h
                exact absurd h hnot
              · intro h
                exact absurd (by simpa using h) hacc
        trans := by
          intro i c hE S hS U' hU'
          have hS' : (dfa.dfaStates ++ [U])[i]? = some S := hS
          rw [hdelta i c]
          show (U' = [] → _) ∧ (U' ≠ [] → ∃ j, _ ∧ (dfa.dfaStates ++ [U])[j]? = some U')
          by_cases hic : i = cur ∧ c = symbol
          · obtain ⟨rfl, rfl⟩ := hic
            rw [hold i S hcurlt, hcur] at hS'
            obtain rfl := Option.some.inj hS'
            rw [hU] at hU'
            obtain rfl := Option.some.inj hU'
            simp only [and_self, if_true]
            refine ⟨fun h => absurd h hne, fun _ => ⟨dfa.dfaStates.length, rfl, ?_⟩⟩
            rw [getElem?_snoc]
            exact Or.inr ⟨rfl, rfl⟩
          · simp only [hic, if_false]
            rcases hE with hE | hE
            · have hlt := hinv.expanded i c hE
              rw [hold i S hlt] at hS'
              obtain ⟨h1, h2⟩ := hinv.trans i c hE S hS' U' hU'
              refine ⟨h1, fun h => ?_⟩
              obtain ⟨j, hj1, hj2⟩ := h2 h
              exact ⟨j, hj1, (getElem?_snoc _ _ _ _).2 (Or.inl hj2)⟩
            · exact absurd hE hic
        fresh := by
          intro i c hE
          rw [hdelta i c]
          have hic : ¬ (i = cur ∧ c = symbol) := fun h => hE (Or.inr h)
          simp only [hic, if_false]
          exact hinv.fresh i c (fun h => hE (Or.inl h))
        expanded := by
          intro i c hE
          show i < (dfa.dfaStates ++ [U]).length
          simp only [List.length_append, List.length_singleton]
          rcases hE with hE | ⟨rfl, rfl⟩
          · have := hinv.expanded i c hE
            omega
          · omega }

theorem recordSymbol_states (nfa : NFA) (cur : Nat) (symbol : Char) (U : List Nat)
    (st : DFA × List (List Nat)) (i : Nat) (S : List Nat) (h : st.1.dfaStates[i]? = some S) :
    (recordSymbol nfa cur symbol U st).1.dfaStates[i]? = some S := by
  by_cases hne : U = []
  · subst hne
    rw [recordSymbol_empty]
    exact h
  · cases hfind : mapFind U st.1.stateMap with
    | some j =>
      rw [recordSymbol_known nfa cur symbol U st hne j hfind]
      exact h
    | none =>
      rw [recordSymbol_new nfa cur symbol U st hne hfind]
      exact (getElem?_snoc _ _ _ _).2 (Or.inl h)

theorem symbolLoop_inv (nfa : NFA) (hC : nfa.Closed) (cur : Nat) (current : List Nat) :
    ∀ (rest : List Char) (dfa : DFA) (unmarked : List (List Nat)) (k : Nat)
      (E : Nat → Char → Prop), (∀ c ∈ rest, c ∈ nfa.alphabet) →
      SubsetInv nfa dfa unmarked k E → dfa.dfaStates[cur]? = some current →
      ∃ st, symbolLoop nfa current cur rest (dfa, unmarked) = some st ∧
        SubsetInv nfa st.1 st.2 k (fun i c => E i c ∨ (i = cur ∧ c ∈ rest)) := by
  intro rest
  induction rest with
  | nil =>
    intro dfa unmarked k E _ hinv _
    exact ⟨(dfa, unmarked), rfl, hinv.congr (fun i c => by simp)⟩
  | cons symbol rest ih =>
    intro dfa unmarked k E hrest hinv hcur
    obtain ⟨U, hU, -⟩ := epsilonClosure_spec nfa hC.eps (move current symbol nfa)
    have hstep := recordSymbol_inv nfa hC dfa unmarked k E cur current symbol U hinv hcur
      (hrest symbol (List.mem_cons_self _ _)) hU
    have hcur' := recordSymbol_states nfa cur symbol U (dfa, unmarked) cur current hcur
    obtain ⟨st, hst, hinv'⟩ := ih _ _ k _
      (fun c hc => hrest c (List.mem_cons_of_mem _ hc)) hstep hcur'
    refine ⟨st, ?_, hinv'.congr (fun i c => ?_)⟩
    · simp only [symbolLoop, hU]
      exact hst
    · simp only [List.mem_cons]
      constructor
      · rintro (h | ⟨h1, rfl | h2⟩)
        · exact Or.inl (Or.inl h)
        · exact Or.inl (Or.inr ⟨h1, rfl⟩)
        · exact Or.inr ⟨h1, h2⟩
      · rintro ((h | ⟨h1, h2⟩) | ⟨h1, h2⟩)
        · exact Or.inl h
        · exact Or.inr ⟨h1, Or.inl h2⟩
        · exact Or.inr ⟨h1, Or.inr h2⟩

/-- There are at most `2 ^ n` sets of identities below `n`. -/
theorem subsets_card (n : Nat) (L : List (List Nat)) (hnd : L.Nodup)
    (hset : ∀ S ∈ L, IsSet S) (hb : ∀ S ∈ L, ∀ x ∈ S, x < n) : L.length ≤ 2 ^ n := by
  have hinj : ∀ S ∈ L, ∀ T ∈ L, S.toFinset = T.toFinset → S = T := by
    intro S hS T hT h
    apply isSet_ext (hset S hS) (hset T hT)
    intro x
    rw [← List.mem_toFinset, h, List.mem_toFinset]
  have hnd' : (L.map List.toFinset).Nodup := List.Nodup.map_on hinj hnd
  have hsub : (L.map List.toFinset).toFinset ⊆ (Finset.range n).powerset := by
    intro F hF
    rw [List.mem_toFinset, List.mem_map] at hF
    obtain ⟨S, hS, rfl⟩ := hF
    rw [Finset.mem_powerset]
    intro x hx
    rw [List.mem_toFinset] at hx
    exact Finset.mem_range.2 (hb S hS x hx)
  calc L.length = (L.map List.toFinset).length := (List.length_map _ _).symm
    _ = (L.map List.toFinset).toFinset.card := (List.toFinset_card_of_nodup hnd').symm
    _ ≤ ((Finset.range n).powerset).card := Finset.card_le_card hsub
    _ = 2 ^ n := by rw [Finset.card_powerset, Finset.card_range]

theorem SubsetInv.card_le {nfa : NFA} {dfa : DFA} {unmarked : List (List Nat)} {k : Nat}
    {E : Nat → Char → Prop} (h : SubsetInv nfa dfa unmarked k E) :
    dfa.dfaStates.length ≤ 2 ^ nfa.states.length :=
  subsets_card _ _ h.nodup h.isSet h.bounded

theorem worklist_inv (nfa : NFA) (hC : nfa.Closed) :
    ∀ (fuel : Nat) (dfa : DFA) (unmarked : List (List Nat)) (k : Nat),
      SubsetInv nfa dfa unmarked k (fun i c => i < k ∧ c ∈ nfa.alphabet) →
      2 ^ nfa.states.length ≤ k + fuel →
      ∃ d, worklist nfa fuel dfa unmarked = some d ∧
        SubsetInv nfa d [] d.dfaStates.length
          (fun i c => i < d.dfaStates.length ∧ c ∈ nfa.alphabet) := by
  intro fuel
  induction fuel with
  | zero =>
    intro dfa unmarked k hinv hfuel
    have hlen := hinv.card_le
    have hk : dfa.dfaStates.length ≤ k := by omega
    have hq : unmarked = [] := by
      rw [hinv.queue]
      exact List.drop_eq_nil_iff.2 hk
    subst hq
    have hk' : k = dfa.dfaStates.length := le_antisymm hinv.popped hk
    subst hk'
    exact ⟨dfa, rfl, hinv⟩
  | succ fuel ih =>
    intro dfa unmarked k hinv hfuel
    cases unmarked with
    | nil =>
      have hk : dfa.dfaStates.length ≤ k := List.drop_eq_nil_iff.1 hinv.queue.symm
      have hk' : k = dfa.dfaStates.length := le_antisymm hinv.popped hk
      subst hk'
      exact ⟨dfa, rfl, hinv⟩
    | cons current rest =>
      have hklt : k < dfa.dfaStates.length := by
        by_contra h
        have := List.drop_eq_nil_iff.2 (show dfa.dfaStates.length ≤ k by omega)
        rw [← hinv.queue] at this
        exact List.noConfusion this
      have hq := hinv.queue
      rw [List.drop_eq_getElem_cons hklt] at hq
      have hcurrent : current = dfa.dfaStates[k] := (List.cons.inj hq).1
      have hrest : rest = dfa.dfaStates.drop (k + 1) := (List.cons.inj hq).2
      have hcur : dfa.dfaStates[k]? = some current := by
        rw [List.getElem?_eq_getElem hklt, hcurrent]
      have hfind : mapFind current dfa.stateMap = some k := (hinv.stateMap current k).2 hcur
      have hinv1 : SubsetInv nfa dfa rest (k + 1) (fun i c => i < k ∧ c ∈ nfa.alphabet) :=
        { hinv with queue := hrest, popped := hklt }
      obtain ⟨st, hst, hinv2⟩ := symbolLoop_inv nfa hC k current nfa.alphabet dfa rest (k + 1)
        _ (fun _ hc => hc) hinv1 hcur
      have hinv3 : SubsetInv nfa st.1 st.2 (k + 1) (fun i c => i < k + 1 ∧ c ∈ nfa.alphabet) := by
        refine hinv2.congr (fun i c => ?_)
        constructor
        · rintro ⟨h1, h2⟩
          by_cases h : i = k
          · exact Or.inr ⟨h, h2⟩
          · exact Or.inl ⟨by omega, h2⟩
        · rintro (⟨h1, h2⟩ | ⟨h1, h2⟩)
          · exact ⟨by omega, h2⟩
          · exact ⟨by omega, h2⟩
      obtain ⟨d, hd, hinv4⟩ := ih st.1 st.2 (k + 1) hinv3 (by omega)
      refine ⟨d, ?_, hinv4⟩
      have heta : ({ dfa with stateMap := dfa.stateMap } : DFA) = dfa := rfl
      simp only [worklist, mapIndex_of_find 0 hfind, heta, hst]
      exact hd

/-- The subset construction returns on every automaton whose identities are valid, and
the DFA it returns satisfies the invariant with every state expanded. -/
theorem subsetConstruction_spec (nfa : NFA) (hC : nfa.Closed) :
    ∃ d, subsetConstruction nfa = some d ∧
      SubsetInv nfa d [] d.dfaStates.length
        (fun i c => i < d.dfaStates.length ∧ c ∈ nfa.alphabet) := by
  obtain ⟨S0, hS0, -⟩ := epsilonClosure_spec nfa hC.eps [nfa.startState]
  have hstartB : ∀ x ∈ [nfa.startState], x < nfa.states.length := by
    intro x hx
    rw [List.mem_singleton] at hx
    subst hx
    exact hC.start
  obtain ⟨hset, hb, hcl, hmem⟩ := closure_facts nfa hC [nfa.startState] S0 hstartB
    (List.sorted_singleton _) hS0
  have hstart : nfa.startState ∈ S0 :=
    (hmem _).2 ⟨_, List.mem_singleton_self _, Relation.ReflTransGen.refl⟩
  have hinit : SubsetInv nfa
      (markAccepting nfa S0 0 { DFA.new with
        alphabet := nfa.alphabet
        stateMap := mapInsert S0 0 []
        dfaStates := [S0]
        startState := 0 }) [S0] 0 (fun i c => i < 0 ∧ c ∈ nfa.alphabet) := by
    have hfields : ∀ d : DFA, (markAccepting nfa S0 0 d).alphabet = d.alphabet ∧
        (markAccepting nfa S0 0 d).startState = d.startState ∧
        (markAccepting nfa S0 0 d).dfaStates = d.dfaStates ∧
        (markAccepting nfa S0 0 d).stateMap = d.stateMap ∧
        (markAccepting nfa S0 0 d).transitions = d.transitions ∧
        (markAccepting nfa S0 0 d).acceptStates =
          if S0.any (fun s => decide (s ∈ nfa.acceptStates)) then setInsert 0 d.acceptStates
          else d.acceptStates := by
      intro d
      unfold markAccepting
      split_ifs <;> simp
    obtain ⟨f1, f2, f3, f4, f5, f6⟩ := hfields { DFA.new with
        alphabet := nfa.alphabet
        stateMap := mapInsert S0 0 []
        dfaStates := [S0]
        startState := 0 }
    have hS : ∀ S, S ∈ [S0] → S = S0 := fun S h => List.mem_singleton.1 h
    exact {
      alphabet := f1
      start := f2
      first := by rw [f3, hS0]; rfl
      nodup := by rw [f3]; exact List.nodup_singleton _
      isSet := by
        rw [f3]
        intro S h
        rw [hS S h]
        exact hset
      nonempty := by
        rw [f3]
        intro S h
        rw [hS S h]
        exact List.ne_nil_of_mem hstart
      bounded := by
        rw [f3]
        intro S h
        rw [hS S h]
        exact hb
      closed := by
        rw [f3]
        intro S h
        rw [hS S h]
        exact hcl
      stateMap := by
        rw [f3, f4]
        intro S i
        show mapFind S [(S0, 0)] = some i ↔ [S0][i]? = some S
        cases i with
        | zero =>
          by_cases h : S = S0
          · simp [mapFind, h]
          · have h' : ¬ S0 = S := fun h1 => h h1.symm
            simp [mapFind, h, h']
        | succ i =>
          by_cases h : S = S0
          · simp [mapFind, h]
          · simp [mapFind, h]
      queue := by rw [f3]; rfl
      popped := Nat.zero_le _
      acceptBound := by
        rw [f3, f6]
        intro i hi
        have hnew : DFA.new.acceptStates = [] := rfl
        simp only [hnew] at hi
        split_ifs at hi with h
        · simp [setInsert] at hi
          simp [hi]
        · simp at hi
      accept := by
        rw [f3, f6]
        intro i S hS
        have hnew : DFA.new.acceptStates = [] := rfl
        simp only [hnew]
        have hi : i = 0 ∧ S0 = S := by
          cases i with
          | zero => simpa using hS
          | succ i => simp at hS
        obtain ⟨rfl, rfl⟩ := hi
        split_ifs with h
        · simp only [setInsert, List.mem_singleton, true_iff]
          simpa using h
        · simp only [List.not_mem_nil, false_iff]
          intro h1
          exact h (by simpa using h1)
      trans := by
        intro i c hE
        exact absurd hE.1 (Nat.not_lt_zero i)
      fresh := by
        intro i c _
        unfold DFA.delta
        rw [f5]
        rfl
      expanded := by
        intro i c hE
        exact absurd hE.1 (Nat.not_lt_zero i)
      reach := by
        rw [f3]
        intro S h
        rw [hS S h]
        exact SubsetReachable.start hS0 }
  obtain ⟨d, hd, hinv⟩ := worklist_inv nfa hC (2 ^ nfa.states.length) _ [S0] 0 hinit (by omega)
  refine ⟨d, ?_, hinv⟩
  simp only [subsetConstruction, hS0]
  exact hd

/-! ## The subset construction preserves the language -/

theorem Path.of_epsReach {nfa : NFA} {p p' q : Nat} {w : List Char}
    (h : Relation.ReflTransGen nfa.epsStep p p') (hp : nfa.Path p' w q) : nfa.Path p w q := by
  induction h using Relation.ReflTransGen.head_induction_on with
  | refl => exact hp
  | head hstep _ ih => exact NFA.Path.eps hstep ih

theorem Path.nil_iff {nfa : NFA} {p q : Nat} :
    nfa.Path p [] q ↔ Relation.ReflTransGen nfa.epsStep p q := by
  constructor
  · intro h
    generalize hw : ([] : List Char) = w at h
    induction h with
    | nil p => exact Relation.ReflTransGen.refl
    | eps hstep _ ih => exact Relation.ReflTransGen.head hstep (ih hw)
    | sym _ _ _ => exact List.noConfusion hw
  · intro h
    exact Path.of_epsReach h (NFA.Path.nil q)

theorem Path.cons_iff {nfa : NFA} {p q : Nat} {c : Char} {w : List Char} :
    nfa.Path p (c :: w) q ↔
      ∃ p' x, Relation.ReflTransGen nfa.epsStep p p' ∧ nfa.symStep c p' x ∧ nfa.Path x w q := by
  constructor
  · intro h
    generalize hw : c :: w = w' at h
    induction h with
    | nil p => exact List.noConfusion hw
    | eps hstep _ ih =>
      obtain ⟨p', x, h1, h2, h3⟩ := ih hw
      exact ⟨p', x, Relation.ReflTransGen.head hstep h1, h2, h3⟩
    | sym hstep hrest _ =>
      obtain ⟨rfl, rfl⟩ := List.cons.inj hw
      exact ⟨_, _, Relation.ReflTransGen.refl, hstep, hrest⟩
  · rintro ⟨p', x, h1, h2, h3⟩
    exact Path.of_epsReach h1 (NFA.Path.sym h2 h3)

theorem Path.append {nfa : NFA} {p q r : Nat} {u v : List Char}
    (h1 : nfa.Path p u q) (h2 : nfa.Path q v r) : nfa.Path p (u ++ v) r := by
  induction h1 with
  | nil p => exact h2
  | eps hstep _ ih => exact NFA.Path.eps hstep (ih h2)
  | sym hstep _ ih => exact NFA.Path.sym hstep (ih h2)

theorem epsReach_mem_of_closed {nfa : NFA} {S : List Nat}
    (hcl : ∀ x ∈ S, ∀ y, nfa.epsStep x y → y ∈ S) {s x : Nat}
    (h : Relation.ReflTransGen nfa.epsStep s x) (hs : s ∈ S) : x ∈ S := by
  induction h with
  | refl => exact hs
  | tail _ hstep ih => exact hcl _ ih _ hstep

/-- From the DFA state of the subset `S`, the DFA accepts `w` exactly when the NFA has an
accepting path that spells `w` from a state of `S`. -/
theorem run_subset_of_labels (nfa : NFA) (hC : nfa.Closed)
    (hlab : ∀ c p q, nfa.symStep c p q → c ∈ nfa.alphabet) (d : DFA)
    (hinv : SubsetInv nfa d [] d.dfaStates.length
      (fun i c => i < d.dfaStates.length ∧ c ∈ nfa.alphabet)) :
    ∀ (w : List Char) (i : Nat) (S : List Nat), d.dfaStates[i]? = some S →
      (d.acceptsFrom i w = true ↔
        ∃ s ∈ S, ∃ q ∈ nfa.acceptStates, nfa.Path s w q) := by
  unfold DFA.acceptsFrom
  intro w
  induction w with
  | nil =>
    intro i S hS
    simp only [DFA.run, decide_eq_true_eq]
    rw [hinv.accept i S hS]
    have hcl := hinv.closed S (mem_of_getElem? hS)
    constructor
    · rintro ⟨s, hs, hacc⟩
      exact ⟨s, hs, s, hacc, NFA.Path.nil s⟩
    · rintro ⟨s, hs, q, hq, hpath⟩
      exact ⟨q, epsReach_mem_of_closed hcl (Path.nil_iff.1 hpath) hs, hq⟩
  | cons c w ih =>
    intro i S hS
    have hcl := hinv.closed S (mem_of_getElem? hS)
    have hSb := hinv.bounded S (mem_of_getElem? hS)
    simp only [DFA.run, hinv.alphabet]
    by_cases hc : c ∈ nfa.alphabet
    · simp only [hc, if_true]
      obtain ⟨U, hU, -⟩ := epsilonClosure_spec nfa hC.eps (move S c nfa)
      obtain ⟨-, -, -, hUmem⟩ := closure_facts nfa hC _ U (move_bounded nfa hC S c)
        (move_isSet nfa c S) hU
      obtain ⟨h1, h2⟩ := hinv.trans i c ⟨lt_of_getElem? hS, hc⟩ S hS U hU
      have hfwd : ∀ s ∈ S, ∀ q, nfa.Path s (c :: w) q → ∃ u ∈ U, nfa.Path u w q := by
        intro s hs q hpath
        obtain ⟨p', x, hreach, hstep, hrest⟩ := Path.cons_iff.1 hpath
        have hp' : p' ∈ S := epsReach_mem_of_closed hcl hreach hs
        have hx : x ∈ move S c nfa := (mem_move nfa c S x).2 ⟨p', hp', hstep⟩
        exact ⟨x, (hUmem x).2 ⟨x, hx, Relation.ReflTransGen.refl⟩, hrest⟩
      by_cases hne : U = []
      · rw [h1 hne]
        simp only [Bool.false_eq_true, false_iff]
        rintro ⟨s, hs, q, _, hpath⟩
        obtain ⟨u, hu, _⟩ := hfwd s hs q hpath
        rw [hne] at hu
        exact List.not_mem_nil _ hu
      · obtain ⟨j, hj, hjU⟩ := h2 hne
        rw [hj]
        simp only
        rw [ih j U hjU]
        constructor
        · rintro ⟨u, hu, q, hq, hpath⟩
          obtain ⟨x, hx, hreach⟩ := (hUmem u).1 hu
          obtain ⟨s, hs, hstep⟩ := (mem_move nfa c S x).1 hx
          exact ⟨s, hs, q, hq, NFA.Path.sym hstep (Path.of_epsReach hreach hpath)⟩
        · rintro ⟨s, hs, q, hq, hpath⟩
          obtain ⟨u, hu, hrest⟩ := hfwd s hs q hpath
          exact ⟨u, hu, q, hq, hrest⟩
    · simp only [hc, if_false, Bool.false_eq_true, false_iff]
      rintro ⟨s, _, q, _, hpath⟩
      obtain ⟨p', x, _, hstep, _⟩ := Path.cons_iff.1 hpath
      exact hc (hlab c p' x hstep)

theorem run_subset (nfa : NFA) (hC : nfa.Closed) (hA : nfa.AlphabetCovers) (d : DFA)
    (hinv : SubsetInv nfa d [] d.dfaStates.length
      (fun i c => i < d.dfaStates.length ∧ c ∈ nfa.alphabet)) :
    ∀ (w : List Char) (i : Nat) (S : List Nat), d.dfaStates[i]? = some S →
      (d.acceptsFrom i w = true ↔
        ∃ s ∈ S, ∃ q ∈ nfa.acceptStates, nfa.Path s w q) :=
  run_subset_of_labels nfa hC hA.labels d hinv

/-- The subset construction preserves the language: it returns a DFA, and that DFA
accepts exactly the strings the NFA accepts. -/
theorem subsetConstruction_accepts_of_labels (nfa : NFA) (hC : nfa.Closed)
    (hlab : ∀ c p q, nfa.symStep c p q → c ∈ nfa.alphabet) :
    ∃ d, subsetConstruction nfa = some d ∧ ∀ w, (d.accepts w = true ↔ nfa.accepts w) := by
  obtain ⟨d, hd, hinv⟩ := subsetConstruction_spec nfa hC
  refine ⟨d, hd, fun w => ?_⟩
  obtain ⟨S0, hS0, -⟩ := epsilonClosure_spec nfa hC.eps [nfa.startState]
  have hstartB : ∀ x ∈ [nfa.startState], x < nfa.states.length := by
    intro x hx
    rw [List.mem_singleton] at hx
    subst hx
    exact hC.start
  obtain ⟨-, -, -, hmem⟩ := closure_facts nfa hC [nfa.startState] S0 hstartB
    (List.sorted_singleton _) hS0
  have hfirst : d.dfaStates[0]? = some S0 := by rw [hinv.first, hS0]
  unfold DFA.accepts NFA.accepts
  rw [hinv.start, run_subset_of_labels nfa hC hlab d hinv w 0 S0 hfirst]
  constructor
  · rintro ⟨s, hs, q, hq, hpath⟩
    obtain ⟨s0, hs0, hreach⟩ := (hmem s).1 hs
    rw [List.mem_singleton] at hs0
    subst hs0
    exact ⟨q, hq, Path.of_epsReach hreach hpath⟩
  · rintro ⟨q, hq, hpath⟩
    exact ⟨nfa.startState, (hmem _).2 ⟨_, List.mem_singleton_self _, Relation.ReflTransGen.refl⟩,
      q, hq, hpath⟩

theorem subsetConstruction_accepts (nfa : NFA) (hC : nfa.Closed) (hA : nfa.AlphabetCovers) :
    ∃ d, subsetConstruction nfa = some d ∧ ∀ w, (d.accepts w = true ↔ nfa.accepts w) :=
  subsetConstruction_accepts_of_labels nfa hC hA.labels

/-! ## The demo automaton: third symbol from the end -/

theorem convert_thirdFromEnd : convert "(0|1)*1(0|1)(0|1)".toList = some thirdFromEndDFA := by
  decide

theorem thirdFromEnd_step :
    ∀ q < 9, ∀ c ∈ ['0', '1'], ∃ q' < 9, thirdFromEndDFA.delta q c = some q' ∧
      thirdCode q' = (2 * thirdCode q + bitOf c) % 8 := by
  decide

theorem thirdFromEnd_run (w : List Char) (hw : ∀ c ∈ w, c = '0' ∨ c = '1') (q : Nat) (hq : q < 9) :
    ∃ q' < 9, thirdFromEndDFA.run q w = some q' ∧
      thirdCode q' = w.foldl (fun m c => (2 * m + bitOf c) % 8) (thirdCode q) := by
  induction w generalizing q with
  | nil => exact ⟨q, hq, rfl, rfl⟩
  | cons c w ih =>
    have hc : c ∈ ['0', '1'] := by
      rcases hw c (List.mem_cons_self _ _) with h | h <;> simp [h]
    obtain ⟨q1, hq1, hd, hcode⟩ := thirdFromEnd_step q hq c hc
    obtain ⟨q2, hq2, hr, hcode2⟩ := ih (fun x hx => hw x (List.mem_cons_of_mem _ hx)) q1 hq1
    refine ⟨q2, hq2, ?_, ?_⟩
    · have hA : c ∈ thirdFromEndDFA.alphabet := hc
      simp only [DFA.run, hA, if_true, hd, hr]
    · simp only [List.foldl_cons, hcode2, hcode]

theorem thirdFromEnd_accept : ∀ q < 9, (q ∈ thirdFromEndDFA.acceptStates ↔ 4 ≤ thirdCode q) := by
  decide

theorem foldl_shift_append (u v : List Char) (m : Nat) :
    (u ++ v).foldl (fun m c => (2 * m + bitOf c) % 8) m =
      v.foldl (fun m c => (2 * m + bitOf c) % 8) (u.foldl (fun m c => (2 * m + bitOf c) % 8) m) :=
  List.foldl_append _ _ _ _

theorem bitOf_le (c : Char) : bitOf c ≤ 1 := by
  unfold bitOf; split <;> omega

theorem shift_register (w : List Char) (hw : ∀ c ∈ w, c = '0' ∨ c = '1') :
    4 ≤ w.foldl (fun m c => (2 * m + bitOf c) % 8) 0 ↔
      (3 ≤ w.length ∧ w[w.length - 3]? = some '1') := by
  by_cases hlen : 3 ≤ w.length
  · obtain ⟨u, x, a, b, rfl⟩ : ∃ u x a b, w = u ++ [x, a, b] := by
      refine ⟨w.take (w.length - 3), w[w.length - 3], w[w.length - 2], w[w.length - 1], ?_⟩
      apply List.ext_getElem
      · simp; omega
      · intro i h1 h2
        by_cases hi : i < w.length - 3
        · rw [List.getElem_append_left (by simpa using by omega)]
          simp
        · rw [List.getElem_append_right (by simp; omega)]
          simp only [List.length_take]
          have h3 : min (w.length - 3) w.length = w.length - 3 := by omega
          simp only [h3]
          have : i - (w.length - 3) = 0 ∨ i - (w.length - 3) = 1 ∨ i - (w.length - 3) = 2 := by
            omega
          rcases this with h | h | h
          · simp only [h, List.getElem_cons_zero]; congr 1; omega
          · simp only [h, List.getElem_cons_succ, List.getElem_cons_zero]; congr 1; omega
          · simp only [h, List.getElem_cons_succ, List.getElem_cons_zero]; congr 1; omega
    have hx : x = '0' ∨ x = '1' := hw x (by simp)
    have hidx : (u ++ [x, a, b])[(u ++ [x, a, b]).length - 3]? = some x := by
      have : (u ++ [x, a, b]).length - 3 = u.length := by simp
      rw [this, List.getElem?_append_right (le_refl _)]
      simp
    rw [foldl_shift_append, hidx]
    simp only [List.foldl_cons, List.foldl_nil, hlen, true_and, Option.some.injEq]
    have ha := bitOf_le a
    have hb := bitOf_le b
    rcases hx with rfl | rfl
    · have : bitOf '0' = 0 := by decide
      simp only [this]
      constructor
      · intro h; omega
      · intro h; exact absurd h (by decide)
    · have : bitOf '1' = 1 := by decide
      simp only [this, iff_true]
      omega
  · have : w.length = 0 ∨ w.length = 1 ∨ w.length = 2 := by omega
    simp only [hlen, false_and, iff_false, not_le]
    rcases this with h | h | h
    · have : w = [] := List.length_eq_zero.1 h
      subst this; simp
    · obtain ⟨a, rfl⟩ := List.length_eq_one.1 h
      have ha := bitOf_le a
      simp only [List.foldl_cons, List.foldl_nil]; omega
    · obtain ⟨a, b, rfl⟩ := List.length_eq_two.1 h
      have ha := bitOf_le a
      have hb := bitOf_le b
      simp only [List.foldl_cons, List.foldl_nil]; omega

/-! ## What validate leaves alone -/

/-- What the loop of `validate` leaves alone in the DFA object: every field but
`transitions`, and every entry of the table. -/
theorem validateLoop_snd (w : List Char) (d : DFA) (q : Nat) :
    (DFA.validateLoop w d q).2.stateMap = d.stateMap ∧
      (DFA.validateLoop w d q).2.dfaStates = d.dfaStates ∧
      (DFA.validateLoop w d q).2.startState = d.startState ∧
      (DFA.validateLoop w d q).2.acceptStates = d.acceptStates ∧
      (DFA.validateLoop w d q).2.alphabet = d.alphabet ∧
      ∀ p c, (DFA.validateLoop w d q).2.delta p c = d.delta p c := by
  induction w generalizing d q with
  | nil => exact ⟨rfl, rfl, rfl, rfl, rfl, fun _ _ => rfl⟩
  | cons a w ih =>
    unfold DFA.validateLoop
    by_cases ha : a ∈ d.alphabet
    · simp only [ha, if_true]
      cases mapFind a (mapIndex [] q d.transitions).1 with
      | none => exact ⟨rfl, rfl, rfl, rfl, rfl, fun p c => delta_touch d q p c⟩
      | some next =>
        simp only
        obtain ⟨h1, h2, h3, h4, h5, h6⟩ :=
          ih { d with transitions := (mapIndex [] q d.transitions).2 } next
        exact ⟨h1, h2, h3, h4, h5, fun p c => (h6 p c).trans (delta_touch d q p c)⟩
    · simp [ha]

/-- A call of `validate` does not change the verdict of a later call. -/
theorem validate_after (d : DFA) (u w : List Char) :
    ((d.validate u).2.validate w).1 = (d.validate w).1 := by
  obtain ⟨-, -, h3, h4, h5, h6⟩ := validateLoop_snd u d d.startState
  rw [validate_fst, validate_fst]
  unfold DFA.accepts DFA.acceptsFrom DFA.validate
  rw [h3, h4, run_congr d _ h5 h6]

/-! ## The mutation helpers of the automaton model -/

theorem length_modifyAt {α : Type} (f : α → α) (i : Nat) (l : List α) :
    (modifyAt f i l).length = l.length := by
  induction l generalizing i with
  | nil => simp [modifyAt]
  | cons a l ih =>
    cases i with
    | zero => rfl
    | succ i => simp [modifyAt, ih]

theorem getD_modifyAt {α : Type} (f : α → α) (i j : Nat) (l : List α) (d : α) :
    (modifyAt f i l).getD j d =
      if j = i ∧ i < l.length then f (l.getD i d) else l.getD j d := by
  induction l generalizing i j with
  | nil => simp [modifyAt]
  | cons a l ih =>
    cases i with
    | zero =>
      cases j with
      | zero => simp [modifyAt]
      | succ j => simp [modifyAt]
    | succ i =>
      cases j with
      | zero => simp [modifyAt]
      | succ j =>
        simp only [modifyAt, List.getD_cons_succ, ih, List.length_cons]
        simp only [Nat.succ_lt_succ_iff, Nat.succ.injEq]

theorem mem_modifyAt {α : Type} (f : α → α) (i : Nat) (l : List α) (x : α)
    (h : x ∈ modifyAt f i l) : x ∈ l ∨ ∃ y ∈ l, x = f y := by
  induction l generalizing i with
  | nil => simp [modifyAt] at h
  | cons a l ih =>
    cases i with
    | zero =>
      simp only [modifyAt, List.mem_cons] at h
      rcases h with h | h
      · exact Or.inr ⟨a, List.mem_cons_self _ _, h⟩
      · exact Or.inl (List.mem_cons_of_mem _ h)
    | succ i =>
      simp only [modifyAt, List.mem_cons] at h
      rcases h with h | h
      · exact Or.inl (h ▸ List.mem_cons_self _ _)
      · rcases ih i h with h1 | ⟨y, hy, h1⟩
        · exact Or.inl (List.mem_cons_of_mem _ h1)
        · exact Or.inr ⟨y, List.mem_cons_of_mem _ hy, h1⟩

/-! ### The state read at an index after each mutation -/

theorem stateAt_addState (nfa : NFA) (p : Nat) : nfa.addState.2.stateAt p = nfa.stateAt p := by
  unfold NFA.stateAt NFA.addState
  simp only [List.getD_eq_getElem?_getD]
  by_cases h : p < nfa.states.length
  · rw [List.getElem?_append_left h]
  · rw [List.getElem?_append_right (by omega), List.getElem?_eq_none (l := nfa.states) (by omega)]
    by_cases h2 : p = nfa.states.length
    · subst h2
      simp
    · have : p - nfa.states.length ≠ 0 := by omega
      obtain ⟨n, hn⟩ := Nat.exists_eq_succ_of_ne_zero this
      simp [hn]

theorem stateAt_modify (nfa : NFA) (f : NFAState → NFAState) (s p : Nat) :
    NFA.stateAt { nfa with states := modifyAt f s nfa.states } p =
      if p = s ∧ s < nfa.states.length then f (nfa.stateAt p) else nfa.stateAt p := by
  unfold NFA.stateAt
  simp only [getD_modifyAt]
  split_ifs with h
  · obtain ⟨rfl, _⟩ := h
    rfl
  · rfl

theorem stateAt_congr (nfa nfa' : NFA) (h : nfa'.states = nfa.states) (p : Nat) :
    nfa'.stateAt p = nfa.stateAt p := by
  unfold NFA.stateAt
  rw [h]

/-! ### Sizes -/

theorem addState_length (nfa : NFA) : nfa.addState.2.states.length = nfa.states.length + 1 := by
  simp [NFA.addState]

theorem addState_fst (nfa : NFA) : nfa.addState.1 = nfa.states.length := rfl

theorem addTransition_length (nfa : NFA) (s : Nat) (c : Char) (t : Nat) :
    (nfa.addTransition s c t).states.length = nfa.states.length := by
  simp [NFA.addTransition, length_modifyAt]

theorem addEpsilonTransition_length (nfa : NFA) (s t : Nat) :
    (nfa.addEpsilonTransition s t).states.length = nfa.states.length := by
  simp [NFA.addEpsilonTransition, length_modifyAt]

theorem setAccepting_length (nfa : NFA) (s : Nat) :
    (nfa.setAccepting s).states.length = nfa.states.length := by
  simp [NFA.setAccepting, length_modifyAt]

theorem clearFlag_length (nfa : NFA) (s : Nat) :
    (nfa.clearFlag s).states.length = nfa.states.length := by
  simp [NFA.clearFlag, length_modifyAt]

/-! ### Edges -/

theorem stateAt_of_states (nfa' nfa : NFA) (f : NFAState → NFAState) (s : Nat)
    (h : nfa'.states = modifyAt f s nfa.states) (p : Nat) :
    nfa'.stateAt p =
      if p = s ∧ s < nfa.states.length then f (nfa.stateAt p) else nfa.stateAt p := by
  rw [← stateAt_modify nfa f s p]
  exact stateAt_congr _ _ h p

theorem addState_epsStep (nfa : NFA) (p q : Nat) :
    nfa.addState.2.epsStep p q ↔ nfa.epsStep p q := by
  unfold NFA.epsStep
  rw [stateAt_addState]

theorem addState_symStep (nfa : NFA) (c : Char) (p q : Nat) :
    nfa.addState.2.symStep c p q ↔ nfa.symStep c p q := by
  unfold NFA.symStep
  rw [stateAt_addState]

theorem addEpsilonTransition_epsStep (nfa : NFA) (s t p q : Nat) :
    (nfa.addEpsilonTransition s t).epsStep p q ↔
      nfa.epsStep p q ∨ (p = s ∧ q = t ∧ s < nfa.states.length) := by
  unfold NFA.epsStep NFA.addEpsilonTransition
  rw [stateAt_modify]
  split_ifs with h
  · obtain ⟨rfl, h2⟩ := h
    simp only [mem_setInsert]
    tauto
  · constructor
    · exact Or.inl
    · rintro (h1 | ⟨h1, _, h3⟩)
      · exact h1
      · exact absurd ⟨h1, h3⟩ h

theorem addEpsilonTransition_symStep (nfa : NFA) (s t : Nat) (c : Char) (p q : Nat) :
    (nfa.addEpsilonTransition s t).symStep c p q ↔ nfa.symStep c p q := by
  unfold NFA.symStep NFA.addEpsilonTransition
  rw [stateAt_modify]
  split_ifs <;> rfl

theorem addTransition_epsStep (nfa : NFA) (s : Nat) (c : Char) (t p q : Nat) :
    (nfa.addTransition s c t).epsStep p q ↔ nfa.epsStep p q := by
  unfold NFA.epsStep
  rw [stateAt_of_states (nfa.addTransition s c t) nfa (fun st => { st with
    transitions :=
      mapInsert c (setInsert t (mapIndex [] c st.transitions).1) st.transitions }) s rfl]
  split_ifs <;> rfl

theorem addTransition_symStep (nfa : NFA) (s : Nat) (c : Char) (t : Nat) (c' : Char)
    (p q : Nat) :
    (nfa.addTransition s c t).symStep c' p q ↔
      nfa.symStep c' p q ∨ (p = s ∧ c' = c ∧ q = t ∧ s < nfa.states.length) := by
  unfold NFA.symStep
  rw [stateAt_of_states (nfa.addTransition s c t) nfa (fun st => { st with
    transitions :=
      mapInsert c (setInsert t (mapIndex [] c st.transitions).1) st.transitions }) s rfl]
  split_ifs with h
  · obtain ⟨rfl, h2⟩ := h
    by_cases hc : c' = c
    · subst hc
      simp only [mapFind_mapInsert_self, Option.some.injEq, exists_eq_left', mem_setInsert,
        mapIndex_fst]
      cases hfind : mapFind c' (nfa.stateAt p).transitions with
      | none =>
        simp only [Option.getD_none, List.not_mem_nil, or_false, false_and, exists_false,
          false_or]
        tauto
      | some dsts =>
        simp only [Option.getD_some, Option.some.injEq, exists_eq_left']
        tauto
    · simp only [mapFind_mapInsert_ne _ _ _ _ hc]
      constructor
      · exact Or.inl
      · rintro (h | ⟨_, h, _⟩)
        · exact h
        · exact absurd h hc
  · constructor
    · exact Or.inl
    · rintro (h1 | ⟨h1, _, _, h3⟩)
      · exact h1
      · exact absurd ⟨h1, h3⟩ h

theorem setAccepting_epsStep (nfa : NFA) (s p q : Nat) :
    (nfa.setAccepting s).epsStep p q ↔ nfa.epsStep p q := by
  unfold NFA.epsStep
  rw [stateAt_of_states (nfa.setAccepting s) nfa (fun st => { st with isAccepting := true })
    s rfl]
  split_ifs <;> rfl

theorem setAccepting_symStep (nfa : NFA) (s : Nat) (c : Char) (p q : Nat) :
    (nfa.setAccepting s).symStep c p q ↔ nfa.symStep c p q := by
  unfold NFA.symStep
  rw [stateAt_of_states (nfa.setAccepting s) nfa (fun st => { st with isAccepting := true })
    s rfl]
  split_ifs <;> rfl

theorem clearFlag_epsStep (nfa : NFA) (s p q : Nat) :
    (nfa.clearFlag s).epsStep p q ↔ nfa.epsStep p q := by
  unfold NFA.epsStep NFA.clearFlag
  rw [stateAt_modify]
  split_ifs <;> rfl

theorem clearFlag_symStep (nfa : NFA) (s : Nat) (c : Char) (p q : Nat) :
    (nfa.clearFlag s).symStep c p q ↔ nfa.symStep c p q := by
  unfold NFA.symStep NFA.clearFlag
  rw [stateAt_modify]
  split_ifs <;> rfl

/-! ### Order of the keys -/

theorem keysSorted_modify (nfa : NFA) (f : NFAState → NFAState) (s : Nat)
    (hf : ∀ st, (st.transitions.map Prod.fst).Sorted (· < ·) →
      ((f st).transitions.map Prod.fst).Sorted (· < ·))
    (h : nfa.KeysSorted) (nfa' : NFA) (hs : nfa'.states = modifyAt f s nfa.states) :
    nfa'.KeysSorted := by
  intro st hst
  rw [hs] at hst
  rcases mem_modifyAt f s nfa.states st hst with h1 | ⟨y, hy, rfl⟩
  · exact h st h1
  · exact hf y (h y hy)

theorem addState_keysSorted (nfa : NFA) (h : nfa.KeysSorted) : nfa.addState.2.KeysSorted := by
  intro st hst
  simp only [NFA.addState, List.mem_append, List.mem_singleton] at hst
  rcases hst with h1 | rfl
  · exact h st h1
  · simp [NFAState.new]

theorem addTransition_keysSorted (nfa : NFA) (s : Nat) (c : Char) (t : Nat)
    (h : nfa.KeysSorted) : (nfa.addTransition s c t).KeysSorted :=
  keysSorted_modify nfa (fun st => { st with
    transitions :=
      mapInsert c (setInsert t (mapIndex [] c st.transitions).1) st.transitions }) s
    (fun st hst => mapInsert_sorted_char c _ st.transitions hst) h _ rfl

theorem addEpsilonTransition_keysSorted (nfa : NFA) (s t : Nat)
    (h : nfa.KeysSorted) : (nfa.addEpsilonTransition s t).KeysSorted :=
  keysSorted_modify nfa (fun st => { st with
    epsilonTransitions := setInsert t st.epsilonTransitions }) s (fun _ hst => hst) h _ rfl

theorem setAccepting_keysSorted (nfa : NFA) (s : Nat)
    (h : nfa.KeysSorted) : (nfa.setAccepting s).KeysSorted :=
  keysSorted_modify nfa (fun st => { st with isAccepting := true }) s (fun _ hst => hst) h _ rfl

theorem clearFlag_keysSorted (nfa : NFA) (s : Nat)
    (h : nfa.KeysSorted) : (nfa.clearFlag s).KeysSorted :=
  keysSorted_modify nfa (fun st => { st with isAccepting := false }) s (fun _ hst => hst) h _ rfl

/-! ### Alphabet -/

theorem addTransition_alphabet (nfa : NFA) (s : Nat) (c : Char) (t : Nat) (x : Char) :
    x ∈ (nfa.addTransition s c t).alphabet ↔
      x ∈ nfa.alphabet ∨ (x = c ∧ c ≠ Char.ofNat 0) := by
  unfold NFA.addTransition
  simp only
  split_ifs with h
  · rw [mem_setInsert]
    constructor
    · rintro (h1 | h1)
      · exact Or.inr ⟨h1, h⟩
      · exact Or.inl h1
    · rintro (h1 | ⟨h1, _⟩)
      · exact Or.inr h1
      · exact Or.inl h1
  · constructor
    · exact Or.inl
    · rintro (h1 | ⟨_, h1⟩)
      · exact h1
      · exact absurd h1 h

/-! ### Loops of mutations -/

theorem foldl_keeps {α γ : Type} (g : NFA → γ) (f : NFA → α → NFA)
    (hf : ∀ r a, g (f r a) = g r) (l : List α) (R : NFA) : g (l.foldl f R) = g R := by
  induction l generalizing R with
  | nil => rfl
  | cons a l ih => rw [List.foldl_cons, ih, hf]

theorem foldl_invariant {α : Type} (P : NFA → Prop) (f : NFA → α → NFA)
    (hf : ∀ r a, P r → P (f r a)) (l : List α) (R : NFA) (h : P R) : P (l.foldl f R) := by
  induction l generalizing R with
  | nil => exact h
  | cons a l ih => exact ih _ (hf R a h)

theorem epsStep_ext {a b : NFA} (h : ∀ p q, a.epsStep p q ↔ b.epsStep p q) :
    a.epsStep = b.epsStep :=
  funext fun p => funext fun q => propext (h p q)

theorem symStep_ext {a b : NFA} (h : ∀ c p q, a.symStep c p q ↔ b.symStep c p q) :
    a.symStep = b.symStep :=
  funext fun c => funext fun p => funext fun q => propext (h c p q)

/-! ### `addStates` -/

theorem addStates_length (src : List NFAState) (R : NFA) :
    (addStates src R).states.length = R.states.length + src.length := by
  unfold addStates
  induction src generalizing R with
  | nil => rfl
  | cons st src ih =>
    rw [List.foldl_cons, ih, addState_length, List.length_cons]
    omega

theorem addStates_startState (src : List NFAState) (R : NFA) :
    (addStates src R).startState = R.startState := by
  unfold addStates
  apply foldl_keeps NFA.startState
  intro r a
  rfl

theorem addStates_acceptStates (src : List NFAState) (R : NFA) :
    (addStates src R).acceptStates = R.acceptStates := by
  unfold addStates
  apply foldl_keeps NFA.acceptStates
  intro r a
  rfl

theorem addStates_alphabet (src : List NFAState) (R : NFA) :
    (addStates src R).alphabet = R.alphabet := by
  unfold addStates
  apply foldl_keeps NFA.alphabet
  intro r a
  rfl

theorem addStates_epsStep (src : List NFAState) (R : NFA) :
    (addStates src R).epsStep = R.epsStep := by
  unfold addStates
  apply foldl_keeps NFA.epsStep
  intro r a
  exact epsStep_ext (addState_epsStep r)

theorem addStates_symStep (src : List NFAState) (R : NFA) :
    (addStates src R).symStep = R.symStep := by
  unfold addStates
  apply foldl_keeps NFA.symStep
  intro r a
  exact symStep_ext (addState_symStep r)

theorem addStates_keysSorted (src : List NFAState) (R : NFA) (h : R.KeysSorted) :
    (addStates src R).KeysSorted := by
  unfold addStates
  apply foldl_invariant NFA.KeysSorted _ _ _ _ h
  intro r a hr
  exact addState_keysSorted r hr

/-! ### `copyTransitions` -/

theorem copyTransitions_length (s off : Nat) (T : List (Char × List Nat)) (R : NFA) :
    (copyTransitions s off T R).states.length = R.states.length := by
  unfold copyTransitions
  apply foldl_keeps (fun r => r.states.length)
  intro r tr
  apply foldl_keeps (fun r => r.states.length)
  intro r d
  exact addTransition_length r s tr.1 _

theorem copyTransitions_startState (s off : Nat) (T : List (Char × List Nat)) (R : NFA) :
    (copyTransitions s off T R).startState = R.startState := by
  unfold copyTransitions
  apply foldl_keeps NFA.startState
  intro r tr
  apply foldl_keeps NFA.startState
  intro r d
  rfl

theorem copyTransitions_acceptStates (s off : Nat) (T : List (Char × List Nat)) (R : NFA) :
    (copyTransitions s off T R).acceptStates = R.acceptStates := by
  unfold copyTransitions
  apply foldl_keeps NFA.acceptStates
  intro r tr
  apply foldl_keeps NFA.acceptStates
  intro r d
  rfl

theorem copyTransitions_epsStep (s off : Nat) (T : List (Char × List Nat)) (R : NFA) :
    (copyTransitions s off T R).epsStep = R.epsStep := by
  unfold copyTransitions
  apply foldl_keeps NFA.epsStep
  intro r tr
  apply foldl_keeps NFA.epsStep
  intro r d
  exact epsStep_ext (addTransition_epsStep r s tr.1 _)

theorem copyTransitions_keysSorted (s off : Nat) (T : List (Char × List Nat)) (R : NFA)
    (h : R.KeysSorted) : (copyTransitions s off T R).KeysSorted := by
  unfold copyTransitions
  apply foldl_invariant NFA.KeysSorted _ _ _ _ h
  intro r tr hr
  apply foldl_invariant NFA.KeysSorted _ _ _ _ hr
  intro r d hr
  exact addTransition_keysSorted r s tr.1 _ hr

theorem copyTargets_symStep (s off : Nat) (c0 : Char) (D : List Nat) (R : NFA)
    (c : Char) (p q : Nat) :
    (D.foldl (fun r dst => r.addTransition s c0 (dst + off)) R).symStep c p q ↔
      R.symStep c p q ∨ (p = s ∧ s < R.states.length ∧ c = c0 ∧ ∃ d ∈ D, q = d + off) := by
  induction D generalizing R with
  | nil => simp
  | cons d D ih =>
    rw [List.foldl_cons, ih, addTransition_symStep, addTransition_length]
    simp only [List.mem_cons, exists_eq_or_imp]
    tauto

theorem copyTargets_alphabet (s off : Nat) (c0 : Char) (D : List Nat) (R : NFA) (x : Char) :
    x ∈ (D.foldl (fun r dst => r.addTransition s c0 (dst + off)) R).alphabet ↔
      x ∈ R.alphabet ∨ (x = c0 ∧ c0 ≠ Char.ofNat 0 ∧ D ≠ []) := by
  induction D generalizing R with
  | nil => simp
  | cons d D ih =>
    rw [List.foldl_cons, ih, addTransition_alphabet]
    simp only [ne_eq, List.cons_ne_nil, not_false_eq_true, and_true]
    tauto

theorem copyTransitions_symStep (s off : Nat) (T : List (Char × List Nat)) (R : NFA)
    (c : Char) (p q : Nat) :
    (copyTransitions s off T R).symStep c p q ↔
      R.symStep c p q ∨
        (p = s ∧ s < R.states.length ∧ ∃ tr ∈ T, tr.1 = c ∧ ∃ d ∈ tr.2, q = d + off) := by
  unfold copyTransitions
  induction T generalizing R with
  | nil => simp
  | cons tr T ih =>
    rw [List.foldl_cons, ih, copyTargets_symStep]
    have hlen : (tr.2.foldl (fun r dst => r.addTransition s tr.1 (dst + off)) R).states.length =
        R.states.length := by
      apply foldl_keeps (fun r => r.states.length)
      intro r d
      exact addTransition_length r s tr.1 _
    rw [hlen]
    simp only [List.mem_cons, exists_eq_or_imp]
    constructor
    · rintro ((h | ⟨h1, h2, h3, h4⟩) | ⟨h1, h2, h3⟩)
      · exact Or.inl h
      · exact Or.inr ⟨h1, h2, Or.inl ⟨h3.symm, h4⟩⟩
      · exact Or.inr ⟨h1, h2, Or.inr h3⟩
    · rintro (h | ⟨h1, h2, ⟨h3, h4⟩ | h3⟩)
      · exact Or.inl (Or.inl h)
      · exact Or.inl (Or.inr ⟨h1, h2, h3.symm, h4⟩)
      · exact Or.inr ⟨h1, h2, h3⟩

theorem copyTransitions_alphabet (s off : Nat) (T : List (Char × List Nat)) (R : NFA)
    (x : Char) :
    x ∈ (copyTransitions s off T R).alphabet ↔
      x ∈ R.alphabet ∨ (x ≠ Char.ofNat 0 ∧ ∃ tr ∈ T, tr.1 = x ∧ tr.2 ≠ []) := by
  unfold copyTransitions
  induction T generalizing R with
  | nil => simp
  | cons tr T ih =>
    rw [List.foldl_cons, ih, copyTargets_alphabet]
    simp only [List.mem_cons, exists_eq_or_imp]
    constructor
    · rintro ((h | ⟨h1, h2, h3⟩) | ⟨h1, h2⟩)
      · exact Or.inl h
      · exact Or.inr ⟨h1 ▸ h2, Or.inl ⟨h1.symm, h3⟩⟩
      · exact Or.inr ⟨h1, Or.inr h2⟩
    · rintro (h | ⟨h1, ⟨h2, h3⟩ | h2⟩)
      · exact Or.inl (Or.inl h)
      · exact Or.inl (Or.inr ⟨h2.symm, h2 ▸ h1, h3⟩)
      · exact Or.inr ⟨h1, h2⟩

/-! ### `copyEpsilons` -/

theorem copyEpsilons_length (s off : Nat) (L : List Nat) (R : NFA) :
    (copyEpsilons s off L R).states.length = R.states.length := by
  unfold copyEpsilons
  apply foldl_keeps (fun r => r.states.length)
  intro r e
  exact addEpsilonTransition_length r s _

theorem copyEpsilons_startState (s off : Nat) (L : List Nat) (R : NFA) :
    (copyEpsilons s off L R).startState = R.startState := by
  unfold copyEpsilons
  apply foldl_keeps NFA.startState
  intro r a
  rfl

theorem copyEpsilons_acceptStates (s off : Nat) (L : List Nat) (R : NFA) :
    (copyEpsilons s off L R).acceptStates = R.acceptStates := by
  unfold copyEpsilons
  apply foldl_keeps NFA.acceptStates
  intro r a
  rfl

theorem copyEpsilons_alphabet (s off : Nat) (L : List Nat) (R : NFA) :
    (copyEpsilons s off L R).alphabet = R.alphabet := by
  unfold copyEpsilons
  apply foldl_keeps NFA.alphabet
  intro r a
  rfl

theorem copyEpsilons_symStep (s off : Nat) (L : List Nat) (R : NFA) :
    (copyEpsilons s off L R).symStep = R.symStep := by
  unfold copyEpsilons
  apply foldl_keeps NFA.symStep
  intro r e
  exact symStep_ext (addEpsilonTransition_symStep r s _)

theorem copyEpsilons_keysSorted (s off : Nat) (L : List Nat) (R : NFA) (h : R.KeysSorted) :
    (copyEpsilons s off L R).KeysSorted := by
  unfold copyEpsilons
  apply foldl_invariant NFA.KeysSorted _ _ _ _ h
  intro r e hr
  exact addEpsilonTransition_keysSorted r s _ hr

theorem copyEpsilons_epsStep (s off : Nat) (L : List Nat) (R : NFA) (p q : Nat) :
    (copyEpsilons s off L R).epsStep p q ↔
      R.epsStep p q ∨ (p = s ∧ s < R.states.length ∧ ∃ e ∈ L, q = e + off) := by
  unfold copyEpsilons
  induction L generalizing R with
  | nil => simp
  | cons e L ih =>
    rw [List.foldl_cons, ih, addEpsilonTransition_epsStep, addEpsilonTransition_length]
    simp only [List.mem_cons, exists_eq_or_imp]
    tauto

/-! ### `copyEdges` -/

theorem copyEdges_length (off : Nat) (src : List NFAState) (i : Nat) (R : NFA) :
    (copyEdges off i src R).states.length = R.states.length := by
  induction src generalizing i R with
  | nil => rfl
  | cons st src ih =>
    simp only [copyEdges]
    rw [ih, copyEpsilons_length, copyTransitions_length]

theorem copyEdges_startState (off : Nat) (src : List NFAState) (i : Nat) (R : NFA) :
    (copyEdges off i src R).startState = R.startState := by
  induction src generalizing i R with
  | nil => rfl
  | cons st src ih =>
    simp only [copyEdges]
    rw [ih, copyEpsilons_startState, copyTransitions_startState]

theorem copyEdges_acceptStates (off : Nat) (src : List NFAState) (i : Nat) (R : NFA) :
    (copyEdges off i src R).acceptStates = R.acceptStates := by
  induction src generalizing i R with
  | nil => rfl
  | cons st src ih =>
    simp only [copyEdges]
    rw [ih, copyEpsilons_acceptStates, copyTransitions_acceptStates]

theorem copyEdges_keysSorted (off : Nat) (src : List NFAState) (i : Nat) (R : NFA)
    (h : R.KeysSorted) : (copyEdges off i src R).KeysSorted := by
  induction src generalizing i R with
  | nil => exact h
  | cons st src ih =>
    simp only [copyEdges]
    exact ih _ _ (copyEpsilons_keysSorted _ _ _ _ (copyTransitions_keysSorted _ _ _ _ h))

theorem copyEdges_symStep (off : Nat) (src : List NFAState) (i : Nat) (R : NFA)
    (c : Char) (p q : Nat) :
    (copyEdges off i src R).symStep c p q ↔
      R.symStep c p q ∨ ∃ k st, src[k]? = some st ∧ p = i + k + off ∧ p < R.states.length ∧
        ∃ tr ∈ st.transitions, tr.1 = c ∧ ∃ d ∈ tr.2, q = d + off := by
  induction src generalizing i R with
  | nil => simp [copyEdges]
  | cons st src ih =>
    simp only [copyEdges]
    rw [ih, copyEpsilons_symStep, copyTransitions_symStep, copyEpsilons_length,
      copyTransitions_length]
    constructor
    · rintro ((h | ⟨h1, h2, h3⟩) | ⟨k, st', h1, h2, h3, h4⟩)
      · exact Or.inl h
      · exact Or.inr ⟨0, st, List.getElem?_cons_zero, by omega, by omega, h3⟩
      · exact Or.inr ⟨k + 1, st', by simpa using h1, by omega, h3, h4⟩
    · rintro (h | ⟨k, st', h1, h2, h3, h4⟩)
      · exact Or.inl (Or.inl h)
      · cases k with
        | zero =>
          simp only [List.getElem?_cons_zero, Option.some.injEq] at h1
          subst h1
          exact Or.inl (Or.inr ⟨by omega, by omega, h4⟩)
        | succ k =>
          simp only [List.getElem?_cons_succ] at h1
          exact Or.inr ⟨k, st', h1, by omega, h3, h4⟩

theorem copyEdges_epsStep (off : Nat) (src : List NFAState) (i : Nat) (R : NFA)
    (p q : Nat) :
    (copyEdges off i src R).epsStep p q ↔
      R.epsStep p q ∨ ∃ k st, src[k]? = some st ∧ p = i + k + off ∧ p < R.states.length ∧
        ∃ e ∈ st.epsilonTransitions, q = e + off := by
  induction src generalizing i R with
  | nil => simp [copyEdges]
  | cons st src ih =>
    simp only [copyEdges]
    rw [ih, copyEpsilons_epsStep, copyTransitions_epsStep, copyEpsilons_length,
      copyTransitions_length]
    constructor
    · rintro ((h | ⟨h1, h2, h3⟩) | ⟨k, st', h1, h2, h3, h4⟩)
      · exact Or.inl h
      · exact Or.inr ⟨0, st, List.getElem?_cons_zero, by omega, by omega, h3⟩
      · exact Or.inr ⟨k + 1, st', by simpa using h1, by omega, h3, h4⟩
    · rintro (h | ⟨k, st', h1, h2, h3, h4⟩)
      · exact Or.inl (Or.inl h)
      · cases k with
        | zero =>
          simp only [List.getElem?_cons_zero, Option.some.injEq] at h1
          subst h1
          exact Or.inl (Or.inr ⟨by omega, by omega, h4⟩)
        | succ k =>
          simp only [List.getElem?_cons_succ] at h1
          exact Or.inr ⟨k, st', h1, by omega, h3, h4⟩

theorem copyEdges_alphabet (off : Nat) (src : List NFAState) (i : Nat) (R : NFA) (x : Char) :
    x ∈ (copyEdges off i src R).alphabet ↔
      x ∈ R.alphabet ∨
        (x ≠ Char.ofNat 0 ∧ ∃ st ∈ src, ∃ tr ∈ st.transitions, tr.1 = x ∧ tr.2 ≠ []) := by
  induction src generalizing i R with
  | nil => simp [copyEdges]
  | cons st src ih =>
    simp only [copyEdges]
    rw [ih, copyEpsilons_alphabet, copyTransitions_alphabet]
    simp only [List.mem_cons, exists_eq_or_imp]
    constructor
    · rintro ((h | ⟨h1, h2⟩) | ⟨h1, h2⟩)
      · exact Or.inl h
      · exact Or.inr ⟨h1, Or.inl h2⟩
      · exact Or.inr ⟨h1, Or.inr h2⟩
    · rintro (h | ⟨h1, h2 | h2⟩)
      · exact Or.inl (Or.inl h)
      · exact Or.inl (Or.inr ⟨h1, h2⟩)
      · exact Or.inr ⟨h1, h2⟩

/-! ### Edges read through the vector of states -/

theorem stateAt_of_getElem? {nfa : NFA} {k : Nat} {st : NFAState}
    (h : nfa.states[k]? = some st) : nfa.stateAt k = st := by
  unfold NFA.stateAt
  rw [List.getD_eq_getElem?_getD, h]
  rfl

theorem stateAt_of_le {nfa : NFA} {k : Nat} (h : nfa.states.length ≤ k) :
    nfa.stateAt k = NFAState.new k := by
  unfold NFA.stateAt
  rw [List.getD_eq_getElem?_getD, List.getElem?_eq_none h]
  rfl

theorem symStep_lt {nfa : NFA} {c : Char} {p q : Nat} (h : nfa.symStep c p q) :
    p < nfa.states.length := by
  by_contra hp
  obtain ⟨dsts, h1, _⟩ := h
  rw [stateAt_of_le (by omega)] at h1
  simp [NFAState.new, mapFind] at h1

theorem epsStep_lt {nfa : NFA} {p q : Nat} (h : nfa.epsStep p q) :
    p < nfa.states.length := by
  by_contra hp
  unfold NFA.epsStep at h
  rw [stateAt_of_le (by omega)] at h
  simp [NFAState.new] at h

theorem stateAt_mem {nfa : NFA} {p : Nat} (h : p < nfa.states.length) :
    nfa.stateAt p ∈ nfa.states ∧ nfa.states[p]? = some (nfa.stateAt p) := by
  have h1 : nfa.states[p]? = some nfa.states[p] := List.getElem?_eq_getElem h
  rw [stateAt_of_getElem? h1]
  exact ⟨List.getElem_mem _, h1⟩

/-- The labeled edges that the copy of the automaton `B` adds. -/
theorem copyEdges_symStep_of (off : Nat) (B R : NFA) (hB : B.KeysSorted)
    (c : Char) (p q : Nat) :
    (copyEdges off 0 B.states R).symStep c p q ↔
      R.symStep c p q ∨ ∃ p' q', p = p' + off ∧ q = q' + off ∧ p < R.states.length ∧
        B.symStep c p' q' := by
  rw [copyEdges_symStep]
  constructor
  · rintro (h | ⟨k, st, h1, h2, h3, tr, h4, h5, d, h6, h7⟩)
    · exact Or.inl h
    · refine Or.inr ⟨k, d, by omega, h7, h3, tr.2, ?_, h6⟩
      rw [stateAt_of_getElem? h1, ← h5]
      exact mapFind_of_mem (hB st (mem_of_getElem? h1)).nodup h4
  · rintro (h | ⟨p', q', h1, h2, h3, dsts, h4, h5⟩)
    · exact Or.inl h
    · have hp' : p' < B.states.length := symStep_lt ⟨dsts, h4, h5⟩
      exact Or.inr ⟨p', B.stateAt p', (stateAt_mem hp').2, by omega, h3, (c, dsts),
        mem_of_mapFind h4, rfl, q', h5, h2⟩

/-- The epsilon edges that the copy of the automaton `B` adds. -/
theorem copyEdges_epsStep_of (off : Nat) (B R : NFA) (p q : Nat) :
    (copyEdges off 0 B.states R).epsStep p q ↔
      R.epsStep p q ∨ ∃ p' q', p = p' + off ∧ q = q' + off ∧ p < R.states.length ∧
        B.epsStep p' q' := by
  rw [copyEdges_epsStep]
  constructor
  · rintro (h | ⟨k, st, h1, h2, h3, e, h4, h5⟩)
    · exact Or.inl h
    · refine Or.inr ⟨k, e, by omega, h5, h3, ?_⟩
      unfold NFA.epsStep
      rw [stateAt_of_getElem? h1]
      exact h4
  · rintro (h | ⟨p', q', h1, h2, h3, h4⟩)
    · exact Or.inl h
    · have hp' : p' < B.states.length := epsStep_lt h4
      exact Or.inr ⟨p', B.stateAt p', (stateAt_mem hp').2, by omega, h3, q', h4, h2⟩

/-- The symbols that the copy of the automaton `B` adds to the alphabet. -/
theorem copyEdges_alphabet_of (off : Nat) (B R : NFA) (hB : B.KeysSorted) (x : Char) :
    x ∈ (copyEdges off 0 B.states R).alphabet ↔
      x ∈ R.alphabet ∨ (x ≠ Char.ofNat 0 ∧ ∃ p q, B.symStep x p q) := by
  rw [copyEdges_alphabet]
  constructor
  · rintro (h | ⟨h0, st, h1, tr, h2, h3, h4⟩)
    · exact Or.inl h
    · obtain ⟨k, hk⟩ := List.mem_iff_getElem?.1 h1
      obtain ⟨d, hd⟩ := List.exists_mem_of_ne_nil _ h4
      refine Or.inr ⟨h0, k, d, tr.2, ?_, hd⟩
      rw [stateAt_of_getElem? hk, ← h3]
      exact mapFind_of_mem (hB st h1).nodup h2
  · rintro (h | ⟨h0, p, q, dsts, h1, h2⟩)
    · exact Or.inl h
    · have hp : p < B.states.length := symStep_lt ⟨dsts, h1, h2⟩
      exact Or.inr ⟨h0, B.stateAt p, (stateAt_mem hp).1, (x, dsts), mem_of_mapFind h1, rfl,
        List.ne_nil_of_mem h2⟩

/-! ### `linkAccepting` -/

theorem linkAccepting_length (L : List Nat) (t : Nat) (R : NFA) :
    (linkAccepting L t R).states.length = R.states.length := by
  unfold linkAccepting
  apply foldl_keeps (fun r => r.states.length)
  intro r a
  show ((r.clearFlag a).addEpsilonTransition a t).states.length = r.states.length
  rw [addEpsilonTransition_length, clearFlag_length]

theorem linkAccepting_startState (L : List Nat) (t : Nat) (R : NFA) :
    (linkAccepting L t R).startState = R.startState := by
  unfold linkAccepting
  apply foldl_keeps NFA.startState
  intro r a
  rfl

theorem linkAccepting_alphabet (L : List Nat) (t : Nat) (R : NFA) :
    (linkAccepting L t R).alphabet = R.alphabet := by
  unfold linkAccepting
  apply foldl_keeps NFA.alphabet
  intro r a
  rfl

theorem linkAccepting_symStep (L : List Nat) (t : Nat) (R : NFA) :
    (linkAccepting L t R).symStep = R.symStep := by
  unfold linkAccepting
  apply foldl_keeps NFA.symStep
  intro r a
  apply symStep_ext
  intro c p q
  rw [addEpsilonTransition_symStep, clearFlag_symStep]

theorem linkAccepting_keysSorted (L : List Nat) (t : Nat) (R : NFA) (h : R.KeysSorted) :
    (linkAccepting L t R).KeysSorted := by
  unfold linkAccepting
  apply foldl_invariant NFA.KeysSorted _ _ _ _ h
  intro r a hr
  exact addEpsilonTransition_keysSorted _ _ _ (clearFlag_keysSorted _ _ hr)

theorem linkAccepting_epsStep (L : List Nat) (t : Nat) (R : NFA) (p q : Nat) :
    (linkAccepting L t R).epsStep p q ↔
      R.epsStep p q ∨ (p ∈ L ∧ q = t ∧ p < R.states.length) := by
  unfold linkAccepting
  induction L generalizing R with
  | nil => simp
  | cons a L ih =>
    rw [List.foldl_cons, ih, addEpsilonTransition_epsStep, clearFlag_epsStep,
      addEpsilonTransition_length, clearFlag_length]
    simp only [List.mem_cons]
    constructor
    · rintro ((h | ⟨h1, h2, h3⟩) | ⟨h1, h2, h3⟩)
      · exact Or.inl h
      · exact Or.inr ⟨Or.inl h1, h2, h1 ▸ h3⟩
      · exact Or.inr ⟨Or.inr h1, h2, h3⟩
    · rintro (h | ⟨h1 | h1, h2, h3⟩)
      · exact Or.inl (Or.inl h)
      · exact Or.inl (Or.inr ⟨h1, h2, h1 ▸ h3⟩)
      · exact Or.inr ⟨h1, h2, h3⟩

/-! ### `markAccepts` -/

theorem markAccepts_length (L : List Nat) (off : Nat) (R : NFA) :
    (markAccepts L off R).states.length = R.states.length := by
  unfold markAccepts
  apply foldl_keeps (fun r => r.states.length)
  intro r a
  exact setAccepting_length r _

theorem markAccepts_startState (L : List Nat) (off : Nat) (R : NFA) :
    (markAccepts L off R).startState = R.startState := by
  unfold markAccepts
  apply foldl_keeps NFA.startState
  intro r a
  rfl

theorem markAccepts_alphabet (L : List Nat) (off : Nat) (R : NFA) :
    (markAccepts L off R).alphabet = R.alphabet := by
  unfold markAccepts
  apply foldl_keeps NFA.alphabet
  intro r a
  rfl

theorem markAccepts_symStep (L : List Nat) (off : Nat) (R : NFA) :
    (markAccepts L off R).symStep = R.symStep := by
  unfold markAccepts
  apply foldl_keeps NFA.symStep
  intro r a
  exact symStep_ext (setAccepting_symStep r _)

theorem markAccepts_epsStep (L : List Nat) (off : Nat) (R : NFA) :
    (markAccepts L off R).epsStep = R.epsStep := by
  unfold markAccepts
  apply foldl_keeps NFA.epsStep
  intro r a
  exact epsStep_ext (setAccepting_epsStep r _)

theorem markAccepts_keysSorted (L : List Nat) (off : Nat) (R : NFA) (h : R.KeysSorted) :
    (markAccepts L off R).KeysSorted := by
  unfold markAccepts
  apply foldl_invariant NFA.KeysSorted _ _ _ _ h
  intro r a hr
  exact setAccepting_keysSorted _ _ hr

theorem markAccepts_acceptStates (L : List Nat) (off : Nat) (R : NFA) (x : Nat) :
    x ∈ (markAccepts L off R).acceptStates ↔
      x ∈ R.acceptStates ∨ ∃ a ∈ L, x = a + off := by
  unfold markAccepts
  induction L generalizing R with
  | nil => simp
  | cons a L ih =>
    rw [List.foldl_cons, ih]
    simp only [NFA.setAccepting, mem_setInsert, List.mem_cons, exists_eq_or_imp]
    tauto

/-! ### `concatenate` -/

theorem concatenate_length (A B : NFA) :
    (concatenate A B).states.length = A.states.length + B.states.length := by
  unfold concatenate
  simp only [markAccepts_length, linkAccepting_length, copyEdges_length, addStates_length]

theorem concatenate_startState (A B : NFA) :
    (concatenate A B).startState = A.startState := by
  unfold concatenate
  simp only [markAccepts_startState, linkAccepting_startState, copyEdges_startState,
    addStates_startState]

theorem concatenate_acceptStates (A B : NFA) (x : Nat) :
    x ∈ (concatenate A B).acceptStates ↔ ∃ y ∈ B.acceptStates, x = y + A.states.length := by
  unfold concatenate
  simp only [markAccepts_acceptStates, List.not_mem_nil, false_or]

theorem concatenate_keysSorted (A B : NFA) (hA : A.KeysSorted) :
    (concatenate A B).KeysSorted := by
  unfold concatenate
  apply markAccepts_keysSorted
  have h := linkAccepting_keysSorted A.acceptStates (B.startState + A.states.length) _
    (copyEdges_keysSorted A.states.length B.states 0 _ (addStates_keysSorted B.states A hA))
  exact h

theorem concatenate_symStep (A B : NFA) (hB : B.KeysSorted) (c : Char) (p q : Nat) :
    (concatenate A B).symStep c p q ↔
      A.symStep c p q ∨
        ∃ p' q', p = p' + A.states.length ∧ q = q' + A.states.length ∧ B.symStep c p' q' := by
  unfold concatenate
  simp only [markAccepts_symStep]
  have h1 : NFA.symStep { linkAccepting A.acceptStates (B.startState + A.states.length)
        (copyEdges A.states.length 0 B.states (addStates B.states A)) with acceptStates := [] } =
      NFA.symStep (linkAccepting A.acceptStates (B.startState + A.states.length)
        (copyEdges A.states.length 0 B.states (addStates B.states A))) := rfl
  rw [h1, linkAccepting_symStep, copyEdges_symStep_of _ _ _ hB, addStates_symStep,
    addStates_length]
  constructor
  · rintro (h | ⟨p', q', h2, h3, _, h5⟩)
    · exact Or.inl h
    · exact Or.inr ⟨p', q', h2, h3, h5⟩
  · rintro (h | ⟨p', q', h2, h3, h5⟩)
    · exact Or.inl h
    · have := symStep_lt h5
      exact Or.inr ⟨p', q', h2, h3, by omega, h5⟩

theorem concatenate_epsStep (A B : NFA) (p q : Nat) :
    (concatenate A B).epsStep p q ↔
      A.epsStep p q ∨
        (∃ p' q', p = p' + A.states.length ∧ q = q' + A.states.length ∧ B.epsStep p' q') ∨
        (p ∈ A.acceptStates ∧ q = B.startState + A.states.length ∧
          p < A.states.length + B.states.length) := by
  unfold concatenate
  simp only [markAccepts_epsStep]
  have h1 : NFA.epsStep { linkAccepting A.acceptStates (B.startState + A.states.length)
        (copyEdges A.states.length 0 B.states (addStates B.states A)) with acceptStates := [] } =
      NFA.epsStep (linkAccepting A.acceptStates (B.startState + A.states.length)
        (copyEdges A.states.length 0 B.states (addStates B.states A))) := rfl
  rw [h1, linkAccepting_epsStep, copyEdges_epsStep_of, addStates_epsStep, copyEdges_length,
    addStates_length]
  constructor
  · rintro ((h | ⟨p', q', h2, h3, _, h5⟩) | h)
    · exact Or.inl h
    · exact Or.inr (Or.inl ⟨p', q', h2, h3, h5⟩)
    · exact Or.inr (Or.inr h)
  · rintro (h | ⟨p', q', h2, h3, h5⟩ | h)
    · exact Or.inl (Or.inl h)
    · have := epsStep_lt h5
      exact Or.inl (Or.inr ⟨p', q', h2, h3, by omega, h5⟩)
    · exact Or.inr h

theorem concatenate_alphabet (A B : NFA) (hB : B.KeysSorted) (x : Char) :
    x ∈ (concatenate A B).alphabet ↔
      x ∈ A.alphabet ∨ (x ≠ Char.ofNat 0 ∧ ∃ p q, B.symStep x p q) := by
  unfold concatenate
  simp only [markAccepts_alphabet]
  have h1 : NFA.alphabet { linkAccepting A.acceptStates (B.startState + A.states.length)
        (copyEdges A.states.length 0 B.states (addStates B.states A)) with acceptStates := [] } =
      NFA.alphabet (linkAccepting A.acceptStates (B.startState + A.states.length)
        (copyEdges A.states.length 0 B.states (addStates B.states A))) := rfl
  rw [h1, linkAccepting_alphabet, copyEdges_alphabet_of _ _ _ hB, addStates_alphabet]

/-! ### `concatenate`: validity of the identities, alphabet, language -/

theorem concatenate_closed (A B : NFA) (hA : A.Closed) (hB : B.Closed) (hBk : B.KeysSorted) :
    (concatenate A B).Closed where
  start := by
    rw [concatenate_startState, concatenate_length]
    have := hA.start
    omega
  accept := by
    intro q hq
    obtain ⟨y, hy, rfl⟩ := (concatenate_acceptStates A B q).1 hq
    rw [concatenate_length]
    have := hB.accept y hy
    omega
  sym := by
    intro c p q h
    rw [concatenate_length]
    rcases (concatenate_symStep A B hBk c p q).1 h with h1 | ⟨p', q', _, rfl, h2⟩
    · have := hA.sym c p q h1
      omega
    · have := hB.sym c p' q' h2
      omega
  eps := by
    intro p q h
    rw [concatenate_length]
    rcases (concatenate_epsStep A B p q).1 h with h1 | ⟨p', q', _, rfl, h2⟩ | ⟨_, rfl, _⟩
    · have := hA.eps p q h1
      omega
    · have := hB.eps p' q' h2
      omega
    · have := hB.start
      omega

theorem concatenate_alphabetCovers (A B : NFA) (hA : A.AlphabetCovers)
    (hB : B.AlphabetCovers) (hBk : B.KeysSorted) : (concatenate A B).AlphabetCovers where
  labels := by
    intro c p q h
    rw [concatenate_alphabet A B hBk]
    rcases (concatenate_symStep A B hBk c p q).1 h with h | ⟨p', q', _, _, h⟩
    · exact Or.inl (hA.labels c p q h)
    · refine Or.inr ⟨?_, p', q', h⟩
      intro h0
      exact hB.nonzero (h0 ▸ hB.labels c p' q' h)
  nonzero := by
    rw [concatenate_alphabet A B hBk]
    rintro (h | ⟨h, _⟩)
    · exact hA.nonzero h
    · exact h rfl

theorem Path.mono {a b : NFA} (hs : ∀ c p q, a.symStep c p q → b.symStep c p q)
    (he : ∀ p q, a.epsStep p q → b.epsStep p q) {p q : Nat} {w : List Char}
    (h : a.Path p w q) : b.Path p w q := by
  induction h with
  | nil p => exact NFA.Path.nil p
  | eps hstep _ ih => exact NFA.Path.eps (he _ _ hstep) ih
  | sym hstep _ ih => exact NFA.Path.sym (hs _ _ _ hstep) ih

theorem Path.shift {a b : NFA} (off : Nat)
    (hs : ∀ c p q, a.symStep c p q → b.symStep c (p + off) (q + off))
    (he : ∀ p q, a.epsStep p q → b.epsStep (p + off) (q + off)) {p q : Nat} {w : List Char}
    (h : a.Path p w q) : b.Path (p + off) w (q + off) := by
  induction h with
  | nil p => exact NFA.Path.nil _
  | eps hstep _ ih => exact NFA.Path.eps (he _ _ hstep) ih
  | sym hstep _ ih => exact NFA.Path.sym (hs _ _ _ hstep) ih

theorem concatenate_path_split (A B : NFA) (hA : A.Closed) (hBk : B.KeysSorted)
    {p q : Nat} {w : List Char} (h : (concatenate A B).Path p w q)
    (hq : A.states.length ≤ q) :
    (p < A.states.length → ∃ u v a, w = u ++ v ∧ A.Path p u a ∧ a ∈ A.acceptStates ∧
        B.Path B.startState v (q - A.states.length)) ∧
      (A.states.length ≤ p → B.Path (p - A.states.length) w (q - A.states.length)) := by
  induction h with
  | nil p =>
    refine ⟨fun hp => ?_, fun _ => NFA.Path.nil _⟩
    omega
  | @eps p p2 r w hstep _ ih =>
    obtain ⟨ih1, ih2⟩ := ih hq
    rcases (concatenate_epsStep A B p p2).1 hstep with h | ⟨p', q', rfl, rfl, h⟩ | ⟨h1, rfl, _⟩
    · have hp := epsStep_lt h
      have hp2 := hA.eps p p2 h
      refine ⟨fun _ => ?_, fun hge => ?_⟩
      · obtain ⟨u, v, a, rfl, hu, ha, hv⟩ := ih1 hp2
        exact ⟨u, v, a, rfl, NFA.Path.eps h hu, ha, hv⟩
      · omega
    · refine ⟨fun hlt => ?_, fun _ => ?_⟩
      · omega
      · have := ih2 (by omega)
        simp only [Nat.add_sub_cancel] at this ⊢
        exact NFA.Path.eps h this
    · have hp := hA.accept p h1
      refine ⟨fun _ => ?_, fun hge => ?_⟩
      · have := ih2 (by omega)
        simp only [Nat.add_sub_cancel] at this
        exact ⟨[], w, p, rfl, NFA.Path.nil p, h1, this⟩
      · omega
  | @sym p p2 r c w hstep _ ih =>
    obtain ⟨ih1, ih2⟩ := ih hq
    rcases (concatenate_symStep A B hBk c p p2).1 hstep with h | ⟨p', q', rfl, rfl, h⟩
    · have hp := symStep_lt h
      have hp2 := hA.sym c p p2 h
      refine ⟨fun _ => ?_, fun hge => ?_⟩
      · obtain ⟨u, v, a, rfl, hu, ha, hv⟩ := ih1 hp2
        exact ⟨c :: u, v, a, rfl, NFA.Path.sym h hu, ha, hv⟩
      · omega
    · refine ⟨fun hlt => ?_, fun _ => ?_⟩
      · omega
      · have := ih2 (by omega)
        simp only [Nat.add_sub_cancel] at this ⊢
        exact NFA.Path.sym h this

/-- `concatenate` accepts the concatenation of the two languages. -/
theorem concatenate_accepts (A B : NFA) (hA : A.Closed) (hBk : B.KeysSorted)
    (w : List Char) :
    (concatenate A B).accepts w ↔ ∃ u v, w = u ++ v ∧ A.accepts u ∧ B.accepts v := by
  constructor
  · rintro ⟨x, hx, hpath⟩
    obtain ⟨y, hy, rfl⟩ := (concatenate_acceptStates A B x).1 hx
    rw [concatenate_startState] at hpath
    obtain ⟨u, v, a, rfl, hu, ha, hv⟩ :=
      (concatenate_path_split A B hA hBk hpath (by omega)).1 hA.start
    simp only [Nat.add_sub_cancel] at hv
    exact ⟨u, v, rfl, ⟨a, ha, hu⟩, ⟨y, hy, hv⟩⟩
  · rintro ⟨u, v, rfl, ⟨a, ha, hu⟩, ⟨y, hy, hv⟩⟩
    refine ⟨y + A.states.length, (concatenate_acceptStates A B _).2 ⟨y, hy, rfl⟩, ?_⟩
    rw [concatenate_startState]
    have h1 : (concatenate A B).Path A.startState u a :=
      Path.mono (fun c p q h => (concatenate_symStep A B hBk c p q).2 (Or.inl h))
        (fun p q h => (concatenate_epsStep A B p q).2 (Or.inl h)) hu
    have h2 : (concatenate A B).Path (B.startState + A.states.length) v
        (y + A.states.length) :=
      Path.shift A.states.length
        (fun c p q h => (concatenate_symStep A B hBk c _ _).2 (Or.inr ⟨p, q, rfl, rfl, h⟩))
        (fun p q h => (concatenate_epsStep A B _ _).2 (Or.inr (Or.inl ⟨p, q, rfl, rfl, h⟩))) hv
    have h3 : (concatenate A B).epsStep a (B.startState + A.states.length) := by
      refine (concatenate_epsStep A B _ _).2 (Or.inr (Or.inr ⟨ha, rfl, ?_⟩))
      have := hA.accept a ha
      omega
    exact Path.append h1 (NFA.Path.eps h3 h2)

/-! ### `charNFA` -/

theorem charNFA_eq (c : Char) :
    charNFA c = ⟨[⟨0, [(c, [1])], [], false⟩, ⟨1, [], [], true⟩], 0, [1],
      if c ≠ Char.ofNat 0 then [c] else []⟩ := by
  rfl

theorem charNFA_symStep (c c' : Char) (p q : Nat) :
    (charNFA c).symStep c' p q ↔ c' = c ∧ p = 0 ∧ q = 1 := by
  rw [charNFA_eq]
  unfold NFA.symStep NFA.stateAt
  match p with
  | 0 =>
    by_cases h : c' = c
    · simp [mapFind, h]
    · simp [mapFind, h]
  | 1 => simp [mapFind]
  | p + 2 => simp [mapFind, NFAState.new]

theorem charNFA_epsStep (c : Char) (p q : Nat) : ¬ (charNFA c).epsStep p q := by
  rw [charNFA_eq]
  unfold NFA.epsStep NFA.stateAt
  match p with
  | 0 => simp
  | 1 => simp
  | p + 2 => simp [NFAState.new]

theorem charNFA_closed (c : Char) : (charNFA c).Closed where
  start := by rw [charNFA_eq]; simp
  accept := by rw [charNFA_eq]; simp
  sym := by
    intro c' p q h
    obtain ⟨_, _, rfl⟩ := (charNFA_symStep c c' p q).1 h
    rw [charNFA_eq]
    simp
  eps := fun p q h => absurd h (charNFA_epsStep c p q)

theorem charNFA_keysSorted (c : Char) : (charNFA c).KeysSorted := by
  rw [charNFA_eq]
  intro st hst
  simp only [List.mem_cons, List.mem_singleton, List.not_mem_nil, or_false] at hst
  rcases hst with rfl | rfl <;> simp

theorem charNFA_alphabetCovers (c : Char) (hc : c ≠ Char.ofNat 0) :
    (charNFA c).AlphabetCovers where
  labels := by
    intro c' p q h
    obtain ⟨rfl, _, _⟩ := (charNFA_symStep c c' p q).1 h
    rw [charNFA_eq]
    simp [hc]
  nonzero := by
    rw [charNFA_eq]
    simp only [hc, ne_eq, not_false_eq_true, if_true, List.mem_singleton]
    exact fun h => hc h.symm

theorem charNFA_epsReach (c : Char) {p q : Nat}
    (h : Relation.ReflTransGen (charNFA c).epsStep p q) : q = p := by
  induction h with
  | refl => rfl
  | tail _ hstep _ => exact absurd hstep (charNFA_epsStep c _ _)

/-- `charNFA c` accepts the one-symbol string `c` and nothing else. -/
theorem charNFA_accepts (c : Char) (w : List Char) : (charNFA c).accepts w ↔ w = [c] := by
  have hstart : (charNFA c).startState = 0 := by rw [charNFA_eq]
  have hacc : ∀ q, q ∈ (charNFA c).acceptStates ↔ q = 1 := by
    intro q
    rw [charNFA_eq]
    simp
  unfold NFA.accepts
  rw [hstart]
  constructor
  · rintro ⟨q, hq, hpath⟩
    rw [hacc] at hq
    subst hq
    cases w with
    | nil =>
      have := charNFA_epsReach c (Path.nil_iff.1 hpath)
      omega
    | cons a w =>
      obtain ⟨p', x, h1, h2, h3⟩ := Path.cons_iff.1 hpath
      obtain ⟨ha, _, hx⟩ := (charNFA_symStep c a p' x).1 h2
      cases w with
      | nil => rw [ha]
      | cons b w =>
        obtain ⟨p2, x2, h4, h5, _⟩ := Path.cons_iff.1 h3
        have h6 := charNFA_epsReach c h4
        obtain ⟨_, h7, _⟩ := (charNFA_symStep c b _ x2).1 h5
        omega
  · rintro rfl
    exact ⟨1, (hacc 1).2 rfl,
      NFA.Path.sym ((charNFA_symStep c c 0 1).2 ⟨rfl, rfl, rfl⟩) (NFA.Path.nil 1)⟩

/-! ### A regex of literals -/

theorem isAlphanum_ne_zero {c : Char} (h : c.isAlphanum = true) : c ≠ Char.ofNat 0 := by
  rintro rfl
  exact absurd h (by decide)

theorem scan_literals (L : List Char) (hL : ∀ c ∈ L, c.isAlphanum = true)
    (st : List NFA × List Char) :
    L.foldl scanChar st = ((L.map charNFA).reverse ++ st.1, st.2) := by
  induction L generalizing st with
  | nil => rfl
  | cons c L ih =>
    have hc : c.isAlphanum = true := hL c (List.mem_cons_self _ _)
    rw [List.foldl_cons, ih (fun x hx => hL x (List.mem_cons_of_mem _ hx))]
    simp [scanChar, hc]

theorem concatAll_literals (cs : List Char) (hcs : ∀ c ∈ cs, c.isAlphanum = true) :
    ∀ (top : NFA) (wtop : List Char), top.Closed → top.KeysSorted → top.AlphabetCovers →
      (∀ w, top.accepts w ↔ w = wtop) →
      (concatAll top (cs.map charNFA)).Closed ∧ (concatAll top (cs.map charNFA)).KeysSorted ∧
        (concatAll top (cs.map charNFA)).AlphabetCovers ∧
        ∀ w, (concatAll top (cs.map charNFA)).accepts w ↔ w = cs.reverse ++ wtop := by
  induction cs with
  | nil =>
    intro top wtop h1 h2 h3 h4
    exact ⟨h1, h2, h3, by simpa [concatAll] using h4⟩
  | cons c cs ih =>
    intro top wtop h1 h2 h3 h4
    have hc : c.isAlphanum = true := hcs c (List.mem_cons_self _ _)
    simp only [List.map_cons, concatAll]
    have hlang : ∀ w, (concatenate (charNFA c) top).accepts w ↔ w = c :: wtop := by
      intro w
      rw [concatenate_accepts _ _ (charNFA_closed c) h2]
      constructor
      · rintro ⟨u, v, rfl, hu, hv⟩
        rw [(charNFA_accepts c u).1 hu, (h4 v).1 hv]
        rfl
      · rintro rfl
        exact ⟨[c], wtop, rfl, (charNFA_accepts c _).2 rfl, (h4 _).2 rfl⟩
    have := ih (fun x hx => hcs x (List.mem_cons_of_mem _ hx)) (concatenate (charNFA c) top)
      (c :: wtop) (concatenate_closed _ _ (charNFA_closed c) h1 h2)
      (concatenate_keysSorted _ _ (charNFA_keysSorted c))
      (concatenate_alphabetCovers _ _ (charNFA_alphabetCovers c (isAlphanum_ne_zero hc)) h3 h2)
      hlang
    simpa using this

/-- On a non-empty regex of alphanumeric characters `parseRegex` returns an automaton
that accepts the regex itself and nothing else. -/
theorem parseRegex_literals (L : List Char) (hne : L ≠ [])
    (hL : ∀ c ∈ L, c.isAlphanum = true) :
    ∃ nfa, parseRegex L = some nfa ∧ nfa.Closed ∧ nfa.KeysSorted ∧ nfa.AlphabetCovers ∧
      ∀ w, nfa.accepts w ↔ w = L := by
  obtain ⟨init, last, rfl⟩ : ∃ init last, L = init ++ [last] :=
    ⟨L.dropLast, L.getLast hne, (List.dropLast_append_getLast hne).symm⟩
  have hlast : last.isAlphanum = true := hL last (by simp)
  have hinit : ∀ c ∈ init.reverse, c.isAlphanum = true :=
    fun c hc => hL c (by simp [List.mem_reverse.1 hc])
  obtain ⟨h1, h2, h3, h4⟩ := concatAll_literals init.reverse hinit (charNFA last) [last]
    (charNFA_closed last) (charNFA_keysSorted last)
    (charNFA_alphabetCovers last (isAlphanum_ne_zero hlast)) (charNFA_accepts last)
  refine ⟨concatAll (charNFA last) (init.reverse.map charNFA), ?_, h1, h2, h3, ?_⟩
  · unfold parseRegex
    rw [scan_literals _ hL]
    simp
  · simpa using h4

/-! ## Well-formed automata -/

/-- In a well-formed automaton every identity an edge, the start or the accept set
mentions is an index into `states`. -/
theorem NFA.WellFormed.closed {nfa : NFA} (h : nfa.WellFormed) : nfa.Closed where
  start := h.start
  accept := h.accept
  sym := by
    intro c p q hstep
    have hp := symStep_lt hstep
    obtain ⟨dsts, h1, h2⟩ := hstep
    exact h.transTargets _ (stateAt_mem hp).1 (c, dsts) (mem_of_mapFind h1) q h2
  eps := by
    intro p q hstep
    exact h.epsTargets _ (stateAt_mem (epsStep_lt hstep)).1 q hstep

/-- A larger budget does not change the result of the worklist loop. -/
theorem worklist_mono (nfa : NFA) :
    ∀ (fuel : Nat) (dfa : DFA) (unmarked : List (List Nat)) (d : DFA),
      worklist nfa fuel dfa unmarked = some d →
      ∀ fuel', fuel ≤ fuel' → worklist nfa fuel' dfa unmarked = some d := by
  intro fuel
  induction fuel with
  | zero =>
    intro dfa unmarked d h fuel' _
    cases unmarked with
    | nil =>
      cases fuel' with
      | zero => exact h
      | succ f => exact h
    | cons current rest => exact Option.noConfusion h
  | succ fuel ih =>
    intro dfa unmarked d h fuel' hle
    cases unmarked with
    | nil =>
      cases fuel' with
      | zero => exact h
      | succ f => exact h
    | cons current rest =>
      obtain ⟨f, rfl⟩ : ∃ f, fuel' = f + 1 := ⟨fuel' - 1, by omega⟩
      simp only [worklist] at h ⊢
      cases hloop : symbolLoop nfa current (mapIndex 0 current dfa.stateMap).1 nfa.alphabet
          ({ dfa with stateMap := (mapIndex 0 current dfa.stateMap).2 }, rest) with
      | none =>
        rw [hloop] at h
        exact Option.noConfusion h
      | some st =>
        rw [hloop] at h
        exact ih st.1 st.2 d h f (by omega)

theorem subsetConstruction_eq (nfa : NFA) (S0 : List Nat)
    (h : epsilonClosure [nfa.startState] nfa = some S0) :
    subsetConstruction nfa =
      worklist nfa (2 ^ nfa.states.length) (startDFA nfa S0) [S0] := by
  simp only [subsetConstruction, h]

/-! ### Identity and flag of a state after each mutation -/

theorem idAt_ext {a b : NFA} (h : ∀ p, (a.stateAt p).id = (b.stateAt p).id) : a.idAt = b.idAt :=
  funext h

theorem flagAt_ext {a b : NFA} (h : ∀ p, (a.stateAt p).isAccepting = (b.stateAt p).isAccepting) :
    a.flagAt = b.flagAt :=
  funext h

theorem addState_idAt (nfa : NFA) : nfa.addState.2.idAt = nfa.idAt :=
  idAt_ext fun p => by rw [stateAt_addState]

theorem addState_flagAt (nfa : NFA) : nfa.addState.2.flagAt = nfa.flagAt :=
  flagAt_ext fun p => by rw [stateAt_addState]

theorem addTransition_idAt (nfa : NFA) (s : Nat) (c : Char) (t : Nat) :
    (nfa.addTransition s c t).idAt = nfa.idAt :=
  idAt_ext fun p => by
    rw [stateAt_of_states (nfa.addTransition s c t) nfa (fun st => { st with
      transitions :=
        mapInsert c (setInsert t (mapIndex [] c st.transitions).1) st.transitions }) s rfl]
    split_ifs <;> rfl

theorem addTransition_flagAt (nfa : NFA) (s : Nat) (c : Char) (t : Nat) :
    (nfa.addTransition s c t).flagAt = nfa.flagAt :=
  flagAt_ext fun p => by
    rw [stateAt_of_states (nfa.addTransition s c t) nfa (fun st => { st with
      transitions :=
        mapInsert c (setInsert t (mapIndex [] c st.transitions).1) st.transitions }) s rfl]
    split_ifs <;> rfl

theorem addEpsilonTransition_idAt (nfa : NFA) (s t : Nat) :
    (nfa.addEpsilonTransition s t).idAt = nfa.idAt :=
  idAt_ext fun p => by
    rw [stateAt_of_states (nfa.addEpsilonTransition s t) nfa (fun st => { st with
      epsilonTransitions := setInsert t st.epsilonTransitions }) s rfl]
    split_ifs <;> rfl

theorem addEpsilonTransition_flagAt (nfa : NFA) (s t : Nat) :
    (nfa.addEpsilonTransition s t).flagAt = nfa.flagAt :=
  flagAt_ext fun p => by
    rw [stateAt_of_states (nfa.addEpsilonTransition s t) nfa (fun st => { st with
      epsilonTransitions := setInsert t st.epsilonTransitions }) s rfl]
    split_ifs <;> rfl

theorem setAccepting_idAt (nfa : NFA) (s : Nat) : (nfa.setAccepting s).idAt = nfa.idAt :=
  idAt_ext fun p => by
    rw [stateAt_of_states (nfa.setAccepting s) nfa (fun st => { st with isAccepting := true })
      s rfl]
    split_ifs <;> rfl

theorem clearFlag_idAt (nfa : NFA) (s : Nat) : (nfa.clearFlag s).idAt = nfa.idAt :=
  idAt_ext fun p => by
    rw [stateAt_of_states (nfa.clearFlag s) nfa (fun st => { st with isAccepting := false })
      s rfl]
    split_ifs <;> rfl

theorem setAccepting_flagAt (nfa : NFA) (s p : Nat) :
    (nfa.setAccepting s).flagAt p =
      if p = s ∧ s < nfa.states.length then true else nfa.flagAt p := by
  unfold NFA.flagAt
  rw [stateAt_of_states (nfa.setAccepting s) nfa (fun st => { st with isAccepting := true })
    s rfl]
  split_ifs <;> rfl

theorem clearFlag_flagAt (nfa : NFA) (s p : Nat) :
    (nfa.clearFlag s).flagAt p =
      if p = s ∧ s < nfa.states.length then false else nfa.flagAt p := by
  unfold NFA.flagAt
  rw [stateAt_of_states (nfa.clearFlag s) nfa (fun st => { st with isAccepting := false })
    s rfl]
  split_ifs <;> rfl

theorem idAt_of_le {nfa : NFA} {p : Nat} (h : nfa.states.length ≤ p) : nfa.idAt p = p := by
  unfold NFA.idAt
  rw [stateAt_of_le h]
  rfl

theorem flagAt_of_le {nfa : NFA} {p : Nat} (h : nfa.states.length ≤ p) :
    nfa.flagAt p = false := by
  unfold NFA.flagAt
  rw [stateAt_of_le h]
  rfl

/-! ### Identity and flag of a state after the loops of the builder -/

theorem addStates_idAt (src : List NFAState) (R : NFA) :
    (addStates src R).idAt = R.idAt := by
  unfold addStates
  apply foldl_keeps NFA.idAt
  intro r a
  exact addState_idAt r

theorem addStates_flagAt (src : List NFAState) (R : NFA) :
    (addStates src R).flagAt = R.flagAt := by
  unfold addStates
  apply foldl_keeps NFA.flagAt
  intro r a
  exact addState_flagAt r

theorem copyTransitions_idAt (s off : Nat) (T : List (Char × List Nat)) (R : NFA) :
    (copyTransitions s off T R).idAt = R.idAt := by
  unfold copyTransitions
  apply foldl_keeps NFA.idAt
  intro r tr
  apply foldl_keeps NFA.idAt
  intro r d
  exact addTransition_idAt r s tr.1 _

theorem copyTransitions_flagAt (s off : Nat) (T : List (Char × List Nat)) (R : NFA) :
    (copyTransitions s off T R).flagAt = R.flagAt := by
  unfold copyTransitions
  apply foldl_keeps NFA.flagAt
  intro r tr
  apply foldl_keeps NFA.flagAt
  intro r d
  exact addTransition_flagAt r s tr.1 _

theorem copyEpsilons_idAt (s off : Nat) (L : List Nat) (R : NFA) :
    (copyEpsilons s off L R).idAt = R.idAt := by
  unfold copyEpsilons
  apply foldl_keeps NFA.idAt
  intro r a
  exact addEpsilonTransition_idAt r s _

theorem copyEpsilons_flagAt (s off : Nat) (L : List Nat) (R : NFA) :
    (copyEpsilons s off L R).flagAt = R.flagAt := by
  unfold copyEpsilons
  apply foldl_keeps NFA.flagAt
  intro r a
  exact addEpsilonTransition_flagAt r s _

theorem copyEdges_idAt (off : Nat) (src : List NFAState) (i : Nat) (R : NFA) :
    (copyEdges off i src R).idAt = R.idAt := by
  induction src generalizing i R with
  | nil => rfl
  | cons st src ih =>
    simp only [copyEdges]
    rw [ih, copyEpsilons_idAt, copyTransitions_idAt]

theorem copyEdges_flagAt (off : Nat) (src : List NFAState) (i : Nat) (R : NFA) :
    (copyEdges off i src R).flagAt = R.flagAt := by
  induction src generalizing i R with
  | nil => rfl
  | cons st src ih =>
    simp only [copyEdges]
    rw [ih, copyEpsilons_flagAt, copyTransitions_flagAt]

theorem linkAccepting_idAt (L : List Nat) (t : Nat) (R : NFA) :
    (linkAccepting L t R).idAt = R.idAt := by
  unfold linkAccepting
  apply foldl_keeps NFA.idAt
  intro r a
  rw [addEpsilonTransition_idAt, clearFlag_idAt]

theorem linkAccepting_acceptStates (L : List Nat) (t : Nat) (R : NFA) :
    (linkAccepting L t R).acceptStates = R.acceptStates := by
  unfold linkAccepting
  apply foldl_keeps NFA.acceptStates
  intro r a
  rfl

theorem linkAccepting_flagAt (L : List Nat) (t : Nat) (R : NFA) (p : Nat) :
    (linkAccepting L t R).flagAt p = true ↔
      R.flagAt p = true ∧ ¬ (p ∈ L ∧ p < R.states.length) := by
  unfold linkAccepting
  induction L generalizing R with
  | nil => simp
  | cons a L ih =>
    rw [List.foldl_cons, ih, addEpsilonTransition_flagAt, clearFlag_flagAt,
      addEpsilonTransition_length, clearFlag_length]
    simp only [List.mem_cons]
    by_cases h : p = a ∧ a < R.states.length
    · obtain ⟨rfl, h2⟩ := h
      simp [h2]
    · simp only [h, if_false]
      constructor
      · rintro ⟨h1, h2⟩
        refine ⟨h1, ?_⟩
        rintro ⟨h3 | h3, h4⟩
        · exact h ⟨h3, h3 ▸ h4⟩
        · exact h2 ⟨h3, h4⟩
      · rintro ⟨h1, h2⟩
        exact ⟨h1, fun h3 => h2 ⟨Or.inr h3.1, h3.2⟩⟩

theorem markAccepts_idAt (L : List Nat) (off : Nat) (R : NFA) :
    (markAccepts L off R).idAt = R.idAt := by
  unfold markAccepts
  apply foldl_keeps NFA.idAt
  intro r a
  exact setAccepting_idAt r _

theorem markAccepts_flagAt (L : List Nat) (off : Nat) (R : NFA) (p : Nat) :
    (markAccepts L off R).flagAt p = true ↔
      R.flagAt p = true ∨ ((∃ a ∈ L, p = a + off) ∧ p < R.states.length) := by
  unfold markAccepts
  induction L generalizing R with
  | nil => simp
  | cons a L ih =>
    rw [List.foldl_cons, ih, setAccepting_flagAt, setAccepting_length]
    simp only [List.mem_cons, exists_eq_or_imp]
    by_cases h : p = a + off ∧ a + off < R.states.length
    · obtain ⟨rfl, h2⟩ := h
      simp [h2]
    · simp only [h, if_false]
      constructor
      · rintro (h1 | ⟨h1, h2⟩)
        · exact Or.inl h1
        · exact Or.inr ⟨Or.inr h1, h2⟩
      · rintro (h1 | ⟨h1 | h1, h2⟩)
        · exact Or.inl h1
        · exact absurd ⟨h1, h1 ▸ h2⟩ h
        · exact Or.inr ⟨h1, h2⟩

/-! ### `linkEnd` and `linkLoop` -/

theorem linkEnd_length (L : List Nat) (off stop : Nat) (R : NFA) :
    (linkEnd L off stop R).states.length = R.states.length := by
  unfold linkEnd
  apply foldl_keeps (fun r => r.states.length)
  intro r a
  rw [addEpsilonTransition_length]

theorem linkEnd_startState (L : List Nat) (off stop : Nat) (R : NFA) :
    (linkEnd L off stop R).startState = R.startState := by
  unfold linkEnd
  apply foldl_keeps NFA.startState
  intro r a
  rfl

theorem linkEnd_acceptStates (L : List Nat) (off stop : Nat) (R : NFA) :
    (linkEnd L off stop R).acceptStates = R.acceptStates := by
  unfold linkEnd
  apply foldl_keeps NFA.acceptStates
  intro r a
  rfl

theorem linkEnd_alphabet (L : List Nat) (off stop : Nat) (R : NFA) :
    (linkEnd L off stop R).alphabet = R.alphabet := by
  unfold linkEnd
  apply foldl_keeps NFA.alphabet
  intro r a
  rfl

theorem linkEnd_idAt (L : List Nat) (off stop : Nat) (R : NFA) :
    (linkEnd L off stop R).idAt = R.idAt := by
  unfold linkEnd
  apply foldl_keeps NFA.idAt
  intro r a
  rw [addEpsilonTransition_idAt]

theorem linkEnd_flagAt (L : List Nat) (off stop : Nat) (R : NFA) :
    (linkEnd L off stop R).flagAt = R.flagAt := by
  unfold linkEnd
  apply foldl_keeps NFA.flagAt
  intro r a
  rw [addEpsilonTransition_flagAt]

theorem linkEnd_symStep (L : List Nat) (off stop : Nat) (R : NFA) :
    (linkEnd L off stop R).symStep = R.symStep := by
  unfold linkEnd
  apply foldl_keeps NFA.symStep
  intro r a
  apply symStep_ext
  intro c p q
  rw [addEpsilonTransition_symStep]

theorem linkEnd_keysSorted (L : List Nat) (off stop : Nat) (R : NFA) (h : R.KeysSorted) :
    (linkEnd L off stop R).KeysSorted := by
  unfold linkEnd
  apply foldl_invariant NFA.KeysSorted _ _ _ _ h
  intro r a hr
  exact addEpsilonTransition_keysSorted _ _ _ hr

theorem linkLoop_length (L : List Nat) (off stop back : Nat) (R : NFA) :
    (linkLoop L off stop back R).states.length = R.states.length := by
  unfold linkLoop
  apply foldl_keeps (fun r => r.states.length)
  intro r a
  rw [addEpsilonTransition_length, addEpsilonTransition_length]

theorem linkLoop_startState (L : List Nat) (off stop back : Nat) (R : NFA) :
    (linkLoop L off stop back R).startState = R.startState := by
  unfold linkLoop
  apply foldl_keeps NFA.startState
  intro r a
  rfl

theorem linkLoop_acceptStates (L : List Nat) (off stop back : Nat) (R : NFA) :
    (linkLoop L off stop back R).acceptStates = R.acceptStates := by
  unfold linkLoop
  apply foldl_keeps NFA.acceptStates
  intro r a
  rfl

theorem linkLoop_alphabet (L : List Nat) (off stop back : Nat) (R : NFA) :
    (linkLoop L off stop back R).alphabet = R.alphabet := by
  unfold linkLoop
  apply foldl_keeps NFA.alphabet
  intro r a
  rfl

theorem linkLoop_idAt (L : List Nat) (off stop back : Nat) (R : NFA) :
    (linkLoop L off stop back R).idAt = R.idAt := by
  unfold linkLoop
  apply foldl_keeps NFA.idAt
  intro r a
  rw [addEpsilonTransition_idAt, addEpsilonTransition_idAt]

theorem linkLoop_flagAt (L : List Nat) (off stop back : Nat) (R : NFA) :
    (linkLoop L off stop back R).flagAt = R.flagAt := by
  unfold linkLoop
  apply foldl_keeps NFA.flagAt
  intro r a
  rw [addEpsilonTransition_flagAt, addEpsilonTransition_flagAt]

theorem linkLoop_symStep (L : List Nat) (off stop back : Nat) (R : NFA) :
    (linkLoop L off stop back R).symStep = R.symStep := by
  unfold linkLoop
  apply foldl_keeps NFA.symStep
  intro r a
  apply symStep_ext
  intro c p q
  rw [addEpsilonTransition_symStep, addEpsilonTransition_symStep]

theorem linkLoop_keysSorted (L : List Nat) (off stop back : Nat) (R : NFA) (h : R.KeysSorted) :
    (linkLoop L off stop back R).KeysSorted := by
  unfold linkLoop
  apply foldl_invariant NFA.KeysSorted _ _ _ _ h
  intro r a hr
  exact addEpsilonTransition_keysSorted _ _ _ (addEpsilonTransition_keysSorted _ _ _ hr)

theorem linkEnd_epsStep (L : List Nat) (off stop : Nat) (R : NFA) (p q : Nat) :
    (linkEnd L off stop R).epsStep p q ↔
      R.epsStep p q ∨ ((∃ a ∈ L, p = a + off) ∧ q = stop ∧ p < R.states.length) := by
  unfold linkEnd
  induction L generalizing R with
  | nil => simp
  | cons a L ih =>
    rw [List.foldl_cons, ih, addEpsilonTransition_epsStep, addEpsilonTransition_length]
    simp only [List.mem_cons, exists_eq_or_imp]
    constructor
    · rintro ((h | ⟨h1, h2, h3⟩) | ⟨h1, h2, h3⟩)
      · exact Or.inl h
      · exact Or.inr ⟨Or.inl h1, h2, h1 ▸ h3⟩
      · exact Or.inr ⟨Or.inr h1, h2, h3⟩
    · rintro (h | ⟨h1 | h1, h2, h3⟩)
      · exact Or.inl (Or.inl h)
      · exact Or.inl (Or.inr ⟨h1, h2, h1 ▸ h3⟩)
      · exact Or.inr ⟨h1, h2, h3⟩

theorem linkLoop_epsStep (L : List Nat) (off stop back : Nat) (R : NFA) (p q : Nat) :
    (linkLoop L off stop back R).epsStep p q ↔
      R.epsStep p q ∨
        ((∃ a ∈ L, p = a + off) ∧ (q = stop ∨ q = back) ∧ p < R.states.length) := by
  unfold linkLoop
  induction L generalizing R with
  | nil => simp
  | cons a L ih =>
    rw [List.foldl_cons, ih, addEpsilonTransition_epsStep, addEpsilonTransition_epsStep]
    simp only [addEpsilonTransition_length, List.mem_cons, exists_eq_or_imp]
    constructor
    · rintro (((h | ⟨h1, h2, h3⟩) | ⟨h1, h2, h3⟩) | ⟨h1, h2, h3⟩)
      · exact Or.inl h
      · exact Or.inr ⟨Or.inl h1, Or.inl h2, h1 ▸ h3⟩
      · exact Or.inr ⟨Or.inl h1, Or.inr h2, h1 ▸ h3⟩
      · exact Or.inr ⟨Or.inr h1, h2, h3⟩
    · rintro (h | ⟨h1 | h1, h2 | h2, h3⟩)
      · exact Or.inl (Or.inl (Or.inl h))
      · exact Or.inl (Or.inl (Or.inr ⟨h1, h2, h1 ▸ h3⟩))
      · exact Or.inl (Or.inr ⟨h1, h2, h1 ▸ h3⟩)
      · exact Or.inr ⟨h1, Or.inl h2, h3⟩
      · exact Or.inr ⟨h1, Or.inr h2, h3⟩

/-! ### The one-state automaton `alternate` and `star` start from -/

theorem new_length : NFA.new.states.length = 0 := rfl

theorem base_eq₁ :
    ({ NFA.new.addState.2 with startState := NFA.new.addState.1 } : NFA) =
      ⟨[NFAState.new 0], 0, [], []⟩ := rfl

theorem base_eq₂ :
    ({ NFA.new.addState.2 with startState := NFA.new.states.length } : NFA) =
      ⟨[NFAState.new 0], 0, [], []⟩ := rfl

theorem base_eq₃ :
    ({ NFA.new.addState.2 with startState := 0 } : NFA) = ⟨[NFAState.new 0], 0, [], []⟩ := rfl

theorem base_length : (⟨[NFAState.new 0], 0, [], []⟩ : NFA).states.length = 1 := rfl

theorem base_startState : (⟨[NFAState.new 0], 0, [], []⟩ : NFA).startState = 0 := rfl

theorem base_acceptStates : (⟨[NFAState.new 0], 0, [], []⟩ : NFA).acceptStates = [] := rfl

theorem base_alphabet : (⟨[NFAState.new 0], 0, [], []⟩ : NFA).alphabet = [] := rfl

theorem base_stateAt (p : Nat) :
    (⟨[NFAState.new 0], 0, [], []⟩ : NFA).stateAt p = NFAState.new p := by
  unfold NFA.stateAt
  cases p with
  | zero => rfl
  | succ p => rfl

theorem base_epsStep (p q : Nat) :
    (⟨[NFAState.new 0], 0, [], []⟩ : NFA).epsStep p q ↔ False := by
  unfold NFA.epsStep
  rw [base_stateAt]
  simp [NFAState.new]

theorem base_symStep (c : Char) (p q : Nat) :
    (⟨[NFAState.new 0], 0, [], []⟩ : NFA).symStep c p q ↔ False := by
  unfold NFA.symStep
  rw [base_stateAt]
  simp [NFAState.new, mapFind]

theorem base_idAt (p : Nat) : (⟨[NFAState.new 0], 0, [], []⟩ : NFA).idAt p = p := by
  unfold NFA.idAt
  rw [base_stateAt]
  rfl

theorem base_flagAt (p : Nat) : (⟨[NFAState.new 0], 0, [], []⟩ : NFA).flagAt p = false := by
  unfold NFA.flagAt
  rw [base_stateAt]
  rfl

theorem base_keysSorted : (⟨[NFAState.new 0], 0, [], []⟩ : NFA).KeysSorted := by
  intro st hst
  simp only [List.mem_singleton] at hst
  subst hst
  simp [NFAState.new]

theorem new_acceptStates : NFA.new.acceptStates = [] := rfl

theorem new_alphabet : NFA.new.alphabet = [] := rfl

theorem new_addState_length : NFA.new.addState.2.states.length = 1 := rfl

theorem new_addState_fst : NFA.new.addState.1 = 0 := rfl

/-! ### Fields that a mutation does not touch -/

theorem addState_startState (nfa : NFA) : nfa.addState.2.startState = nfa.startState := rfl

theorem addState_acceptStates (nfa : NFA) : nfa.addState.2.acceptStates = nfa.acceptStates := rfl

theorem addState_alphabet (nfa : NFA) : nfa.addState.2.alphabet = nfa.alphabet := rfl

theorem addEpsilonTransition_startState (nfa : NFA) (s t : Nat) :
    (nfa.addEpsilonTransition s t).startState = nfa.startState := rfl

theorem addEpsilonTransition_acceptStates (nfa : NFA) (s t : Nat) :
    (nfa.addEpsilonTransition s t).acceptStates = nfa.acceptStates := rfl

theorem addEpsilonTransition_alphabet (nfa : NFA) (s t : Nat) :
    (nfa.addEpsilonTransition s t).alphabet = nfa.alphabet := rfl

theorem setAccepting_startState (nfa : NFA) (s : Nat) :
    (nfa.setAccepting s).startState = nfa.startState := rfl

theorem setAccepting_alphabet (nfa : NFA) (s : Nat) :
    (nfa.setAccepting s).alphabet = nfa.alphabet := rfl

theorem setAccepting_acceptStates (nfa : NFA) (s x : Nat) :
    x ∈ (nfa.setAccepting s).acceptStates ↔ x = s ∨ x ∈ nfa.acceptStates := by
  unfold NFA.setAccepting
  exact mem_setInsert s x nfa.acceptStates

/-! ### `alternate` -/

theorem alternate_length (A B : NFA) :
    (alternate A B).states.length = A.states.length + B.states.length + 2 := by
  unfold alternate
  simp only [base_eq₁, base_eq₂, base_eq₃, new_length, Nat.zero_add, new_addState_length,
    List.length_singleton,
    new_addState_fst, setAccepting_length,
    linkEnd_length, addEpsilonTransition_length,
    addState_length, copyEdges_length, addStates_length, base_length]
  omega

theorem alternate_startState (A B : NFA) : (alternate A B).startState = 0 := by
  unfold alternate
  simp only [base_eq₁, base_eq₂, base_eq₃, new_length, Nat.zero_add, new_addState_length,
    List.length_singleton,
    new_addState_fst, setAccepting_startState,
    linkEnd_startState, addEpsilonTransition_startState, addState_startState,
    copyEdges_startState, addStates_startState, base_startState]

theorem alternate_acceptStates (A B : NFA) (x : Nat) :
    x ∈ (alternate A B).acceptStates ↔ x = A.states.length + B.states.length + 1 := by
  unfold alternate
  simp only [base_eq₁, base_eq₂, base_eq₃, new_length, Nat.zero_add, new_addState_length,
    List.length_singleton,
    new_addState_fst, setAccepting_acceptStates,
    linkEnd_acceptStates, addEpsilonTransition_acceptStates, addState_acceptStates,
    copyEdges_acceptStates, addStates_acceptStates, base_acceptStates, addState_fst,
    copyEdges_length, addStates_length, base_length, new_acceptStates, List.not_mem_nil,
    or_false]
  constructor <;> intro h <;> omega

theorem alternate_keysSorted (A B : NFA) : (alternate A B).KeysSorted := by
  unfold alternate
  simp only [base_eq₁, base_eq₂, base_eq₃, new_addState_fst]
  apply setAccepting_keysSorted
  apply linkEnd_keysSorted
  apply linkEnd_keysSorted
  apply addEpsilonTransition_keysSorted
  apply addEpsilonTransition_keysSorted
  apply addState_keysSorted
  apply copyEdges_keysSorted
  apply addStates_keysSorted
  apply copyEdges_keysSorted
  apply addStates_keysSorted
  exact base_keysSorted

theorem alternate_idAt (A B : NFA) (p : Nat) : (alternate A B).idAt p = p := by
  unfold alternate
  simp only [base_eq₁, base_eq₂, base_eq₃, new_addState_fst, setAccepting_idAt, linkEnd_idAt, addEpsilonTransition_idAt,
    addState_idAt, copyEdges_idAt, addStates_idAt, base_idAt]

theorem alternate_flagAt (A B : NFA) (p : Nat) :
    (alternate A B).flagAt p = true ↔ p = A.states.length + B.states.length + 1 := by
  unfold alternate
  simp only [base_eq₁, base_eq₂, base_eq₃, new_length, Nat.zero_add, new_addState_length,
    List.length_singleton,
    new_addState_fst, setAccepting_flagAt,
    linkEnd_flagAt, addEpsilonTransition_flagAt,
    addState_flagAt, copyEdges_flagAt, addStates_flagAt, base_flagAt, addState_fst,
    linkEnd_length, addEpsilonTransition_length, addState_length,
    copyEdges_length, addStates_length, base_length]
  split_ifs with h
  · simp only [true_iff]
    omega
  · simp only [Bool.false_eq_true, false_iff]
    intro hp
    apply h
    constructor <;> omega

theorem alternate_symStep (A B : NFA) (hA : A.KeysSorted) (hB : B.KeysSorted)
    (c : Char) (p q : Nat) :
    (alternate A B).symStep c p q ↔
      (∃ p' q', p = p' + 1 ∧ q = q' + 1 ∧ A.symStep c p' q') ∨
        ∃ p' q', p = p' + (A.states.length + 1) ∧ q = q' + (A.states.length + 1) ∧
          B.symStep c p' q' := by
  unfold alternate
  simp only [base_eq₁, base_eq₂, base_eq₃, new_length, Nat.zero_add, new_addState_length,
    List.length_singleton,
    new_addState_fst, setAccepting_symStep,
    linkEnd_symStep, addEpsilonTransition_symStep, addState_symStep,
    copyEdges_symStep_of _ _ _ hA, copyEdges_symStep_of _ _ _ hB, addStates_symStep,
    base_symStep, false_or, copyEdges_length, addStates_length, base_length]
  constructor
  · rintro (⟨p', q', h1, h2, _, h4⟩ | ⟨p', q', h1, h2, _, h4⟩)
    · exact Or.inl ⟨p', q', h1, h2, h4⟩
    · exact Or.inr ⟨p', q', by omega, by omega, h4⟩
  · rintro (⟨p', q', h1, h2, h4⟩ | ⟨p', q', h1, h2, h4⟩)
    · have := symStep_lt h4
      exact Or.inl ⟨p', q', h1, h2, by omega, h4⟩
    · have := symStep_lt h4
      exact Or.inr ⟨p', q', by omega, by omega, by omega, h4⟩

theorem alternate_epsStep (A B : NFA) (p q : Nat) :
    (alternate A B).epsStep p q ↔
      (∃ p' q', p = p' + 1 ∧ q = q' + 1 ∧ A.epsStep p' q') ∨
        (∃ p' q', p = p' + (A.states.length + 1) ∧ q = q' + (A.states.length + 1) ∧
          B.epsStep p' q') ∨
        (p = 0 ∧ (q = A.startState + 1 ∨ q = B.startState + (A.states.length + 1))) ∨
        (((∃ a ∈ A.acceptStates, p = a + 1) ∨
            ∃ b ∈ B.acceptStates, p = b + (A.states.length + 1)) ∧
          q = A.states.length + B.states.length + 1 ∧
          p < A.states.length + B.states.length + 2) := by
  unfold alternate
  simp only [base_eq₁, base_eq₂, base_eq₃, new_length, Nat.zero_add, new_addState_length,
    List.length_singleton,
    new_addState_fst, setAccepting_epsStep,
    linkEnd_epsStep, addEpsilonTransition_epsStep, addState_epsStep,
    copyEdges_epsStep_of, addStates_epsStep,
    base_epsStep, false_or, linkEnd_length, addEpsilonTransition_length, addState_length,
    addState_fst, copyEdges_length, addStates_length, base_length]
  constructor
  · rintro (((((⟨p', q', h1, h2, _, h4⟩ | ⟨p', q', h1, h2, _, h4⟩) | ⟨h1, h2, _⟩) |
      ⟨h1, h2, _⟩) | ⟨h1, h2, h3⟩) | ⟨⟨b, hb, h1⟩, h2, h3⟩)
    · exact Or.inl ⟨p', q', h1, h2, h4⟩
    · exact Or.inr (Or.inl ⟨p', q', by omega, by omega, h4⟩)
    · exact Or.inr (Or.inr (Or.inl ⟨h1, Or.inl h2⟩))
    · exact Or.inr (Or.inr (Or.inl ⟨h1, Or.inr (by omega)⟩))
    · exact Or.inr (Or.inr (Or.inr ⟨Or.inl h1, by omega, by omega⟩))
    · exact Or.inr (Or.inr (Or.inr ⟨Or.inr ⟨b, hb, by omega⟩, by omega, by omega⟩))
  · rintro (⟨p', q', h1, h2, h4⟩ | ⟨p', q', h1, h2, h4⟩ | ⟨h1, h2 | h2⟩ |
      ⟨⟨a, ha, h1⟩ | ⟨b, hb, h1⟩, h2, h3⟩)
    · have := epsStep_lt h4
      exact Or.inl (Or.inl (Or.inl (Or.inl (Or.inl ⟨p', q', h1, h2, by omega, h4⟩))))
    · have := epsStep_lt h4
      exact Or.inl (Or.inl (Or.inl (Or.inl (Or.inr ⟨p', q', by omega, by omega, by omega, h4⟩))))
    · exact Or.inl (Or.inl (Or.inl (Or.inr ⟨h1, h2, by omega⟩)))
    · exact Or.inl (Or.inl (Or.inr ⟨h1, by omega, by omega⟩))
    · exact Or.inl (Or.inr ⟨⟨a, ha, h1⟩, by omega, by omega⟩)
    · exact Or.inr ⟨⟨b, hb, by omega⟩, by omega, by omega⟩

theorem alternate_alphabet (A B : NFA) (hA : A.KeysSorted) (hB : B.KeysSorted) (x : Char) :
    x ∈ (alternate A B).alphabet ↔
      x ≠ Char.ofNat 0 ∧ ((∃ p q, A.symStep x p q) ∨ ∃ p q, B.symStep x p q) := by
  unfold alternate
  simp only [base_eq₁, base_eq₂, base_eq₃, new_addState_fst, setAccepting_alphabet,
    linkEnd_alphabet, addEpsilonTransition_alphabet, addState_alphabet,
    copyEdges_alphabet_of _ _ _ hA, copyEdges_alphabet_of _ _ _ hB, addStates_alphabet,
    base_alphabet, new_alphabet, List.not_mem_nil, false_or]
  constructor
  · rintro (⟨h1, h2⟩ | ⟨h1, h2⟩)
    · exact ⟨h1, Or.inl h2⟩
    · exact ⟨h1, Or.inr h2⟩
  · rintro ⟨h1, h2 | h2⟩
    · exact Or.inl ⟨h1, h2⟩
    · exact Or.inr ⟨h1, h2⟩

/-! ### `star` -/

theorem star_length (A : NFA) : (star A).states.length = A.states.length + 2 := by
  unfold star
  simp only [base_eq₁, base_eq₂, base_eq₃, new_length, Nat.zero_add, new_addState_length,
    List.length_singleton, new_addState_fst, setAccepting_length,
    linkLoop_length, addEpsilonTransition_length,
    addState_length, copyEdges_length, addStates_length, base_length]
  omega

theorem star_startState (A : NFA) : (star A).startState = 0 := by
  unfold star
  simp only [base_eq₁, base_eq₂, base_eq₃, new_length, Nat.zero_add, new_addState_length,
    new_addState_fst, setAccepting_startState,
    linkLoop_startState, addEpsilonTransition_startState, addState_startState,
    copyEdges_startState, addStates_startState, base_startState]

theorem star_acceptStates (A : NFA) (x : Nat) :
    x ∈ (star A).acceptStates ↔ x = A.states.length + 1 := by
  unfold star
  simp only [base_eq₁, base_eq₂, base_eq₃, new_length, Nat.zero_add, new_addState_length,
    List.length_singleton, new_addState_fst, setAccepting_acceptStates,
    linkLoop_acceptStates, addEpsilonTransition_acceptStates, addState_acceptStates,
    copyEdges_acceptStates, addStates_acceptStates, base_acceptStates, addState_fst,
    copyEdges_length, addStates_length, base_length, new_acceptStates, List.not_mem_nil,
    or_false]
  constructor <;> intro h <;> omega

theorem star_keysSorted (A : NFA) : (star A).KeysSorted := by
  unfold star
  simp only [base_eq₁, base_eq₂, base_eq₃, new_addState_fst]
  apply setAccepting_keysSorted
  apply linkLoop_keysSorted
  apply addEpsilonTransition_keysSorted
  apply addEpsilonTransition_keysSorted
  apply addState_keysSorted
  apply copyEdges_keysSorted
  apply addStates_keysSorted
  exact base_keysSorted

theorem star_idAt (A : NFA) (p : Nat) : (star A).idAt p = p := by
  unfold star
  simp only [base_eq₁, base_eq₂, base_eq₃, new_addState_fst, setAccepting_idAt, linkLoop_idAt,
    addEpsilonTransition_idAt, addState_idAt, copyEdges_idAt, addStates_idAt, base_idAt]

theorem star_flagAt (A : NFA) (p : Nat) :
    (star A).flagAt p = true ↔ p = A.states.length + 1 := by
  unfold star
  simp only [base_eq₁, base_eq₂, base_eq₃, new_length, Nat.zero_add, new_addState_length,
    List.length_singleton, new_addState_fst, setAccepting_flagAt,
    linkLoop_flagAt, addEpsilonTransition_flagAt,
    addState_flagAt, copyEdges_flagAt, addStates_flagAt, base_flagAt, addState_fst,
    linkLoop_length, addEpsilonTransition_length, addState_length,
    copyEdges_length, addStates_length, base_length]
  split_ifs with h
  · simp only [true_iff]
    omega
  · simp only [Bool.false_eq_true, false_iff]
    intro hp
    apply h
    constructor <;> omega

theorem star_symStep (A : NFA) (hA : A.KeysSorted) (c : Char) (p q : Nat) :
    (star A).symStep c p q ↔ ∃ p' q', p = p' + 1 ∧ q = q' + 1 ∧ A.symStep c p' q' := by
  unfold star
  simp only [base_eq₁, base_eq₂, base_eq₃, new_length, Nat.zero_add, new_addState_length,
    List.length_singleton, new_addState_fst, setAccepting_symStep,
    linkLoop_symStep, addEpsilonTransition_symStep, addState_symStep,
    copyEdges_symStep_of _ _ _ hA, addStates_symStep,
    base_symStep, false_or, copyEdges_length, addStates_length, base_length]
  constructor
  · rintro ⟨p', q', h1, h2, _, h4⟩
    exact ⟨p', q', h1, h2, h4⟩
  · rintro ⟨p', q', h1, h2, h4⟩
    have := symStep_lt h4
    exact ⟨p', q', h1, h2, by omega, h4⟩

theorem star_epsStep (A : NFA) (p q : Nat) :
    (star A).epsStep p q ↔
      (∃ p' q', p = p' + 1 ∧ q = q' + 1 ∧ A.epsStep p' q') ∨
        (p = 0 ∧ (q = A.startState + 1 ∨ q = A.states.length + 1)) ∨
        ((∃ a ∈ A.acceptStates, p = a + 1) ∧
          (q = A.states.length + 1 ∨ q = A.startState + 1) ∧
          p < A.states.length + 2) := by
  unfold star
  simp only [base_eq₁, base_eq₂, base_eq₃, new_length, Nat.zero_add, new_addState_length,
    List.length_singleton, new_addState_fst, setAccepting_epsStep,
    linkLoop_epsStep, addEpsilonTransition_epsStep, addState_epsStep,
    copyEdges_epsStep_of, addStates_epsStep,
    base_epsStep, false_or, linkLoop_length, addEpsilonTransition_length, addState_length,
    addState_fst, copyEdges_length, addStates_length, base_length]
  constructor
  · rintro (((⟨p', q', h1, h2, _, h4⟩ | ⟨h1, h2, _⟩) | ⟨h1, h2, _⟩) | ⟨h1, h2, h3⟩)
    · exact Or.inl ⟨p', q', h1, h2, h4⟩
    · exact Or.inr (Or.inl ⟨h1, Or.inl h2⟩)
    · exact Or.inr (Or.inl ⟨h1, Or.inr (by omega)⟩)
    · refine Or.inr (Or.inr ⟨h1, ?_, by omega⟩)
      rcases h2 with h2 | h2
      · exact Or.inl (by omega)
      · exact Or.inr h2
  · rintro (⟨p', q', h1, h2, h4⟩ | ⟨h1, h2 | h2⟩ | ⟨h1, h2, h3⟩)
    · have := epsStep_lt h4
      exact Or.inl (Or.inl (Or.inl ⟨p', q', h1, h2, by omega, h4⟩))
    · exact Or.inl (Or.inl (Or.inr ⟨h1, h2, by omega⟩))
    · exact Or.inl (Or.inr ⟨h1, by omega, by omega⟩)
    · refine Or.inr ⟨h1, ?_, by omega⟩
      rcases h2 with h2 | h2
      · exact Or.inl (by omega)
      · exact Or.inr h2

theorem star_alphabet (A : NFA) (hA : A.KeysSorted) (x : Char) :
    x ∈ (star A).alphabet ↔ x ≠ Char.ofNat 0 ∧ ∃ p q, A.symStep x p q := by
  unfold star
  simp only [base_eq₁, base_eq₂, base_eq₃, new_addState_fst, setAccepting_alphabet,
    linkLoop_alphabet, addEpsilonTransition_alphabet, addState_alphabet,
    copyEdges_alphabet_of _ _ _ hA, addStates_alphabet,
    base_alphabet, new_alphabet, List.not_mem_nil, false_or]

/-! ### Well-formedness read through the observables -/

theorem NFA.WellFormed.idAt_eq {nfa : NFA} (h : nfa.WellFormed) (p : Nat) : nfa.idAt p = p := by
  by_cases hp : p < nfa.states.length
  · exact h.ids p _ (stateAt_mem hp).2
  · exact idAt_of_le (by omega)

theorem NFA.WellFormed.flagAt_iff {nfa : NFA} (h : nfa.WellFormed) (p : Nat) :
    nfa.flagAt p = true ↔ p ∈ nfa.acceptStates := by
  by_cases hp : p < nfa.states.length
  · exact h.flag p _ (stateAt_mem hp).2
  · rw [flagAt_of_le (by omega)]
    simp only [Bool.false_eq_true, false_iff]
    intro hacc
    exact hp (h.accept p hacc)

theorem wellFormed_of {nfa : NFA} (hk : nfa.KeysSorted) (hC : nfa.Closed)
    (hid : ∀ p, nfa.idAt p = p) (hflag : ∀ p, nfa.flagAt p = true ↔ p ∈ nfa.acceptStates) :
    nfa.WellFormed where
  ids := by
    intro i st hst
    have := hid i
    unfold NFA.idAt at this
    rwa [stateAt_of_getElem? hst] at this
  transTargets := by
    intro st hst tr htr q hq
    obtain ⟨i, hi⟩ := List.mem_iff_getElem?.1 hst
    refine hC.sym tr.1 i q ⟨tr.2, ?_, hq⟩
    rw [stateAt_of_getElem? hi]
    exact mapFind_of_mem (hk st hst).nodup htr
  epsTargets := by
    intro st hst q hq
    obtain ⟨i, hi⟩ := List.mem_iff_getElem?.1 hst
    refine hC.eps i q ?_
    unfold NFA.epsStep
    rw [stateAt_of_getElem? hi]
    exact hq
  start := hC.start
  accept := hC.accept
  flag := by
    intro i st hst
    have := hflag i
    unfold NFA.flagAt at this
    rwa [stateAt_of_getElem? hst] at this

/-! ### The four constructions keep automata well-formed -/

theorem charNFA_idAt (c : Char) (p : Nat) : (charNFA c).idAt p = p := by
  rw [charNFA_eq]
  unfold NFA.idAt NFA.stateAt
  match p with
  | 0 => rfl
  | 1 => rfl
  | p + 2 => rfl

theorem charNFA_flagAt (c : Char) (p : Nat) :
    (charNFA c).flagAt p = true ↔ p ∈ (charNFA c).acceptStates := by
  rw [charNFA_eq]
  unfold NFA.flagAt NFA.stateAt
  match p with
  | 0 => simp
  | 1 => simp
  | p + 2 => simp [NFAState.new]

theorem charNFA_wellFormed (c : Char) : (charNFA c).WellFormed :=
  wellFormed_of (charNFA_keysSorted c) (charNFA_closed c) (charNFA_idAt c) (charNFA_flagAt c)

theorem idAt_withAccepts (r : NFA) (l : List Nat) :
    NFA.idAt { r with acceptStates := l } = r.idAt := rfl

theorem flagAt_withAccepts (r : NFA) (l : List Nat) :
    NFA.flagAt { r with acceptStates := l } = r.flagAt := rfl

theorem length_withAccepts (r : NFA) (l : List Nat) :
    ({ r with acceptStates := l } : NFA).states.length = r.states.length := rfl

theorem concatenate_idAt (A B : NFA) : (concatenate A B).idAt = A.idAt := by
  unfold concatenate
  simp only [markAccepts_idAt, idAt_withAccepts, linkAccepting_idAt, copyEdges_idAt,
    addStates_idAt]

theorem concatenate_flagAt (A B : NFA) (p : Nat) :
    (concatenate A B).flagAt p = true ↔
      (A.flagAt p = true ∧ ¬ (p ∈ A.acceptStates ∧ p < A.states.length + B.states.length)) ∨
        ((∃ b ∈ B.acceptStates, p = b + A.states.length) ∧
          p < A.states.length + B.states.length) := by
  unfold concatenate
  simp only [markAccepts_flagAt, flagAt_withAccepts, length_withAccepts, linkAccepting_flagAt,
    linkAccepting_length, copyEdges_flagAt, copyEdges_length, addStates_flagAt,
    addStates_length]

theorem concatenate_wellFormed (A B : NFA) (hA : A.WellFormed) (hAk : A.KeysSorted)
    (hB : B.WellFormed) (hBk : B.KeysSorted) : (concatenate A B).WellFormed := by
  apply wellFormed_of (concatenate_keysSorted A B hAk)
    (concatenate_closed A B hA.closed hB.closed hBk)
  · intro p
    rw [concatenate_idAt]
    exact hA.idAt_eq p
  · intro p
    rw [concatenate_flagAt, concatenate_acceptStates, hA.flagAt_iff]
    constructor
    · rintro (⟨h1, h2⟩ | ⟨h1, _⟩)
      · have := hA.accept p h1
        exact absurd ⟨h1, by omega⟩ h2
      · exact h1
    · rintro ⟨b, hb, rfl⟩
      have := hB.accept b hb
      exact Or.inr ⟨⟨b, hb, rfl⟩, by omega⟩

theorem alternate_closed (A B : NFA) (hA : A.Closed) (hAk : A.KeysSorted) (hB : B.Closed)
    (hBk : B.KeysSorted) : (alternate A B).Closed where
  start := by
    rw [alternate_startState, alternate_length]
    omega
  accept := by
    intro q hq
    rw [alternate_acceptStates] at hq
    rw [alternate_length]
    omega
  sym := by
    intro c p q h
    rw [alternate_length]
    rcases (alternate_symStep A B hAk hBk c p q).1 h with ⟨p', q', _, rfl, h1⟩ |
      ⟨p', q', _, rfl, h1⟩
    · have := hA.sym c p' q' h1
      omega
    · have := hB.sym c p' q' h1
      omega
  eps := by
    intro p q h
    rw [alternate_length]
    have hs1 := hA.start
    have hs2 := hB.start
    rcases (alternate_epsStep A B p q).1 h with ⟨p', q', _, rfl, h1⟩ | ⟨p', q', _, rfl, h1⟩ |
      ⟨_, rfl | rfl⟩ | ⟨_, rfl, _⟩
    · have := hA.eps p' q' h1
      omega
    · have := hB.eps p' q' h1
      omega
    · omega
    · omega
    · omega

theorem alternate_wellFormed (A B : NFA) (hA : A.WellFormed) (hAk : A.KeysSorted)
    (hB : B.WellFormed) (hBk : B.KeysSorted) : (alternate A B).WellFormed := by
  apply wellFormed_of (alternate_keysSorted A B)
    (alternate_closed A B hA.closed hAk hB.closed hBk) (alternate_idAt A B)
  intro p
  rw [alternate_flagAt, alternate_acceptStates]

theorem star_closed (A : NFA) (hA : A.Closed) (hAk : A.KeysSorted) : (star A).Closed where
  start := by
    rw [star_startState, star_length]
    omega
  accept := by
    intro q hq
    rw [star_acceptStates] at hq
    rw [star_length]
    omega
  sym := by
    intro c p q h
    rw [star_length]
    obtain ⟨p', q', _, rfl, h1⟩ := (star_symStep A hAk c p q).1 h
    have := hA.sym c p' q' h1
    omega
  eps := by
    intro p q h
    rw [star_length]
    have hs1 := hA.start
    rcases (star_epsStep A p q).1 h with ⟨p', q', _, rfl, h1⟩ | ⟨_, rfl | rfl⟩ |
      ⟨_, rfl | rfl, _⟩
    · have := hA.eps p' q' h1
      omega
    · omega
    · omega
    · omega
    · omega

theorem star_wellFormed (A : NFA) (hA : A.WellFormed) (hAk : A.KeysSorted) :
    (star A).WellFormed := by
  apply wellFormed_of (star_keysSorted A) (star_closed A hA.closed hAk) (star_idAt A)
  intro p
  rw [star_flagAt, star_acceptStates]

/-! ### The operand stack of `parseRegex` holds well-formed automata -/

theorem processOperator_good (op : Char) (ns : List NFA)
    (h : ∀ x ∈ ns, x.WellFormed ∧ x.KeysSorted) :
    ∀ x ∈ processOperator op ns, x.WellFormed ∧ x.KeysSorted := by
  unfold processOperator
  match ns, h with
  | [], h => exact h
  | [a], h => exact h
  | nfa2 :: nfa1 :: rest, h =>
    simp only
    split_ifs with hop
    · intro x hx
      rcases List.mem_cons.1 hx with rfl | hx
      · have h1 := h nfa1 (by simp)
        have h2 := h nfa2 (by simp)
        exact ⟨alternate_wellFormed nfa1 nfa2 h1.1 h1.2 h2.1 h2.2, alternate_keysSorted nfa1 nfa2⟩
      · exact h x (by simp [hx])
    · exact h

theorem processOperator_nonempty (op : Char) (ns : List NFA) (h : ns ≠ []) :
    processOperator op ns ≠ [] := by
  unfold processOperator
  match ns, h with
  | [a], _ => simp
  | nfa2 :: nfa1 :: rest, _ =>
    simp only
    split_ifs <;> simp

theorem reduceOps_good (ops : List Char) (ns : List NFA)
    (h : ∀ x ∈ ns, x.WellFormed ∧ x.KeysSorted) :
    ∀ x ∈ (reduceOps ops ns).2, x.WellFormed ∧ x.KeysSorted := by
  induction ops generalizing ns with
  | nil => exact h
  | cons op ops ih =>
    unfold reduceOps
    split_ifs with hop
    · exact ih _ (processOperator_good op ns h)
    · exact h

theorem reduceOps_nonempty (ops : List Char) (ns : List NFA) (h : ns ≠ []) :
    (reduceOps ops ns).2 ≠ [] := by
  induction ops generalizing ns with
  | nil => exact h
  | cons op ops ih =>
    unfold reduceOps
    split_ifs with hop
    · exact ih _ (processOperator_nonempty op ns h)
    · exact h

theorem scanChar_good (st : List NFA × List Char) (c : Char)
    (h : ∀ x ∈ st.1, x.WellFormed ∧ x.KeysSorted) :
    ∀ x ∈ (scanChar st c).1, x.WellFormed ∧ x.KeysSorted := by
  unfold scanChar
  split_ifs with h1 h2 h3 h4 h5
  · intro x hx
    rcases List.mem_cons.1 hx with rfl | hx
    · exact ⟨charNFA_wellFormed c, charNFA_keysSorted c⟩
    · exact h x hx
  · exact h
  · exact reduceOps_good st.2 st.1 h
  · exact reduceOps_good st.2 st.1 h
  · match hst : st.1, h with
    | [], h => simp [hst]
    | nfa :: rest, h =>
      simp only
      intro x hx
      rcases List.mem_cons.1 hx with rfl | hx
      · have h1 := h nfa (by simp)
        exact ⟨star_wellFormed nfa h1.1 h1.2, star_keysSorted nfa⟩
      · exact h x (by simp [hx])
  · exact h

theorem scanChar_nonempty (st : List NFA × List Char) (c : Char)
    (h : st.1 ≠ [] ∨ c.isAlphanum = true) : (scanChar st c).1 ≠ [] := by
  unfold scanChar
  split_ifs with h1 h2 h3 h4 h5
  · simp
  · exact h.resolve_right h1
  · exact reduceOps_nonempty st.2 st.1 (h.resolve_right h1)
  · exact reduceOps_nonempty st.2 st.1 (h.resolve_right h1)
  · have hne := h.resolve_right h1
    match hst : st.1, hne with
    | nfa :: rest, _ => simp
  · exact h.resolve_right h1

theorem scan_good (regex : List Char) (st : List NFA × List Char)
    (h : ∀ x ∈ st.1, x.WellFormed ∧ x.KeysSorted) :
    ∀ x ∈ (regex.foldl scanChar st).1, x.WellFormed ∧ x.KeysSorted := by
  induction regex generalizing st with
  | nil => exact h
  | cons c regex ih => exact ih _ (scanChar_good st c h)

theorem scan_nonempty (regex : List Char) (st : List NFA × List Char)
    (h : st.1 ≠ [] ∨ ∃ c ∈ regex, c.isAlphanum = true) :
    (regex.foldl scanChar st).1 ≠ [] := by
  induction regex generalizing st with
  | nil =>
    rcases h with h | ⟨c, hc, _⟩
    · exact h
    · simp at hc
  | cons c regex ih =>
    rw [List.foldl_cons]
    apply ih
    rcases h with h | ⟨x, hx, hx2⟩
    · exact Or.inl (scanChar_nonempty st c (Or.inl h))
    · rcases List.mem_cons.1 hx with rfl | hx
      · exact Or.inl (scanChar_nonempty st x (Or.inr hx2))
      · exact Or.inr ⟨x, hx, hx2⟩

theorem flush_good (ops : List Char) (ns : List NFA)
    (h : ∀ x ∈ ns, x.WellFormed ∧ x.KeysSorted) :
    ∀ x ∈ ops.foldl (fun ns op => processOperator op ns) ns,
      x.WellFormed ∧ x.KeysSorted := by
  induction ops generalizing ns with
  | nil => exact h
  | cons op ops ih => exact ih _ (processOperator_good op ns h)

theorem flush_nonempty (ops : List Char) (ns : List NFA) (h : ns ≠ []) :
    ops.foldl (fun ns op => processOperator op ns) ns ≠ [] := by
  induction ops generalizing ns with
  | nil => exact h
  | cons op ops ih => exact ih _ (processOperator_nonempty op ns h)

theorem concatAll_good (rest : List NFA) (top : NFA) (htop : top.WellFormed ∧ top.KeysSorted)
    (h : ∀ x ∈ rest, x.WellFormed ∧ x.KeysSorted) :
    (concatAll top rest).WellFormed ∧ (concatAll top rest).KeysSorted := by
  induction rest generalizing top with
  | nil => exact htop
  | cons nfa1 rest ih =>
    simp only [concatAll]
    have h1 := h nfa1 (by simp)
    exact ih _ ⟨concatenate_wellFormed nfa1 top h1.1 h1.2 htop.1 htop.2,
      concatenate_keysSorted nfa1 top h1.2⟩ (fun x hx => h x (by simp [hx]))

/-- Whatever `parseRegex` returns is well-formed, with ascending keys. -/
theorem parseRegex_good (regex : List Char) (nfa : NFA) (h : parseRegex regex = some nfa) :
    nfa.WellFormed ∧ nfa.KeysSorted := by
  unfold parseRegex at h
  have hgood := flush_good (regex.foldl scanChar ([], [])).2 (regex.foldl scanChar ([], [])).1
    (scan_good regex ([], []) (by simp))
  match hst : (regex.foldl scanChar ([], [])).2.foldl (fun ns op => processOperator op ns)
      (regex.foldl scanChar ([], [])).1, hgood with
  | [], _ =>
    simp only [hst] at h
    exact Option.noConfusion h
  | top :: rest, hgood =>
    simp only [hst] at h
    obtain rfl := Option.some.inj h
    exact concatAll_good rest top (hgood top (by simp)) (fun x hx => hgood x (by simp [hx]))

/-- On a regex with an alphanumeric character `parseRegex` returns an automaton. -/
theorem parseRegex_some (regex : List Char) (h : ∃ c ∈ regex, c.isAlphanum = true) :
    ∃ nfa, parseRegex regex = some nfa := by
  have hne := flush_nonempty (regex.foldl scanChar ([], [])).2
    (regex.foldl scanChar ([], [])).1 (scan_nonempty regex ([], []) (Or.inr h))
  match hst : (regex.foldl scanChar ([], [])).2.foldl (fun ns op => processOperator op ns)
      (regex.foldl scanChar ([], [])).1, hne with
  | top :: rest, _ =>
    refine ⟨concatAll top rest, ?_⟩
    simp only [parseRegex, hst]

/-! ### The DFA that `convert` returns -/

theorem epsilonClosure_nil (nfa : NFA) : epsilonClosure [] nfa = some [] := by
  unfold epsilonClosure
  cases ([] : List Nat).length + nfa.states.length <;> rfl

theorem move_nil (c : Char) (nfa : NFA) : move [] c nfa = [] := rfl

/-- Every subset reachable from the start closure is empty or a state of the DFA. -/
theorem SubsetInv.complete {nfa : NFA} {d : DFA}
    (hinv : SubsetInv nfa d [] d.dfaStates.length
      (fun i c => i < d.dfaStates.length ∧ c ∈ nfa.alphabet))
    {S : List Nat} (hS : SubsetReachable nfa S) : S = [] ∨ S ∈ d.dfaStates := by
  induction hS with
  | start h0 =>
    right
    have := hinv.first
    rw [h0] at this
    exact mem_of_getElem? this
  | @step S U c _ hc hU ih =>
    rcases ih with rfl | hmem
    · rw [move_nil, epsilonClosure_nil] at hU
      exact Or.inl (Option.some.inj hU).symm
    · obtain ⟨i, hi⟩ := List.mem_iff_getElem?.1 hmem
      by_cases hne : U = []
      · exact Or.inl hne
      · obtain ⟨j, _, hj⟩ := (hinv.trans i c ⟨lt_of_getElem? hi, hc⟩ S hi U hU).2 hne
        exact Or.inr (mem_of_getElem? hj)

/-- `convert` returns a DFA whenever `parseRegex` returns an automaton, and that DFA
satisfies the invariant of the worklist loop with every state expanded. -/
theorem convert_spec (regex : List Char) (nfa : NFA) (h : parseRegex regex = some nfa) :
    ∃ d, convert regex = some d ∧
      SubsetInv nfa d [] d.dfaStates.length
        (fun i c => i < d.dfaStates.length ∧ c ∈ nfa.alphabet) := by
  obtain ⟨d, hd, hinv⟩ := subsetConstruction_spec nfa (parseRegex_good regex nfa h).1.closed
  refine ⟨d, ?_, hinv⟩
  simp only [convert, h]
  exact hd

/-! ## The language of alternate -/

/-- A path of the operand `A` is a path of `alternate A B`, one state further. -/
theorem alternate_path_left (A B : NFA) (hAk : A.KeysSorted) (hBk : B.KeysSorted)
    {p q : Nat} {w : List Char} (h : A.Path p w q) :
    (alternate A B).Path (p + 1) w (q + 1) := by
  refine Path.shift 1 ?_ ?_ h
  · intro c p q hstep
    exact (alternate_symStep A B hAk hBk c _ _).2 (Or.inl ⟨p, q, rfl, rfl, hstep⟩)
  · intro p q hstep
    exact (alternate_epsStep A B _ _).2 (Or.inl ⟨p, q, rfl, rfl, hstep⟩)

/-- A path of the operand `B` is a path of `alternate A B`, behind the copy of `A`. -/
theorem alternate_path_right (A B : NFA) (hAk : A.KeysSorted) (hBk : B.KeysSorted)
    {p q : Nat} {w : List Char} (h : B.Path p w q) :
    (alternate A B).Path (p + (A.states.length + 1)) w (q + (A.states.length + 1)) := by
  refine Path.shift (A.states.length + 1) ?_ ?_ h
  · intro c p q hstep
    exact (alternate_symStep A B hAk hBk c _ _).2 (Or.inr ⟨p, q, rfl, rfl, hstep⟩)
  · intro p q hstep
    exact (alternate_epsStep A B _ _).2 (Or.inr (Or.inl ⟨p, q, rfl, rfl, hstep⟩))

/-- A path of `alternate A B` that reaches the end state: from the new start state it spells a
string of one of the operands, inside a copy it is a path of that operand to one of its
accepting states, and from the end state it is empty. -/
theorem alternate_path_split (A B : NFA) (hA : A.Closed) (hAk : A.KeysSorted) (hB : B.Closed)
    (hBk : B.KeysSorted) {p q : Nat} {w : List Char} (h : (alternate A B).Path p w q)
    (hq : q = A.states.length + B.states.length + 1) :
    (p = 0 → A.accepts w ∨ B.accepts w) ∧
      (∀ p', p = p' + 1 → p' < A.states.length → ∃ a ∈ A.acceptStates, A.Path p' w a) ∧
      (∀ p', p = p' + (A.states.length + 1) → p' < B.states.length →
        ∃ b ∈ B.acceptStates, B.Path p' w b) ∧
      (p = A.states.length + B.states.length + 1 → w = []) := by
  induction h with
  | nil p =>
    refine ⟨fun hp => ?_, fun p' hp hlt => ?_, fun p' hp hlt => ?_, fun _ => rfl⟩ <;> omega
  | @eps p p2 r w hstep _ ih =>
    obtain ⟨_, ihA, ihB, ihE⟩ := ih hq
    rcases (alternate_epsStep A B p p2).1 hstep with
      ⟨p1, q1, h1, h2, hs⟩ | ⟨p1, q1, h1, h2, hs⟩ | ⟨h1, h2⟩ | ⟨h1, h2, h3⟩
    · have hp1 := epsStep_lt hs
      have hq1 := hA.eps p1 q1 hs
      refine ⟨fun hp => ?_, fun p' hp hlt => ?_, fun p' hp hlt => ?_, fun hp => ?_⟩
      · omega
      · obtain ⟨a, ha, hpath⟩ := ihA q1 h2 hq1
        have hpp : p' = p1 := by omega
        rw [hpp]
        exact ⟨a, ha, NFA.Path.eps hs hpath⟩
      · omega
      · omega
    · have hp1 := epsStep_lt hs
      have hq1 := hB.eps p1 q1 hs
      refine ⟨fun hp => ?_, fun p' hp hlt => ?_, fun p' hp hlt => ?_, fun hp => ?_⟩
      · omega
      · omega
      · obtain ⟨b, hb, hpath⟩ := ihB q1 h2 hq1
        have hpp : p' = p1 := by omega
        rw [hpp]
        exact ⟨b, hb, NFA.Path.eps hs hpath⟩
      · omega
    · refine ⟨fun _ => ?_, fun p' hp hlt => ?_, fun p' hp hlt => ?_, fun hp => ?_⟩
      · rcases h2 with h2 | h2
        · obtain ⟨a, ha, hpath⟩ := ihA A.startState h2 hA.start
          exact Or.inl ⟨a, ha, hpath⟩
        · obtain ⟨b, hb, hpath⟩ := ihB B.startState h2 hB.start
          exact Or.inr ⟨b, hb, hpath⟩
      · omega
      · omega
      · omega
    · have hw : w = [] := ihE h2
      rcases h1 with ⟨a, ha, h1⟩ | ⟨b, hb, h1⟩
      · have hlt := hA.accept a ha
        refine ⟨fun hp => ?_, fun p' hp hlt => ?_, fun p' hp hlt => ?_, fun hp => ?_⟩
        · omega
        · have hpp : p' = a := by omega
          rw [hpp, hw]
          exact ⟨a, ha, NFA.Path.nil a⟩
        · omega
        · omega
      · have hlt := hB.accept b hb
        refine ⟨fun hp => ?_, fun p' hp hlt => ?_, fun p' hp hlt => ?_, fun hp => ?_⟩
        · omega
        · omega
        · have hpp : p' = b := by omega
          rw [hpp, hw]
          exact ⟨b, hb, NFA.Path.nil b⟩
        · omega
  | @sym p p2 r c w hstep _ ih =>
    obtain ⟨_, ihA, ihB, _⟩ := ih hq
    rcases (alternate_symStep A B hAk hBk c p p2).1 hstep with
      ⟨p1, q1, h1, h2, hs⟩ | ⟨p1, q1, h1, h2, hs⟩
    · have hp1 := symStep_lt hs
      have hq1 := hA.sym c p1 q1 hs
      refine ⟨fun hp => ?_, fun p' hp hlt => ?_, fun p' hp hlt => ?_, fun hp => ?_⟩
      · omega
      · obtain ⟨a, ha, hpath⟩ := ihA q1 h2 hq1
        have hpp : p' = p1 := by omega
        rw [hpp]
        exact ⟨a, ha, NFA.Path.sym hs hpath⟩
      · omega
      · omega
    · have hp1 := symStep_lt hs
      have hq1 := hB.sym c p1 q1 hs
      refine ⟨fun hp => ?_, fun p' hp hlt => ?_, fun p' hp hlt => ?_, fun hp => ?_⟩
      · omega
      · omega
      · obtain ⟨b, hb, hpath⟩ := ihB q1 h2 hq1
        have hpp : p' = p1 := by omega
        rw [hpp]
        exact ⟨b, hb, NFA.Path.sym hs hpath⟩
      · omega

/-- `alternate` accepts the union of the two languages. -/
theorem alternate_accepts (A B : NFA) (hA : A.Closed) (hAk : A.KeysSorted) (hB : B.Closed)
    (hBk : B.KeysSorted) (w : List Char) :
    (alternate A B).accepts w ↔ A.accepts w ∨ B.accepts w := by
  constructor
  · rintro ⟨x, hx, hpath⟩
    rw [alternate_startState] at hpath
    exact (alternate_path_split A B hA hAk hB hBk hpath
      ((alternate_acceptStates A B x).1 hx)).1 rfl
  · intro h
    refine ⟨A.states.length + B.states.length + 1, (alternate_acceptStates A B _).2 rfl, ?_⟩
    rw [alternate_startState]
    rcases h with ⟨a, ha, hpath⟩ | ⟨b, hb, hpath⟩
    · have hlt := hA.accept a ha
      refine NFA.Path.eps ((alternate_epsStep A B _ _).2
        (Or.inr (Or.inr (Or.inl ⟨rfl, Or.inl rfl⟩)))) ?_
      have h1 := alternate_path_left A B hAk hBk hpath
      have h2 : (alternate A B).Path (a + 1) [] (A.states.length + B.states.length + 1) :=
        NFA.Path.eps ((alternate_epsStep A B _ _).2
          (Or.inr (Or.inr (Or.inr ⟨Or.inl ⟨a, ha, rfl⟩, rfl, by omega⟩)))) (NFA.Path.nil _)
      have h3 := Path.append h1 h2
      rwa [List.append_nil] at h3
    · have hlt := hB.accept b hb
      refine NFA.Path.eps ((alternate_epsStep A B _ _).2
        (Or.inr (Or.inr (Or.inl ⟨rfl, Or.inr rfl⟩)))) ?_
      have h1 := alternate_path_right A B hAk hBk hpath
      have h2 : (alternate A B).Path (b + (A.states.length + 1)) []
          (A.states.length + B.states.length + 1) :=
        NFA.Path.eps ((alternate_epsStep A B _ _).2
          (Or.inr (Or.inr (Or.inr ⟨Or.inr ⟨b, hb, rfl⟩, rfl, by omega⟩)))) (NFA.Path.nil _)
      have h3 := Path.append h1 h2
      rwa [List.append_nil] at h3

/-! ## The language of star -/

/-- A path of the operand `A` is a path of `star A`, one state further. -/
theorem star_path_lift (A : NFA) (hAk : A.KeysSorted) {p q : Nat} {w : List Char}
    (h : A.Path p w q) : (star A).Path (p + 1) w (q + 1) := by
  refine Path.shift 1 ?_ ?_ h
  · intro c p q hstep
    exact (star_symStep A hAk c _ _).2 ⟨p, q, rfl, rfl, hstep⟩
  · intro p q hstep
    exact (star_epsStep A _ _).2 (Or.inl ⟨p, q, rfl, rfl, hstep⟩)

/-- A path of `star A` that reaches the end state: from the new start state it spells a
sequence of strings of the operand; inside the copy it first completes a path of the operand
to one of its accepting states and then spells such a sequence; from the end state it is
empty. -/
theorem star_path_split (A : NFA) (hA : A.Closed) (hAk : A.KeysSorted)
    {p q : Nat} {w : List Char} (h : (star A).Path p w q)
    (hq : q = A.states.length + 1) :
    (p = 0 → ∃ ws : List (List Char), w = ws.flatten ∧ ∀ u ∈ ws, A.accepts u) ∧
      (∀ p', p = p' + 1 → p' < A.states.length →
        ∃ u a ws, w = u ++ List.flatten ws ∧ A.Path p' u a ∧ a ∈ A.acceptStates ∧
          ∀ v ∈ ws, A.accepts v) ∧
      (p = A.states.length + 1 → w = []) := by
  induction h with
  | nil p =>
    refine ⟨fun hp => ?_, fun p' hp hlt => ?_, fun _ => rfl⟩ <;> omega
  | @eps p p2 r w hstep _ ih =>
    obtain ⟨_, ihA, ihE⟩ := ih hq
    rcases (star_epsStep A p p2).1 hstep with
      ⟨p1, q1, h1, h2, hs⟩ | ⟨h1, h2⟩ | ⟨⟨a, ha, h1⟩, h2, h3⟩
    · have hp1 := epsStep_lt hs
      have hq1 := hA.eps p1 q1 hs
      refine ⟨fun hp => ?_, fun p' hp hlt => ?_, fun hp => ?_⟩
      · omega
      · obtain ⟨u, a, ws, hw, hpath, ha, hws⟩ := ihA q1 h2 hq1
        have hpp : p' = p1 := by omega
        rw [hpp]
        exact ⟨u, a, ws, hw, NFA.Path.eps hs hpath, ha, hws⟩
      · omega
    · refine ⟨fun _ => ?_, fun p' hp hlt => ?_, fun hp => ?_⟩
      · rcases h2 with h2 | h2
        · obtain ⟨u, a, ws, hw, hpath, ha, hws⟩ := ihA A.startState h2 hA.start
          refine ⟨u :: ws, ?_, ?_⟩
          · rw [List.flatten_cons]
            exact hw
          · intro v hv
            rcases List.mem_cons.1 hv with hv | hv
            · rw [hv]
              exact ⟨a, ha, hpath⟩
            · exact hws v hv
        · refine ⟨[], ?_, ?_⟩
          · rw [ihE h2]
            rfl
          · intro v hv
            exact absurd hv (List.not_mem_nil v)
      · omega
      · omega
    · have hlt := hA.accept a ha
      refine ⟨fun hp => ?_, fun p' hp _ => ?_, fun hp => ?_⟩
      · omega
      · have hpp : p' = a := by omega
        rw [hpp]
        rcases h2 with h2 | h2
        · refine ⟨[], a, [], ?_, NFA.Path.nil a, ha, ?_⟩
          · rw [ihE h2]
            rfl
          · intro v hv
            exact absurd hv (List.not_mem_nil v)
        · obtain ⟨u, a2, ws, hw, hpath, ha2, hws⟩ := ihA A.startState h2 hA.start
          refine ⟨[], a, u :: ws, ?_, NFA.Path.nil a, ha, ?_⟩
          · rw [List.flatten_cons, List.nil_append]
            exact hw
          · intro v hv
            rcases List.mem_cons.1 hv with hv | hv
            · rw [hv]
              exact ⟨a2, ha2, hpath⟩
            · exact hws v hv
      · omega
  | @sym p p2 r c w hstep _ ih =>
    obtain ⟨_, ihA, _⟩ := ih hq
    obtain ⟨p1, q1, h1, h2, hs⟩ := (star_symStep A hAk c p p2).1 hstep
    have hp1 := symStep_lt hs
    have hq1 := hA.sym c p1 q1 hs
    refine ⟨fun hp => ?_, fun p' hp hlt => ?_, fun hp => ?_⟩
    · omega
    · obtain ⟨u, a, ws, hw, hpath, ha, hws⟩ := ihA q1 h2 hq1
      have hpp : p' = p1 := by omega
      rw [hpp]
      refine ⟨c :: u, a, ws, ?_, NFA.Path.sym hs hpath, ha, hws⟩
      rw [hw]
      rfl
    · omega

/-- From the copy of the operand's start state, `star A` spells every non-empty sequence of
strings of the operand on its way to the end state. -/
theorem star_path_repeat (A : NFA) (hA : A.Closed) (hAk : A.KeysSorted) :
    ∀ (ws : List (List Char)) (u : List Char), A.accepts u → (∀ v ∈ ws, A.accepts v) →
      (star A).Path (A.startState + 1) (u ++ List.flatten ws) (A.states.length + 1) := by
  intro ws
  induction ws with
  | nil =>
    rintro u ⟨a, ha, hpath⟩ _
    have hlt := hA.accept a ha
    have h1 := star_path_lift A hAk hpath
    have h2 : (star A).Path (a + 1) [] (A.states.length + 1) :=
      NFA.Path.eps ((star_epsStep A _ _).2
        (Or.inr (Or.inr ⟨⟨a, ha, rfl⟩, Or.inl rfl, by omega⟩))) (NFA.Path.nil _)
    exact Path.append h1 h2
  | cons v ws ih =>
    rintro u ⟨a, ha, hpath⟩ hws
    have hlt := hA.accept a ha
    have h1 := star_path_lift A hAk hpath
    have h2 := ih v (hws v (List.mem_cons_self v ws))
      (fun x hx => hws x (List.mem_cons_of_mem v hx))
    have h3 : (star A).Path (a + 1) (v ++ List.flatten ws) (A.states.length + 1) :=
      NFA.Path.eps ((star_epsStep A _ _).2
        (Or.inr (Or.inr ⟨⟨a, ha, rfl⟩, Or.inr rfl, by omega⟩))) h2
    rw [List.flatten_cons]
    exact Path.append h1 h3

/-- `star` accepts the Kleene closure of the operand's language. -/
theorem star_accepts (A : NFA) (hA : A.Closed) (hAk : A.KeysSorted) (w : List Char) :
    (star A).accepts w ↔ ∃ ws : List (List Char), w = ws.flatten ∧ ∀ u ∈ ws, A.accepts u := by
  constructor
  · rintro ⟨x, hx, hpath⟩
    rw [star_startState] at hpath
    exact (star_path_split A hA hAk hpath ((star_acceptStates A x).1 hx)).1 rfl
  · rintro ⟨ws, hw, hws⟩
    refine ⟨A.states.length + 1, (star_acceptStates A _).2 rfl, ?_⟩
    rw [star_startState, hw]
    cases ws with
    | nil =>
      exact NFA.Path.eps ((star_epsStep A _ _).2 (Or.inr (Or.inl ⟨rfl, Or.inr rfl⟩)))
        (NFA.Path.nil _)
    | cons u ws =>
      rw [List.flatten_cons]
      exact NFA.Path.eps ((star_epsStep A _ _).2 (Or.inr (Or.inl ⟨rfl, Or.inl rfl⟩)))
        (star_path_repeat A hA hAk ws u (hws u (List.mem_cons_self u ws))
          (fun x hx => hws x (List.mem_cons_of_mem u hx)))

/-! ### The alphabet of the automata of `parseRegex` -/

/-- An automaton whose alphabet covers its labels has no edge labelled `\0`. -/
theorem NFA.AlphabetCovers.label_ne_zero {nfa : NFA} (h : nfa.AlphabetCovers) {c : Char}
    {p q : Nat} (hstep : nfa.symStep c p q) : c ≠ Char.ofNat 0 := by
  intro h0
  rw [h0] at hstep
  exact h.nonzero (h.labels _ p q hstep)

theorem alternate_alphabetCovers (A B : NFA) (hA : A.AlphabetCovers) (hAk : A.KeysSorted)
    (hB : B.AlphabetCovers) (hBk : B.KeysSorted) : (alternate A B).AlphabetCovers where
  labels := by
    intro c p q h
    rw [alternate_alphabet A B hAk hBk]
    rcases (alternate_symStep A B hAk hBk c p q).1 h with ⟨p', q', _, _, h⟩ | ⟨p', q', _, _, h⟩
    · exact ⟨hA.label_ne_zero h, Or.inl ⟨p', q', h⟩⟩
    · exact ⟨hB.label_ne_zero h, Or.inr ⟨p', q', h⟩⟩
  nonzero := by
    rw [alternate_alphabet A B hAk hBk]
    exact fun h => h.1 rfl

theorem star_alphabetCovers (A : NFA) (hA : A.AlphabetCovers) (hAk : A.KeysSorted) :
    (star A).AlphabetCovers where
  labels := by
    intro c p q h
    rw [star_alphabet A hAk]
    obtain ⟨p', q', _, _, h⟩ := (star_symStep A hAk c p q).1 h
    exact ⟨hA.label_ne_zero h, p', q', h⟩
  nonzero := by
    rw [star_alphabet A hAk]
    exact fun h => h.1 rfl

theorem processOperator_covers (op : Char) (ns : List NFA)
    (h : ∀ x ∈ ns, x.AlphabetCovers ∧ x.KeysSorted) :
    ∀ x ∈ processOperator op ns, x.AlphabetCovers ∧ x.KeysSorted := by
  unfold processOperator
  match ns, h with
  | [], h => exact h
  | [a], h => exact h
  | nfa2 :: nfa1 :: rest, h =>
    simp only
    split_ifs with hop
    · intro x hx
      rcases List.mem_cons.1 hx with rfl | hx
      · have h1 := h nfa1 (by simp)
        have h2 := h nfa2 (by simp)
        exact ⟨alternate_alphabetCovers nfa1 nfa2 h1.1 h1.2 h2.1 h2.2,
          alternate_keysSorted nfa1 nfa2⟩
      · exact h x (by simp [hx])
    · exact h

theorem reduceOps_covers (ops : List Char) (ns : List NFA)
    (h : ∀ x ∈ ns, x.AlphabetCovers ∧ x.KeysSorted) :
    ∀ x ∈ (reduceOps ops ns).2, x.AlphabetCovers ∧ x.KeysSorted := by
  induction ops generalizing ns with
  | nil => exact h
  | cons op ops ih =>
    unfold reduceOps
    split_ifs with hop
    · exact ih _ (processOperator_covers op ns h)
    · exact h

theorem scanChar_covers (st : List NFA × List Char) (c : Char)
    (h : ∀ x ∈ st.1, x.AlphabetCovers ∧ x.KeysSorted) :
    ∀ x ∈ (scanChar st c).1, x.AlphabetCovers ∧ x.KeysSorted := by
  unfold scanChar
  split_ifs with h1 h2 h3 h4 h5
  · intro x hx
    rcases List.mem_cons.1 hx with rfl | hx
    · exact ⟨charNFA_alphabetCovers c (isAlphanum_ne_zero h1), charNFA_keysSorted c⟩
    · exact h x hx
  · exact h
  · exact reduceOps_covers st.2 st.1 h
  · exact reduceOps_covers st.2 st.1 h
  · match hst : st.1, h with
    | [], h => simp [hst]
    | nfa :: rest, h =>
      simp only
      intro x hx
      rcases List.mem_cons.1 hx with rfl | hx
      · have h1 := h nfa (by simp)
        exact ⟨star_alphabetCovers nfa h1.1 h1.2, star_keysSorted nfa⟩
      · exact h x (by simp [hx])
  · exact h

theorem scan_covers (regex : List Char) (st : List NFA × List Char)
    (h : ∀ x ∈ st.1, x.AlphabetCovers ∧ x.KeysSorted) :
    ∀ x ∈ (regex.foldl scanChar st).1, x.AlphabetCovers ∧ x.KeysSorted := by
  induction regex generalizing st with
  | nil => exact h
  | cons c regex ih => exact ih _ (scanChar_covers st c h)

theorem flush_covers (ops : List Char) (ns : List NFA)
    (h : ∀ x ∈ ns, x.AlphabetCovers ∧ x.KeysSorted) :
    ∀ x ∈ ops.foldl (fun ns op => processOperator op ns) ns,
      x.AlphabetCovers ∧ x.KeysSorted := by
  induction ops generalizing ns with
  | nil => exact h
  | cons op ops ih => exact ih _ (processOperator_covers op ns h)

theorem concatAll_covers (rest : List NFA) (top : NFA)
    (htop : top.AlphabetCovers ∧ top.KeysSorted)
    (h : ∀ x ∈ rest, x.AlphabetCovers ∧ x.KeysSorted) :
    (concatAll top rest).AlphabetCovers := by
  induction rest generalizing top with
  | nil => exact htop.1
  | cons nfa1 rest ih =>
    simp only [concatAll]
    have h1 := h nfa1 (by simp)
    exact ih _ ⟨concatenate_alphabetCovers nfa1 top h1.1 htop.1 htop.2,
      concatenate_keysSorted nfa1 top h1.2⟩ (fun x hx => h x (by simp [hx]))

/-- The alphabet of whatever `parseRegex` returns holds the label of every edge. -/
theorem parseRegex_alphabetCovers (regex : List Char) (nfa : NFA)
    (h : parseRegex regex = some nfa) : nfa.AlphabetCovers := by
  unfold parseRegex at h
  have hgood := flush_covers (regex.foldl scanChar ([], [])).2 (regex.foldl scanChar ([], [])).1
    (scan_covers regex ([], []) (by simp))
  match hst : (regex.foldl scanChar ([], [])).2.foldl (fun ns op => processOperator op ns)
      (regex.foldl scanChar ([], [])).1, hgood with
  | [], _ =>
    simp only [hst] at h
    exact Option.noConfusion h
  | top :: rest, hgood =>
    simp only [hst] at h
    obtain rfl := Option.some.inj h
    exact concatAll_covers rest top (hgood top (by simp)) (fun x hx => hgood x (by simp [hx]))

/-- The DFA of `convert` accepts exactly the strings that the automaton of `parseRegex`
accepts. -/
theorem convert_accepts (regex : List Char) (nfa : NFA) (h : parseRegex regex = some nfa) :
    ∃ d, convert regex = some d ∧ ∀ w, ((d.validate w).1 = true ↔ nfa.accepts w) := by
  obtain ⟨d, hd, hacc⟩ := subsetConstruction_accepts nfa (parseRegex_good regex nfa h).1.closed
    (parseRegex_alphabetCovers regex nfa h)
  refine ⟨d, ?_, fun w => ?_⟩
  · simp only [convert, h]
    exact hd
  · rw [validate_fst]
    exact hacc w

/-! ## The properties of the specification -/

/-- C1 (the code departs from it): under the usual semantics `ab|c` denotes
`{ab, c}`, but the DFA compiled from `ab|c` rejects `c` and accepts `ac`: the builder
applies `|` to the two operands on top of the stack, here `b` and `c`, and
concatenates only at the end, so that it builds `a(b|c)`. -/
theorem C1_alternation_takes_adjacent_literals :
    matchRegex "ab|c".toList "c".toList = some false ∧
    "c".toList ∈ (RegularExpression.char 'a' * RegularExpression.char 'b' +
      RegularExpression.char 'c' : RegularExpression Char).matches' ∧
    matchRegex "ab|c".toList "ac".toList = some true ∧
    "ac".toList ∉ (RegularExpression.char 'a' * RegularExpression.char 'b' +
      RegularExpression.char 'c' : RegularExpression Char).matches' := by
  refine ⟨by decide, ?_, by decide, ?_⟩
  · rw [← RegularExpression.rmatch_iff_matches']
    decide
  · rw [← RegularExpression.rmatch_iff_matches']
    decide

/-- C2: for a non-empty regex `L` of alphanumeric characters, the DFA compiled from `L`
answers true on `s` exactly when `s = L`; for `abc` the strings `ab`, `abcd` and the
empty string are rejected. -/
theorem C2_literal_concatenation (L : List Char) (hne : L ≠ [])
    (hL : ∀ c ∈ L, c.isAlphanum = true) (s : List Char) :
    matchRegex L s = some (decide (s = L)) ∧
      matchRegex "abc".toList "ab".toList = some false ∧
      matchRegex "abc".toList "abcd".toList = some false ∧
      matchRegex "abc".toList [] = some false := by
  refine ⟨?_, by decide, by decide, by decide⟩
  obtain ⟨nfa, hparse, hC, -, hA, hlang⟩ := parseRegex_literals L hne hL
  obtain ⟨d, hd, hacc⟩ := subsetConstruction_accepts nfa hC hA
  have hconv : convert L = some d := by
    simp only [convert, hparse]
    exact hd
  unfold matchRegex
  rw [hconv]
  simp only [Option.map_some', validate_fst, Option.some.injEq]
  rw [Bool.eq_iff_iff, hacc s, hlang s, decide_eq_true_iff]

theorem C2_literal_concatenation_witness :
    "abc".toList ≠ [] ∧ (∀ c ∈ "abc".toList, c.isAlphanum = true) ∧
      matchRegex "abc".toList "abc".toList = some true :=
  ⟨by decide, by decide, by
    have h := (C2_literal_concatenation "abc".toList (by decide) (by decide) "abc".toList).1
    rw [h]
    decide⟩

/-- C3: on every string `w` over `0`, `1` the DFA compiled from `(0|1)*1(0|1)(0|1)`
answers true exactly when `w` has at least three symbols and the third from the end is
`1`; `1101` and `111` are accepted, `0001` is rejected. -/
theorem C3_third_from_end (w : List Char) (hw : ∀ c ∈ w, c = '0' ∨ c = '1') :
    matchRegex "(0|1)*1(0|1)(0|1)".toList w =
        some (decide (3 ≤ w.length ∧ w[w.length - 3]? = some '1')) ∧
      matchRegex "(0|1)*1(0|1)(0|1)".toList "1101".toList = some true ∧
      matchRegex "(0|1)*1(0|1)(0|1)".toList "111".toList = some true ∧
      matchRegex "(0|1)*1(0|1)(0|1)".toList "0001".toList = some false := by
  refine ⟨?_, by decide, by decide, by decide⟩
  unfold matchRegex
  rw [convert_thirdFromEnd]
  simp only [Option.map_some', validate_fst, DFA.accepts, DFA.acceptsFrom]
  obtain ⟨q, hq, hr, hcode⟩ := thirdFromEnd_run w hw 0 (by decide)
  have h0 : thirdFromEndDFA.startState = 0 := rfl
  rw [h0, hr]
  simp only [Option.some.injEq, decide_eq_decide]
  rw [thirdFromEnd_accept q hq, hcode]
  exact shift_register w hw

theorem C3_third_from_end_witness :
    (∀ c ∈ "01101".toList, c = '0' ∨ c = '1') ∧
      matchRegex "(0|1)*1(0|1)(0|1)".toList "01101".toList = some true :=
  ⟨by decide, by
    have h := (C3_third_from_end "01101".toList (by decide)).1
    rw [h]
    decide⟩

/-- C4 (as stated it fails): the six verdicts of the claim do not all hold; already the
first fails, the DFA compiled from `(0|1)*1(0|1)(0|1)` accepts `100`. -/
theorem C4_counterexample :
    ¬ (matchRegex "(0|1)*1(0|1)(0|1)".toList "100".toList = some false ∧
      matchRegex "(0|1)*1(0|1)(0|1)".toList "1000".toList = some true ∧
      matchRegex "(0|1)*1(0|1)(0|1)".toList "101".toList = some false ∧
      matchRegex "(0|1)*1(0|1)(0|1)".toList "010".toList = some false ∧
      matchRegex "(0|1)*1(0|1)(0|1)".toList "1111".toList = some true ∧
      matchRegex "(0|1)*1(0|1)(0|1)".toList "00100".toList = some false) := by
  decide

/-- C4 (amended): on the DFA compiled from `(0|1)*1(0|1)(0|1)`, `100` is accepted,
`1000` rejected, `101` accepted, `010` rejected, `1111` accepted, `00100` accepted. -/
theorem C4_additional_tests :
    matchRegex "(0|1)*1(0|1)(0|1)".toList "100".toList = some true ∧
    matchRegex "(0|1)*1(0|1)(0|1)".toList "1000".toList = some false ∧
    matchRegex "(0|1)*1(0|1)(0|1)".toList "101".toList = some true ∧
    matchRegex "(0|1)*1(0|1)(0|1)".toList "010".toList = some false ∧
    matchRegex "(0|1)*1(0|1)(0|1)".toList "1111".toList = some true ∧
    matchRegex "(0|1)*1(0|1)(0|1)".toList "00100".toList = some true := by
  decide

/-- C5: the DFA compiled from `(a|b)*abb` accepts `abb`, `aabb`, `babb`, `ababb` and
rejects `ab`, `a`, `bb` and the empty string. -/
theorem C5_ends_in_abb :
    matchRegex "(a|b)*abb".toList "abb".toList = some true ∧
    matchRegex "(a|b)*abb".toList "aabb".toList = some true ∧
    matchRegex "(a|b)*abb".toList "babb".toList = some true ∧
    matchRegex "(a|b)*abb".toList "ababb".toList = some true ∧
    matchRegex "(a|b)*abb".toList "ab".toList = some false ∧
    matchRegex "(a|b)*abb".toList "a".toList = some false ∧
    matchRegex "(a|b)*abb".toList "bb".toList = some false ∧
    matchRegex "(a|b)*abb".toList [] = some false := by
  decide

/-- C6: the DFA compiled from `a*b*` accepts the empty string, `aaa`, `bbb`, `aaabbb`
and rejects `ba` and `aba`. -/
theorem C6_a_star_b_star :
    matchRegex "a*b*".toList [] = some true ∧
    matchRegex "a*b*".toList "aaa".toList = some true ∧
    matchRegex "a*b*".toList "bbb".toList = some true ∧
    matchRegex "a*b*".toList "aaabbb".toList = some true ∧
    matchRegex "a*b*".toList "ba".toList = some false ∧
    matchRegex "a*b*".toList "aba".toList = some false := by
  decide

/-- C7 (the code departs from it): for a regex without any alphanumeric character the
operand stack is empty after the reduction, and `parseRegex` reads `top()` of the empty
stack, which has no defined result (`none`); no error is raised. -/
theorem C7_empty_operand_stack (regex : List Char) (h : ∀ c ∈ regex, c.isAlphanum = false) :
    parseRegex regex = none ∧ convert regex = none := by
  have hp : parseRegex regex = none := by
    unfold parseRegex
    simp only [scan_no_operand regex h ([], []) rfl, processOperator_all_nil]
  exact ⟨hp, by simp [convert, hp]⟩

theorem C7_empty_operand_stack_witness :
    (∀ c ∈ "(|)*".toList, c.isAlphanum = false) ∧
      parseRegex "(|)*".toList = none ∧ convert "(|)*".toList = none :=
  ⟨by decide, C7_empty_operand_stack _ (by decide)⟩

/-- C8: `parseRegex` and `convert` give the same result on a regex and on the regex
from which every character that is neither alphanumeric nor one of `(`, `)`, `|`, `*`
has been deleted. -/
theorem C8_other_characters_ignored (r : List Char) :
    parseRegex (r.filter inGrammar) = parseRegex r ∧
      convert (r.filter inGrammar) = convert r := by
  have h : parseRegex (r.filter inGrammar) = parseRegex r := by
    simp only [parseRegex, foldl_scanChar_filter]
  exact ⟨h, by simp only [convert, h]⟩

/-- C9: `validate` answers true on the empty string exactly when the start state is in
the accept set. -/
theorem C9_empty_input (d : DFA) :
    (d.validate []).1 = true ↔ d.startState ∈ d.acceptStates := by
  simp [DFA.validate, DFA.validateLoop]

/-- C10: `validate` answers false on every string that has a symbol outside the
alphabet of the DFA. -/
theorem C10_symbol_outside_alphabet (d : DFA) (str : List Char)
    (h : ∃ c ∈ str, c ∉ d.alphabet) : (d.validate str).1 = false :=
  validateLoop_outside str d d.startState h

theorem C10_symbol_outside_alphabet_witness :
    (∃ c ∈ "1a01".toList, c ∉ thirdFromEndDFA.alphabet) ∧
      (thirdFromEndDFA.validate "1a01".toList).1 = false :=
  ⟨by decide, C10_symbol_outside_alphabet _ _ (by decide)⟩

/-- C11 (the code departs from it): `validate` writes to the DFA. On the DFA compiled
from `a`, whose table has a row for state 0 only, `validate("aa")` leaves the table with
an added empty row for state 1 (`transitions[currentState]` is the non-const
`operator[]`). -/
theorem C11_validate_adds_row :
    (convert "a".toList).map (fun d => d.transitions) = some [(0, [('a', 1)])] ∧
    (convert "a".toList).map (fun d => (d.validate "aa".toList).2.transitions) =
      some [(0, [('a', 1)]), (1, [])] ∧
    (convert "a".toList).map (fun d => decide ((d.validate "aa".toList).2 = d)) =
      some false := by
  decide

/-- C12: for every DFA (those of `convert` among them) and all strings `u`, `w`, the
verdict of `validate(w)` on the object left by `validate(u)` is the verdict on the fresh
object; in particular a second call with the same input gives the same verdict. -/
theorem C12_no_memory (d : DFA) (u w : List Char) :
    ((d.validate u).2.validate w).1 = (d.validate w).1 ∧
      ((d.validate w).2.validate w).1 = (d.validate w).1 :=
  ⟨validate_after d u w, validate_after d w w⟩

/-- C13: for a well-formed automaton with `n` states the subset construction returns a
DFA with at most `2 ^ n` states. -/
theorem C13_state_count (nfa : NFA) (h : nfa.WellFormed) :
    ∃ d, subsetConstruction nfa = some d ∧ d.dfaStates.length ≤ 2 ^ nfa.states.length := by
  obtain ⟨d, hd, hinv⟩ := subsetConstruction_spec nfa h.closed
  exact ⟨d, hd, hinv.card_le⟩

theorem C13_state_count_witness :
    (charNFA 'a').WellFormed ∧
      ∃ d, subsetConstruction (charNFA 'a') = some d ∧
        d.dfaStates.length ≤ 2 ^ (charNFA 'a').states.length :=
  ⟨charNFA_wellFormed 'a', C13_state_count _ (charNFA_wellFormed 'a')⟩

/-- C14: for a well-formed automaton with `n` states the worklist loop of `convert`
terminates: entered with the start closure, it returns the DFA within any budget of at
least `2 ^ n` turns of its body, which is the budget of `subsetConstruction`; and no
subset is queued twice (each queued subset is appended to `dfaStates`, which has no
duplicate). -/
theorem C14_worklist_terminates (nfa : NFA) (h : nfa.WellFormed) :
    ∃ S0 d, epsilonClosure [nfa.startState] nfa = some S0 ∧
      (∀ fuel, 2 ^ nfa.states.length ≤ fuel →
        worklist nfa fuel (startDFA nfa S0) [S0] = some d) ∧
      subsetConstruction nfa = some d ∧ d.dfaStates.Nodup := by
  obtain ⟨S0, hS0, -⟩ := epsilonClosure_spec nfa h.closed.eps [nfa.startState]
  obtain ⟨d, hd, hinv⟩ := subsetConstruction_spec nfa h.closed
  refine ⟨S0, d, hS0, fun fuel hfuel => ?_, hd, hinv.nodup⟩
  rw [subsetConstruction_eq nfa S0 hS0] at hd
  exact worklist_mono nfa _ _ _ d hd fuel hfuel

theorem C14_worklist_terminates_witness :
    (charNFA 'a').WellFormed ∧
      ∃ S0 d, epsilonClosure [(charNFA 'a').startState] (charNFA 'a') = some S0 ∧
        (∀ fuel, 2 ^ (charNFA 'a').states.length ≤ fuel →
          worklist (charNFA 'a') fuel (startDFA (charNFA 'a') S0) [S0] = some d) ∧
        subsetConstruction (charNFA 'a') = some d ∧ d.dfaStates.Nodup :=
  ⟨charNFA_wellFormed 'a', C14_worklist_terminates _ (charNFA_wellFormed 'a')⟩

/-- C15: in the DFA that `convert` returns, the identity `i` is in `acceptStates` exactly
when `i` is the identity of a subset `dfaStates[i]` that holds an accept state of the
automaton of `parseRegex`. -/
theorem C15_accepting_states (regex : List Char) (nfa : NFA)
    (h : parseRegex regex = some nfa) :
    ∃ d, convert regex = some d ∧
      ∀ i, i ∈ d.acceptStates ↔
        ∃ S, d.dfaStates[i]? = some S ∧ ∃ s ∈ S, s ∈ nfa.acceptStates := by
  obtain ⟨d, hd, hinv⟩ := convert_spec regex nfa h
  refine ⟨d, hd, fun i => ?_⟩
  constructor
  · intro hi
    have hlt := hinv.acceptBound i hi
    exact ⟨d.dfaStates[i], List.getElem?_eq_getElem hlt,
      (hinv.accept i _ (List.getElem?_eq_getElem hlt)).1 hi⟩
  · rintro ⟨S, hS, hacc⟩
    exact (hinv.accept i S hS).2 hacc

theorem C15_accepting_states_witness :
    parseRegex "a".toList = some (charNFA 'a') ∧
      ∃ d, convert "a".toList = some d ∧
        ∀ i, i ∈ d.acceptStates ↔
          ∃ S, d.dfaStates[i]? = some S ∧ ∃ s ∈ S, s ∈ (charNFA 'a').acceptStates :=
  ⟨rfl, C15_accepting_states _ _ rfl⟩

/-- C16: in the DFA that `convert` returns, for every state `i` with subset `S` and every
symbol `c` of the alphabet, `U = epsilonClosure(move(S, c))` is defined; when `U` is empty
the table has no entry for `(i, c)`, otherwise its entry is the identity `j` with
`dfaStates[j] = U`; the start state is 0 and `dfaStates[0]` is
`epsilonClosure({nfa.startState})`. -/
theorem C16_transition_table (regex : List Char) (nfa : NFA)
    (h : parseRegex regex = some nfa) :
    ∃ d, convert regex = some d ∧
      (∀ i S, d.dfaStates[i]? = some S → ∀ c ∈ nfa.alphabet,
        ∃ U, epsilonClosure (move S c nfa) nfa = some U ∧
          (U = [] → d.delta i c = none) ∧
          (U ≠ [] → ∃ j, d.delta i c = some j ∧ d.dfaStates[j]? = some U)) ∧
      d.startState = 0 ∧
      ∃ S0, epsilonClosure [nfa.startState] nfa = some S0 ∧ d.dfaStates[0]? = some S0 := by
  obtain ⟨d, hd, hinv⟩ := convert_spec regex nfa h
  have hC := (parseRegex_good regex nfa h).1.closed
  refine ⟨d, hd, ?_, hinv.start, ?_⟩
  · intro i S hS c hc
    obtain ⟨U, hU, -⟩ := epsilonClosure_spec nfa hC.eps (move S c nfa)
    exact ⟨U, hU, hinv.trans i c ⟨lt_of_getElem? hS, hc⟩ S hS U hU⟩
  · obtain ⟨S0, hS0, -⟩ := epsilonClosure_spec nfa hC.eps [nfa.startState]
    exact ⟨S0, hS0, by rw [hinv.first, hS0]⟩

theorem C16_transition_table_witness :
    parseRegex "a".toList = some (charNFA 'a') ∧
      ∃ d, convert "a".toList = some d ∧
        (∀ i S, d.dfaStates[i]? = some S → ∀ c ∈ (charNFA 'a').alphabet,
          ∃ U, epsilonClosure (move S c (charNFA 'a')) (charNFA 'a') = some U ∧
            (U = [] → d.delta i c = none) ∧
            (U ≠ [] → ∃ j, d.delta i c = some j ∧ d.dfaStates[j]? = some U)) ∧
        d.startState = 0 ∧
        ∃ S0, epsilonClosure [(charNFA 'a').startState] (charNFA 'a') = some S0 ∧
          d.dfaStates[0]? = some S0 :=
  ⟨rfl, C16_transition_table _ _ rfl⟩

/-- C17: in the DFA that `convert` returns, `stateMap` sends a subset to `i` exactly when
the subset is `dfaStates[i]`, the subsets in `dfaStates` are pairwise distinct, and they
are exactly the non-empty subsets reachable from `epsilonClosure({nfa.startState})` by
applying `epsilonClosure(move(., c))` for symbols `c` of the alphabet. -/
theorem C17_subsets_and_identities (regex : List Char) (nfa : NFA)
    (h : parseRegex regex = some nfa) :
    ∃ d, convert regex = some d ∧
      (∀ S i, mapFind S d.stateMap = some i ↔ d.dfaStates[i]? = some S) ∧
      d.dfaStates.Nodup ∧
      ∀ S, S ∈ d.dfaStates ↔ (SubsetReachable nfa S ∧ S ≠ []) := by
  obtain ⟨d, hd, hinv⟩ := convert_spec regex nfa h
  refine ⟨d, hd, hinv.stateMap, hinv.nodup, fun S => ?_⟩
  constructor
  · intro hS
    exact ⟨hinv.reach S hS, hinv.nonempty S hS⟩
  · rintro ⟨hS, hne⟩
    exact (hinv.complete hS).resolve_left hne

theorem C17_subsets_and_identities_witness :
    parseRegex "a".toList = some (charNFA 'a') ∧
      ∃ d, convert "a".toList = some d ∧
        (∀ S i, mapFind S d.stateMap = some i ↔ d.dfaStates[i]? = some S) ∧
        d.dfaStates.Nodup ∧
        ∀ S, S ∈ d.dfaStates ↔ (SubsetReachable (charNFA 'a') S ∧ S ≠ []) :=
  ⟨rfl, C17_subsets_and_identities _ _ rfl⟩

/-- C18: for a well-formed automaton and a set `S` of its states, `epsilonClosure(S)`
returns a set that contains `S`, is closed under epsilon edges and is included in every
set with these two properties; it holds exactly the states reachable from `S` along
epsilon edges. -/
theorem C18_epsilon_closure_least (nfa : NFA) (h : nfa.WellFormed) (S : List Nat)
    (hS : ∀ x ∈ S, x < nfa.states.length) :
    ∃ r, epsilonClosure S nfa = some r ∧
      (∀ x ∈ S, x ∈ r) ∧
      (∀ x ∈ r, ∀ y, nfa.epsStep x y → y ∈ r) ∧
      (∀ T : Nat → Prop, (∀ x ∈ S, T x) → (∀ x y, T x → nfa.epsStep x y → T y) →
        ∀ x ∈ r, T x) ∧
      ∀ x, x ∈ r ↔ ∃ s ∈ S, Relation.ReflTransGen nfa.epsStep s x := by
  obtain ⟨r, hr, hmem, -⟩ := epsilonClosure_spec nfa h.closed.eps S
  refine ⟨r, hr, ?_, ?_, ?_, hmem⟩
  · exact fun x hx => (hmem x).2 ⟨x, hx, Relation.ReflTransGen.refl⟩
  · intro x hx y hy
    obtain ⟨s, hs, hreach⟩ := (hmem x).1 hx
    exact (hmem y).2 ⟨s, hs, hreach.tail hy⟩
  · intro T hT hstep x hx
    obtain ⟨s, hs, hreach⟩ := (hmem x).1 hx
    induction hreach with
    | refl => exact hT s hs
    | tail hprev hy ih => exact hstep _ _ (ih ((hmem _).2 ⟨s, hs, hprev⟩)) hy

theorem C18_epsilon_closure_least_witness :
    (star (charNFA 'a')).WellFormed ∧ (∀ x ∈ [0], x < (star (charNFA 'a')).states.length) ∧
      ∃ r, epsilonClosure [0] (star (charNFA 'a')) = some r ∧
        (∀ x ∈ [0], x ∈ r) ∧
        (∀ x ∈ r, ∀ y, (star (charNFA 'a')).epsStep x y → y ∈ r) ∧
        (∀ T : Nat → Prop, (∀ x ∈ [0], T x) →
          (∀ x y, T x → (star (charNFA 'a')).epsStep x y → T y) → ∀ x ∈ r, T x) ∧
        ∀ x, x ∈ r ↔ ∃ s ∈ [0], Relation.ReflTransGen (star (charNFA 'a')).epsStep s x :=
  ⟨star_wellFormed _ (charNFA_wellFormed 'a') (charNFA_keysSorted 'a'), by decide,
    C18_epsilon_closure_least _
      (star_wellFormed _ (charNFA_wellFormed 'a') (charNFA_keysSorted 'a')) [0] (by decide)⟩

/-- C19 (the code departs from it): a closed group need not be one fragment. After the
scan of `(ab)`, which starts on an empty operand stack, the stack holds two fragments
(and the operator stack is empty), so the `*` of `(ab)*` applies to `b` alone: the DFA
compiled from `(ab)*` rejects the empty string and `abab` and accepts `abb`. -/
theorem C19_group_leaves_two_fragments :
    ("(ab)".toList.foldl scanChar ([], [])).1.length = 2 ∧
    ("(ab)".toList.foldl scanChar ([], [])).2 = [] ∧
    matchRegex "(ab)*".toList [] = some false ∧
    matchRegex "(ab)*".toList "abab".toList = some false ∧
    matchRegex "(ab)*".toList "abb".toList = some true := by
  decide

/-- C20: `charNFA` yields a well-formed automaton; `concatenate`, `alternate` and `star`
yield a well-formed automaton from well-formed operands (whose transition maps have
ascending keys, as every `std::map` has, and so has the result); and on a regex with an
alphanumeric character `parseRegex` returns a well-formed automaton. -/
theorem C20_builder_keeps_wellFormed :
    (∀ c, (charNFA c).WellFormed ∧ (charNFA c).KeysSorted) ∧
    (∀ A B : NFA, A.WellFormed → A.KeysSorted → B.WellFormed → B.KeysSorted →
      (concatenate A B).WellFormed ∧ (concatenate A B).KeysSorted) ∧
    (∀ A B : NFA, A.WellFormed → A.KeysSorted → B.WellFormed → B.KeysSorted →
      (alternate A B).WellFormed ∧ (alternate A B).KeysSorted) ∧
    (∀ A : NFA, A.WellFormed → A.KeysSorted → (star A).WellFormed ∧ (star A).KeysSorted) ∧
    (∀ regex : List Char, (∃ c ∈ regex, c.isAlphanum = true) →
      ∃ nfa, parseRegex regex = some nfa ∧ nfa.WellFormed) := by
  refine ⟨fun c => ⟨charNFA_wellFormed c, charNFA_keysSorted c⟩, ?_, ?_, ?_, ?_⟩
  · intro A B hA hAk hB hBk
    exact ⟨concatenate_wellFormed A B hA hAk hB hBk, concatenate_keysSorted A B hAk⟩
  · intro A B hA hAk hB hBk
    exact ⟨alternate_wellFormed A B hA hAk hB hBk, alternate_keysSorted A B⟩
  · intro A hA hAk
    exact ⟨star_wellFormed A hA hAk, star_keysSorted A⟩
  · intro regex h
    obtain ⟨nfa, hnfa⟩ := parseRegex_some regex h
    exact ⟨nfa, hnfa, (parseRegex_good regex nfa hnfa).1⟩

theorem C20_builder_keeps_wellFormed_witness :
    (∃ c ∈ "(a|b)*c".toList, c.isAlphanum = true) ∧
      (∃ nfa, parseRegex "(a|b)*c".toList = some nfa ∧ nfa.WellFormed) ∧
      (concatenate (star (charNFA 'a')) (alternate (charNFA 'b') (charNFA 'c'))).WellFormed :=
  ⟨by decide, C20_builder_keeps_wellFormed.2.2.2.2 _ (by decide),
    (C20_builder_keeps_wellFormed.2.1 _ _
      (C20_builder_keeps_wellFormed.2.2.2.1 _ (C20_builder_keeps_wellFormed.1 'a').1
        (C20_builder_keeps_wellFormed.1 'a').2).1
      (C20_builder_keeps_wellFormed.2.2.2.1 _ (C20_builder_keeps_wellFormed.1 'a').1
        (C20_builder_keeps_wellFormed.1 'a').2).2
      (C20_builder_keeps_wellFormed.2.2.1 _ _ (C20_builder_keeps_wellFormed.1 'b').1
        (C20_builder_keeps_wellFormed.1 'b').2 (C20_builder_keeps_wellFormed.1 'c').1
        (C20_builder_keeps_wellFormed.1 'c').2).1
      (C20_builder_keeps_wellFormed.2.2.1 _ _ (C20_builder_keeps_wellFormed.1 'b').1
        (C20_builder_keeps_wellFormed.1 'b').2 (C20_builder_keeps_wellFormed.1 'c').1
        (C20_builder_keeps_wellFormed.1 'c').2).2).1⟩

/-- C21 (as stated it fails): the automaton that `addState`, `addTransition` and
`setAccepting` build for one edge labelled `\0` is well-formed and accepts the string of
that one character, `addTransition` leaves `\0` out of the alphabet, and the DFA of the
subset construction rejects the string. -/
theorem C21_counterexample :
    (charNFA (Char.ofNat 0)).WellFormed ∧
      (charNFA (Char.ofNat 0)).accepts [Char.ofNat 0] ∧
      (charNFA (Char.ofNat 0)).alphabet = [] ∧
      (subsetConstruction (charNFA (Char.ofNat 0))).map
        (fun d => (d.validate [Char.ofNat 0]).1) = some false :=
  ⟨charNFA_wellFormed _, (charNFA_accepts _ _).2 rfl, by decide, by decide⟩

/-- C21 (amended): for a well-formed automaton whose alphabet holds the label of every
labelled edge, the subset construction returns a DFA, and `validate` answers true on `w`
exactly when the automaton accepts `w`, that is when a path from the start state spells `w`
and ends in an accepting state. -/
theorem C21_subset_construction_language (nfa : NFA) (h : nfa.WellFormed)
    (hlab : ∀ c p q, nfa.symStep c p q → c ∈ nfa.alphabet) :
    ∃ d, subsetConstruction nfa = some d ∧
      ∀ w, ((d.validate w).1 = true ↔ nfa.accepts w) := by
  obtain ⟨d, hd, hacc⟩ := subsetConstruction_accepts_of_labels nfa h.closed hlab
  refine ⟨d, hd, fun w => ?_⟩
  rw [validate_fst]
  exact hacc w

theorem C21_subset_construction_language_witness :
    (star (charNFA 'a')).WellFormed ∧
      (∀ c p q, (star (charNFA 'a')).symStep c p q → c ∈ (star (charNFA 'a')).alphabet) ∧
      ∃ d, subsetConstruction (star (charNFA 'a')) = some d ∧
        ∀ w, ((d.validate w).1 = true ↔ (star (charNFA 'a')).accepts w) :=
  ⟨star_wellFormed _ (charNFA_wellFormed 'a') (charNFA_keysSorted 'a'),
    (star_alphabetCovers _ (charNFA_alphabetCovers 'a' (by decide))
      (charNFA_keysSorted 'a')).labels,
    C21_subset_construction_language _
      (star_wellFormed _ (charNFA_wellFormed 'a') (charNFA_keysSorted 'a'))
      (star_alphabetCovers _ (charNFA_alphabetCovers 'a' (by decide))
        (charNFA_keysSorted 'a')).labels⟩

/-- C22: for a well-formed operand `A` (whose transition maps have ascending keys, as every
`std::map` has), `star A` accepts `w` exactly when `w` is the concatenation of a list of
strings that `A` accepts; the empty string is accepted. -/
theorem C22_star_language (A : NFA) (hA : A.WellFormed) (hAk : A.KeysSorted)
    (w : List Char) :
    ((star A).accepts w ↔
        ∃ ws : List (List Char), w = ws.flatten ∧ ∀ u ∈ ws, A.accepts u) ∧
      (star A).accepts [] :=
  ⟨star_accepts A hA.closed hAk w,
    (star_accepts A hA.closed hAk []).2 ⟨[], rfl, fun _ hu => absurd hu (List.not_mem_nil _)⟩⟩

theorem C22_star_language_witness :
    (charNFA 'a').WellFormed ∧ (charNFA 'a').KeysSorted ∧
      (star (charNFA 'a')).accepts ['a', 'a'] ∧ ¬ (star (charNFA 'a')).accepts ['a', 'b'] :=
  ⟨charNFA_wellFormed 'a', charNFA_keysSorted 'a',
    (C22_star_language (charNFA 'a') (charNFA_wellFormed 'a') (charNFA_keysSorted 'a')
      ['a', 'a']).1.2 ⟨[['a'], ['a']], rfl, by
        intro u hu
        simp only [List.mem_cons, List.mem_singleton, List.not_mem_nil, or_false, or_self] at hu
        exact (charNFA_accepts 'a' u).2 hu⟩,
    fun hacc => by
      obtain ⟨ws, hw, hws⟩ := (C22_star_language (charNFA 'a') (charNFA_wellFormed 'a')
        (charNFA_keysSorted 'a') ['a', 'b']).1.1 hacc
      have hb : 'b' ∈ ws.flatten := by
        rw [← hw]
        simp
      obtain ⟨u, hu, hbu⟩ := List.mem_flatten.1 hb
      rw [(charNFA_accepts 'a' u).1 (hws u hu)] at hbu
      simp at hbu⟩

/-- C23: for well-formed operands (the second with ascending keys in its transition maps,
as every `std::map` has), `concatenate A B` accepts `w` exactly when `w = u ++ v` for a
string `u` that `A` accepts and a string `v` that `B` accepts. -/
theorem C23_concatenate_language (A B : NFA) (hA : A.WellFormed) (hB : B.WellFormed)
    (hBk : B.KeysSorted) (w : List Char) :
    (concatenate A B).accepts w ↔ ∃ u v, w = u ++ v ∧ A.accepts u ∧ B.accepts v :=
  concatenate_accepts A B hA.closed hBk w

theorem C23_concatenate_language_witness :
    (charNFA 'a').WellFormed ∧ (charNFA 'b').WellFormed ∧ (charNFA 'b').KeysSorted ∧
      (concatenate (charNFA 'a') (charNFA 'b')).accepts ['a', 'b'] ∧
      ¬ (concatenate (charNFA 'a') (charNFA 'b')).accepts ['a'] :=
  ⟨charNFA_wellFormed 'a', charNFA_wellFormed 'b', charNFA_keysSorted 'b',
    (C23_concatenate_language (charNFA 'a') (charNFA 'b') (charNFA_wellFormed 'a')
      (charNFA_wellFormed 'b') (charNFA_keysSorted 'b') ['a', 'b']).2
      ⟨['a'], ['b'], rfl, (charNFA_accepts 'a' _).2 rfl, (charNFA_accepts 'b' _).2 rfl⟩,
    fun hacc => by
      obtain ⟨u, v, hw, hu, hv⟩ := (C23_concatenate_language (charNFA 'a') (charNFA 'b')
        (charNFA_wellFormed 'a') (charNFA_wellFormed 'b') (charNFA_keysSorted 'b') ['a']).1 hacc
      rw [(charNFA_accepts 'a' u).1 hu, (charNFA_accepts 'b' v).1 hv] at hw
      simp at hw⟩

/-- C24: for well-formed operands (with ascending keys in their transition maps, as every
`std::map` has), `alternate A B` accepts `w` exactly when `A` or `B` accepts `w`; the
state added last, the end state, is the only member of `acceptStates` and the only state
whose accepting flag is set. -/
theorem C24_alternate_language (A B : NFA) (hA : A.WellFormed) (hAk : A.KeysSorted)
    (hB : B.WellFormed) (hBk : B.KeysSorted) (w : List Char) :
    ((alternate A B).accepts w ↔ A.accepts w ∨ B.accepts w) ∧
      (alternate A B).states.length = A.states.length + B.states.length + 2 ∧
      ∀ x, (x ∈ (alternate A B).acceptStates ↔ x = A.states.length + B.states.length + 1) ∧
        ((alternate A B).flagAt x = true ↔ x = A.states.length + B.states.length + 1) :=
  ⟨alternate_accepts A B hA.closed hAk hB.closed hBk w, alternate_length A B,
    fun x => ⟨alternate_acceptStates A B x, alternate_flagAt A B x⟩⟩

theorem C24_alternate_language_witness :
    (charNFA 'a').WellFormed ∧ (charNFA 'a').KeysSorted ∧ (charNFA 'b').WellFormed ∧
      (charNFA 'b').KeysSorted ∧ (alternate (charNFA 'a') (charNFA 'b')).accepts ['b'] ∧
      (alternate (charNFA 'a') (charNFA 'b')).acceptStates = [5] :=
  ⟨charNFA_wellFormed 'a', charNFA_keysSorted 'a', charNFA_wellFormed 'b',
    charNFA_keysSorted 'b',
    (C24_alternate_language (charNFA 'a') (charNFA 'b') (charNFA_wellFormed 'a')
      (charNFA_keysSorted 'a') (charNFA_wellFormed 'b') (charNFA_keysSorted 'b') ['b']).1.2
      (Or.inr ((charNFA_accepts 'b' _).2 rfl)),
    by decide⟩

end TOC
